import Mathlib

/-!
# conf_parse: a shallow embedding of `src/conf_parse.c`

The C functions of `conf_parse.c` are rendered as Lean functions over an explicit
program state.

Conventions of the embedding (Linux x86-64, the platform the program is written for:
it reads `/proc` and uses `sysinfo`):

* `char` is a signed 8-bit integer, `short` 16 bits, `int` 32 bits, `long` and
  `long long` 64 bits, `size_t` 64 bits; integers are stored little-endian.
* Signed arithmetic wraps in two's complement (`to_signed`).
* A C string is the list of its bytes; the terminating NUL is implicit at the end of
  the list, and a 0 byte inside the list ends the string earlier (`cstr`).
* `NULL` for a `char *` argument is `none`.
* Application memory is a flat array of bytes (`Mem`); a descriptor's `addr` is a `Ptr`.
  An access through a data address is an access of that array, also when it falls
  outside the slot the descriptor was given.
* An execution that dereferences NULL, leaves one of the static arrays, walks a registry
  without sentinel, or treats the registry as application data (or the reverse) is
  `Outcome.undefined`; nested inclusion deeper than the supplied fuel is
  `Outcome.nofuel`.
* `strtoll` is the C library's; it is modelled from ISO C.
* `printf` diagnostics are not modelled.
-/

namespace ConfParse

/-! ## Machine integers and memory -/

/-- The bytes of an ASCII text. -/
def ascii (s : String) : List Nat := s.toList.map Char.toNat

/-- Two's-complement reinterpretation of `v` as a signed integer of `bits` bits. -/
def to_signed (bits : Nat) (v : Int) : Int :=
  (v + 2 ^ (bits - 1)) % 2 ^ bits - 2 ^ (bits - 1)

/-- Application memory: the byte held at every address. -/
abbrev Mem := Nat → Nat

/-- A `void *` as a descriptor carries it. `cmds` is the address of the registry the
descriptor belongs to, which is what `CONF_CMD_BEGIN(cmds)` binds. -/
inductive Ptr where
  | null
  | data (a : Nat)
  | cmds
deriving DecidableEq, Repr

/-- Result of running a C function on a state of type `σ`. -/
inductive Outcome (σ : Type) where
  | ret (r : Int) (s : σ)
  | undefined
  | nofuel

/-- Store one byte. -/
def Mem.write (m : Mem) (a : Nat) (b : Nat) : Mem :=
  fun x => if x = a then b % 256 else m x

/-- Store the `n` low bytes of `u` at `a`, least significant first. -/
def store_le (m : Mem) (a : Nat) : Nat → Nat → Mem
  | 0, _ => m
  | n + 1, u => store_le (m.write a (u % 256)) (a + 1) n (u / 256)

/-- Read `n` bytes at `a` as an unsigned little-endian number. -/
def load_le (m : Mem) (a : Nat) : Nat → Nat
  | 0 => 0
  | n + 1 => m a % 256 + 256 * load_le m (a + 1) n

/-- The assignment `*(T *)addr = (T)v` for a signed integer type `T` of `n` bytes. -/
def store_int (addr : Ptr) (n : Nat) (v : Int) (mem : Mem) : Outcome Mem :=
  match addr with
  | .data a => .ret 0 (store_le mem a n (v % 2 ^ (8 * n)).toNat)
  | _ => .undefined

/-- The read `*(T *)addr` for a signed integer type `T` of `n` bytes. -/
def load_int (mem : Mem) (addr : Ptr) (n : Nat) : Option Int :=
  match addr with
  | .data a => some (to_signed (8 * n) (load_le mem a n))
  | _ => none

/-! ## C strings -/

/-- The C string held by a byte list: everything before the first NUL. -/
def cstr (s : List Nat) : List Nat := s.takeWhile (fun c => c ≠ 0)

/-- Model of `strlen`. -/
def strlen (s : List Nat) : Nat := (cstr s).length

/-- The byte `s[i]` of a NUL-terminated string (the terminator included). -/
def char_at (s : List Nat) (i : Nat) : Nat := (cstr s ++ [0]).getD i 0

/-! ## Value encoders -/

/-- Model of `char2digit`. -/
def char2digit (c : Nat) : Int :=
  if 48 ≤ c ∧ c ≤ 57 then (c : Int) - 48
  else if 97 ≤ c ∧ c ≤ 122 then (c : Int) - 97 + 10
  else if 65 ≤ c ∧ c ≤ 90 then (c : Int) - 65 + 10
  else 0

/-- Model of `put_integer2addr`. -/
def put_integer2addr (addr : Ptr) (addr_cap : Nat) (v : Int) (mem : Mem) : Outcome Mem :=
  match addr_cap with
  | 1 => store_int addr 1 v mem
  | 2 => store_int addr 2 v mem
  | 4 => store_int addr 4 v mem
  | 8 => store_int addr 8 v mem
  | _ => .ret (-1) mem

/-- Model of `get_int_from_addr`; `none` when the read goes through a pointer that is
not a data address. -/
def get_int_from_addr (mem : Mem) (addr : Ptr) (addr_cap : Nat) : Option Int :=
  match addr_cap with
  | 1 => load_int mem addr 1
  | 2 => load_int mem addr 2
  | 4 => load_int mem addr 4
  | 8 => load_int mem addr 8
  | _ => some 0

/-- The common tail of the numeric encoders:
`if (put_integer2addr(addr, addr_cap, v) < 0) return -1; return 0;`. -/
def put_or_fail (addr : Ptr) (addr_cap : Nat) (v : Int) (mem : Mem) : Outcome Mem :=
  match put_integer2addr addr addr_cap v mem with
  | .ret r m => if r < 0 then .ret (-1) m else .ret 0 m
  | .undefined => .undefined
  | .nofuel => .nofuel

/-- Model of `conf_parse_bool`. -/
def conf_parse_bool (addr : Ptr) (addr_cap : Nat) (value : Option (List Nat))
    (_value_len : Nat) (mem : Mem) : Outcome Mem :=
  match value with
  | none => .undefined
  | some src =>
    let c := char_at src 0
    let v : Int := if c = 121 ∨ c = 116 ∨ c = 111 ∨ c = 49 then 1 else 0
    put_or_fail addr addr_cap v mem

/-- The loop `while (len-- && *src) *dest++ = *src++;` of `conf_parse_string`; returns
the final `dest` and the memory. -/
def conf_parse_string_loop : Int → List Nat → Nat → Mem → Nat × Mem
  | _, [], dest, mem => (dest, mem)
  | len, c :: cs, dest, mem =>
    if len = 0 ∨ c = 0 then (dest, mem)
    else conf_parse_string_loop (to_signed 32 (len - 1)) cs (dest + 1) (mem.write dest c)

/-- Model of `conf_parse_string`. -/
def conf_parse_string (addr : Ptr) (addr_cap : Nat) (value : Option (List Nat))
    (value_len : Nat) (mem : Mem) : Outcome Mem :=
  let len : Int := to_signed 32 (if addr_cap < value_len then addr_cap else value_len)
  match addr with
  | .data a =>
    if len = 0 then .ret 0 (mem.write a 0)
    else
      match value with
      | none => .undefined
      | some src =>
        let r := conf_parse_string_loop len src a mem
        .ret 0 (r.2.write r.1 0)
  | _ => .undefined

/-- Value of a digit character for `strtoll` in base `base`, if it is one. -/
def strtoll_digit (base : Nat) (c : Nat) : Option Nat :=
  let d : Option Nat :=
    if 48 ≤ c ∧ c ≤ 57 then some (c - 48)
    else if 97 ≤ c ∧ c ≤ 122 then some (c - 97 + 10)
    else if 65 ≤ c ∧ c ≤ 90 then some (c - 65 + 10)
    else none
  match d with
  | some v => if v < base then some v else none
  | none => none

/-- The digits loop of `strtoll`: the magnitude of the longest digit prefix. -/
def strtoll_digits (base : Nat) : List Nat → Nat → Nat
  | [], acc => acc
  | c :: cs, acc =>
    match strtoll_digit base c with
    | some d => strtoll_digits base cs (acc * base + d)
    | none => acc

/-- The optional `0x`/`0X` that `strtoll` accepts before the digits in base 16. -/
def strtoll_skip_0x (base : Nat) : List Nat → List Nat
  | 48 :: x :: rest => if base = 16 ∧ (x = 120 ∨ x = 88) then rest else 48 :: x :: rest
  | s => s

/-- Model of the C library function `strtoll` (ISO C 7.22.1.4) for base 10 or 16:
skips white space, reads an optional sign, for base 16 an optional `0x`/`0X`, then the
longest run of digits; the result saturates at `LLONG_MIN`/`LLONG_MAX` and is 0 when
there is no digit. -/
def strtoll (src : List Nat) (base : Nat) : Int :=
  let s := (cstr src).dropWhile (fun c => c = 32 ∨ (9 ≤ c ∧ c ≤ 13))
  let neg : Bool := s.head? = some 45
  let s1 := if s.head? = some 45 ∨ s.head? = some 43 then s.tail else s
  let mag : Int := strtoll_digits base (strtoll_skip_0x base s1) 0
  if neg then max (-mag) (-(2 ^ 63)) else min mag (2 ^ 63 - 1)

/-- Model of `conf_parse_integer`. -/
def conf_parse_integer (addr : Ptr) (addr_cap : Nat) (value : Option (List Nat))
    (value_len : Nat) (mem : Mem) : Outcome Mem :=
  match value with
  | none => .undefined
  | some src =>
    let hex : Bool := 2 < value_len ∧ char_at src 0 = 48 ∧ char_at src 1 = 120
    let base : Nat := if hex then 16 else 10
    let src1 := if hex then (cstr src).drop 2 else src
    let valueint := strtoll src1 base
    put_or_fail addr addr_cap valueint mem

/-- The expansion of `_CASE_MOVE_INT`: `dst += src; src = 0;` gives the new `dst`. -/
def case_move_int (dst src : Int) : Int := to_signed 64 (dst + src)

/-- Local variables of `conf_parse_memspace_as_bytes`. -/
structure MemspaceVars where
  base : Int
  bytes : Int
  kib : Int
  mib : Int
  gib : Int
  tib : Int
  pib : Int
  tmp : Int
deriving DecidableEq, Repr

/-- The `switch (c)` of `conf_parse_memspace_as_bytes`. -/
def memspace_switch (s : MemspaceVars) (c : Nat) : MemspaceVars :=
  if c = 107 ∨ c = 75 then { s with kib := case_move_int s.kib s.tmp, tmp := 0 }
  else if c = 109 ∨ c = 77 then { s with mib := case_move_int s.mib s.tmp, tmp := 0 }
  else if c = 103 ∨ c = 71 then { s with gib := case_move_int s.gib s.tmp, tmp := 0 }
  else if c = 116 ∨ c = 84 then { s with tib := case_move_int s.tib s.tmp, tmp := 0 }
  else if c = 112 ∨ c = 80 then { s with pib := case_move_int s.pib s.tmp, tmp := 0 }
  else if c = 98 ∨ c = 66 then { s with bytes := case_move_int s.bytes s.tmp, tmp := 0 }
  else { s with tmp := to_signed 64 (s.tmp * s.base + char2digit c) }

/-- The `for` loop of `conf_parse_memspace_as_bytes`; `n` is `(int)value_len`. -/
def memspace_loop (n : Int) : Int → List Nat → MemspaceVars → MemspaceVars
  | _, [], s => s
  | i, c :: cs, s =>
    if ¬ (i < n) ∨ c = 0 then s
    else if i = 1 ∧ (c = 120 ∨ c = 88) ∧ s.tmp = 0 then
      memspace_loop n (i + 1) cs { s with base := 16, tmp := 0 }
    else memspace_loop n (i + 1) cs (memspace_switch s c)

/-- The sum `(kib << 10) + (mib << 20) + (gib << 30) + (tib << 40) + (pib << 50)` of the
unit buckets above the byte bucket. -/
def memspace_shifted (s : MemspaceVars) : Int :=
  s.kib * 2 ^ 10 + s.mib * 2 ^ 20 + s.gib * 2 ^ 30 + s.tib * 2 ^ 40 + s.pib * 2 ^ 50

/-- The value `conf_parse_memspace_as_bytes` passes to `put_integer2addr`:
`bytes += (kib << 10) + ... + (pib << 50) + tmp` after the loop. -/
def memspace_value (src : List Nat) (value_len : Nat) : Int :=
  let s := memspace_loop (to_signed 32 value_len) 0 src
    { base := 10, bytes := 0, kib := 0, mib := 0, gib := 0, tib := 0, pib := 0, tmp := 0 }
  to_signed 64 (s.bytes + (memspace_shifted s + s.tmp))

/-- Model of `conf_parse_memspace_as_bytes`. -/
def conf_parse_memspace_as_bytes (addr : Ptr) (addr_cap : Nat) (value : Option (List Nat))
    (value_len : Nat) (mem : Mem) : Outcome Mem :=
  match value with
  | none => if to_signed 32 value_len ≤ 0 then put_or_fail addr addr_cap 0 mem else .undefined
  | some src => put_or_fail addr addr_cap (memspace_value src value_len) mem

/-- Local variables of `conf_parse_time_as_second`. -/
structure TimeVars where
  base : Int
  seconds : Int
  hours : Int
  minutes : Int
  days : Int
  years : Int
  tmp : Int
deriving DecidableEq, Repr

/-- The `switch (c)` of `conf_parse_time_as_second`. -/
def time_switch (s : TimeVars) (c : Nat) : TimeVars :=
  if c = 115 ∨ c = 83 then { s with seconds := case_move_int s.seconds s.tmp, tmp := 0 }
  else if c = 109 ∨ c = 77 then { s with minutes := case_move_int s.minutes s.tmp, tmp := 0 }
  else if c = 104 ∨ c = 72 then { s with hours := case_move_int s.hours s.tmp, tmp := 0 }
  else if c = 100 ∨ c = 68 then { s with days := case_move_int s.days s.tmp, tmp := 0 }
  else if c = 121 ∨ c = 89 then { s with years := case_move_int s.years s.tmp, tmp := 0 }
  else { s with tmp := to_signed 64 (s.tmp * s.base + char2digit c) }

/-- The `for` loop of `conf_parse_time_as_second`; `n` is `(int)value_len`. -/
def time_loop (n : Int) : Int → List Nat → TimeVars → TimeVars
  | _, [], s => s
  | i, c :: cs, s =>
    if ¬ (i < n) ∨ c = 0 then s
    else if i = 1 ∧ (c = 120 ∨ c = 88) ∧ s.tmp = 0 then
      time_loop n (i + 1) cs { s with base := 16, tmp := 0 }
    else time_loop n (i + 1) cs (time_switch s c)

/-- The sum `years * 365 * 24 * 60 * 60 + days * 24 * 60 * 60 + hours * 60 * 60 +
minutes * 60` of the unit buckets above the seconds bucket. -/
def time_scaled (s : TimeVars) : Int :=
  s.years * 365 * 24 * 60 * 60 + s.days * 24 * 60 * 60 + s.hours * 60 * 60 + s.minutes * 60

/-- The value `conf_parse_time_as_second` passes to `put_integer2addr`:
`seconds += years * 365 * 24 * 60 * 60 + ... + minutes * 60 + tmp` after the loop. -/
def time_value (src : List Nat) (value_len : Nat) : Int :=
  let s := time_loop (to_signed 32 value_len) 0 src
    { base := 10, seconds := 0, hours := 0, minutes := 0, days := 0, years := 0, tmp := 0 }
  to_signed 64 (s.seconds + (time_scaled s + s.tmp))

/-- Model of `conf_parse_time_as_second`. -/
def conf_parse_time_as_second (addr : Ptr) (addr_cap : Nat) (value : Option (List Nat))
    (value_len : Nat) (mem : Mem) : Outcome Mem :=
  match value with
  | none => if to_signed 32 value_len ≤ 0 then put_or_fail addr addr_cap 0 mem else .undefined
  | some src => put_or_fail addr addr_cap (time_value src value_len) mem

/-! ## Registry -/

/-- The value of `CONF_MAX_LINE_LEN`. -/
abbrev CONF_MAX_LINE_LEN : Nat := 1000

/-- The functions a descriptor's `parse_func` can point to. -/
inductive parse_fn where
  | conf_parse_string
  | conf_parse_integer
  | conf_parse_memspace_as_bytes
  | conf_parse_time_as_second
  | conf_do_include
  | conf_parse_bool
deriving DecidableEq, Repr

/-- Model of `parse_command_t`; the sentinel of a registry has `cmd = none`. -/
structure parse_command_t where
  cmd : Option (List Nat)
  parse_func : Option parse_fn
  addr : Ptr
  addr_cap : Nat
  default_value_string : Option (List Nat)
  value_type : Int
  desc : Option (List Nat)
deriving DecidableEq, Repr

/-- The expansion of `CONF_CMD_END()`. -/
def CONF_CMD_END : parse_command_t :=
  { cmd := none, parse_func := none, addr := .null, addr_cap := 0,
    default_value_string := none, value_type := 0, desc := none }

/-- The expansion of `CONF_CMD_BEGIN(cmds)` for the registry the entries are put in. -/
def CONF_CMD_BEGIN : List parse_command_t :=
  [ { cmd := some (ascii "include"), parse_func := some .conf_do_include, addr := .cmds,
      addr_cap := 0, default_value_string := none, value_type := 0,
      desc := some (ascii "include configuration file") },
    { cmd := some (ascii "conf"), parse_func := some .conf_do_include, addr := .cmds,
      addr_cap := 0, default_value_string := none, value_type := 0,
      desc := some (ascii "configuration file") } ]

/-- Program state: application memory and the function-local `static` arrays, which
keep their content between calls. `key`/`value` are those of `conf_parse_line`, held as
the C strings they contain; `arg_key`/`arg_value` are the arrays of `conf_parse_args`,
held byte by byte. -/
structure State where
  mem : Mem
  key : List Nat
  value : List Nat
  arg_key : List Nat
  arg_value : List Nat

/-- A file system: the lines `fgets` delivers for a path that `fopen` can open, each
with its line terminator if the file has one there. -/
abbrev FileSystem := List Nat → Option (List (List Nat))

/-- The process environment as `getenv` sees it. -/
abbrev Environ := List Nat → Option (List Nat)

/-- A call of `conf_parse_file` with the registry pointer and path it receives. -/
abbrev FileCall :=
  Option (List parse_command_t) → Option (List Nat) → State → Outcome State

/-- Lift an encoder that only touches application memory to the program state. -/
def on_mem (st : State) (o : Outcome Mem) : Outcome State :=
  match o with
  | .ret r m => .ret r { st with mem := m }
  | .undefined => .undefined
  | .nofuel => .nofuel

/-- Model of `conf_do_include`; `file` stands for `conf_parse_file` and `self` for the
registry that `Ptr.cmds` points to. -/
def conf_do_include (file : FileCall) (self : List parse_command_t) (addr : Ptr)
    (_addr_cap : Nat) (value : Option (List Nat)) (_value_len : Nat) (st : State) :
    Outcome State :=
  match value with
  | none => .ret 0 st
  | some v =>
    if strlen v = 0 then .ret 0 st
    else
      match addr with
      | .null => file none (some v) st
      | .cmds => file (some self) (some v) st
      | .data _ => .undefined

/-- The indirect call `it->parse_func(it->addr, it->addr_cap, value, value_len)`. -/
def call_parse_func (file : FileCall) (self : List parse_command_t) (it : parse_command_t)
    (value : Option (List Nat)) (value_len : Nat) (st : State) : Outcome State :=
  match it.parse_func with
  | none => .undefined
  | some .conf_parse_string =>
    on_mem st (conf_parse_string it.addr it.addr_cap value value_len st.mem)
  | some .conf_parse_integer =>
    on_mem st (conf_parse_integer it.addr it.addr_cap value value_len st.mem)
  | some .conf_parse_memspace_as_bytes =>
    on_mem st (conf_parse_memspace_as_bytes it.addr it.addr_cap value value_len st.mem)
  | some .conf_parse_time_as_second =>
    on_mem st (conf_parse_time_as_second it.addr it.addr_cap value value_len st.mem)
  | some .conf_parse_bool =>
    on_mem st (conf_parse_bool it.addr it.addr_cap value value_len st.mem)
  | some .conf_do_include =>
    conf_do_include file self it.addr it.addr_cap value value_len st

/-! ## File resolver -/

/-- The dispatch loop of `conf_parse_line`. The comparison reads the static `key` and
the call passes the static `value` as they are at that iteration; `valuelen` is the
local count taken before trimming. -/
def conf_parse_line_loop (file : FileCall) (self : List parse_command_t) :
    List parse_command_t → Nat → State → Outcome State
  | [], _, _ => .undefined
  | it :: rest, valuelen, st =>
    match it.cmd with
    | none => .ret 0 st
    | some name =>
      if cstr name = cstr st.key then
        match call_parse_func file self it (some st.value) valuelen st with
        | .ret r st1 =>
          if r < 0 then .ret (-1) st1
          else conf_parse_line_loop file self rest valuelen st1
        | .undefined => .undefined
        | .nofuel => .nofuel
      else conf_parse_line_loop file self rest valuelen st

/-- Model of `conf_parse_line` (`confile` and `line_num` only feed diagnostics). -/
def conf_parse_line (file : FileCall) (cmds : List parse_command_t) (line : List Nat)
    (line_len : Nat) (st : State) : Outcome State :=
  if line_len = 0 then .ret 0 st
  else
    let p := (cstr line).dropWhile (fun c => c = 32 ∨ c = 9)
    match p with
    | [] => .ret (-1) st
    | c :: _ =>
      if c = 35 ∨ c = 13 ∨ c = 10 ∨ c = 91 then .ret 0 st
      else
        let key := p.takeWhile (fun c => c ≠ 32 ∧ c ≠ 9 ∧ c ≠ 13 ∧ c ≠ 10)
        let p1 := p.dropWhile (fun c => c ≠ 32 ∧ c ≠ 9 ∧ c ≠ 13 ∧ c ≠ 10)
        let p2 := p1.dropWhile (fun c => c = 32 ∨ c = 9 ∨ c = 13 ∨ c = 10)
        let raw := p2.takeWhile (fun c => c ≠ 13 ∧ c ≠ 10)
        let valuelen := raw.length
        let value := raw.rdropWhile (fun c => c = 32 ∨ c = 9)
        if CONF_MAX_LINE_LEN ≤ key.length ∨ CONF_MAX_LINE_LEN ≤ valuelen then .undefined
        else conf_parse_line_loop file cmds cmds valuelen { st with key := key, value := value }

/-- The `while (fgets(...))` loop of `conf_parse_file`. -/
def conf_parse_file_lines (file : FileCall) (cmds : List parse_command_t) :
    List (List Nat) → State → Outcome State
  | [], st => .ret 0 st
  | line :: rest, st =>
    match conf_parse_line file cmds line (strlen line) st with
    | .ret r st1 =>
      if r < 0 then .ret (-1) st1 else conf_parse_file_lines file cmds rest st1
    | .undefined => .undefined
    | .nofuel => .nofuel

/-- The body of `conf_parse_file`, with `file` for the nested calls. -/
def conf_parse_file_body (fs : FileSystem) (file : FileCall)
    (cmds : Option (List parse_command_t)) (confile : Option (List Nat)) (st : State) :
    Outcome State :=
  match cmds, confile with
  | some c, some path =>
    match fs (cstr path) with
    | none => .ret (-1) st
    | some lines => conf_parse_file_lines file c lines st
  | _, _ => .ret (-1) st

/-- Model of `conf_parse_file`. The fuel bounds the depth of nested inclusion: a call
made at depth `fuel` is `Outcome.nofuel`. -/
def conf_parse_file (fs : FileSystem) : Nat → FileCall
  | 0 => conf_parse_file_body fs (fun _ _ _ => .nofuel)
  | fuel + 1 => conf_parse_file_body fs (conf_parse_file fs fuel)

/-! ## Defaults, argument and environment resolvers -/

/-- Model of `conf_init`. -/
def conf_init (file : FileCall) (self : List parse_command_t) :
    List parse_command_t → State → Outcome State
  | [], _ => .undefined
  | it :: rest, st =>
    match it.cmd with
    | none => .ret 0 st
    | some _ =>
      let slen : Nat :=
        match it.default_value_string with
        | some d => strlen d
        | none => 0
      match call_parse_func file self it it.default_value_string slen st with
      | .ret r st1 => if r < 0 then .ret (-1) st1 else conf_init file self rest st1
      | .undefined => .undefined
      | .nofuel => .nofuel

/-- Model of `strcmp(s, buf) == 0` for a C string `s` and an array `buf` that need not
hold a terminator: `none` when the comparison leaves the array. -/
def strcmp_buf : List Nat → List Nat → Option Bool
  | _, [] => none
  | [], b :: _ => some (b = 0)
  | x :: xs, b :: bs =>
    if x = 0 then some (b = 0)
    else if x ≠ b then some false
    else strcmp_buf xs bs

/-- The C string an array holds, `none` when the array has no terminator. -/
def buf_cstr (buf : List Nat) : Option (List Nat) :=
  if 0 ∈ buf then some (cstr buf) else none

/-- Model of `strncpy(buf, src, n)` for an array `buf` of `n` bytes: the new content of
the array. -/
def strncpy (src : List Nat) (n : Nat) : List Nat :=
  (cstr src).take n ++ List.replicate (n - strlen src) 0

/-- Model of `convert_key_underscore`. -/
def convert_key_underscore : List Nat → Nat → List Nat
  | [], _ => []
  | c :: cs, 0 => c :: cs
  | c :: cs, n + 1 => (if c = 45 ∨ c = 46 then 95 else c) :: convert_key_underscore cs n

/-- Model of `conf_parse_key_value_arg`; `key` is the array the caller passes and
`value` the C string (`whatarg` only feeds diagnostics). -/
def conf_parse_key_value_arg (file : FileCall) (self : List parse_command_t)
    (key : List Nat) (value : Option (List Nat)) :
    List parse_command_t → State → Outcome State
  | [], _ => .undefined
  | it :: rest, st =>
    match it.cmd with
    | none => .ret 0 st
    | some name =>
      match strcmp_buf name key with
      | none => .undefined
      | some true =>
        match value with
        | none => .undefined
        | some v =>
          match call_parse_func file self it (some v) (strlen v) st with
          | .ret r st1 =>
            if r < 0 then .ret (-1) st1
            else conf_parse_key_value_arg file self key value rest st1
          | .undefined => .undefined
          | .nofuel => .nofuel
      | some false => conf_parse_key_value_arg file self key value rest st

/-- The branch of `conf_parse_args` taken when the text after `--` contains `=`, up to
the `continue`: both static arrays are refilled and `conf_parse_key_value_arg` runs. -/
def conf_parse_args_assign (file : FileCall) (cmds : List parse_command_t)
    (line_p : List Nat) (st : State) : Outcome State :=
  let minlen : Int := to_signed 32 (line_p.takeWhile (fun c => c ≠ 61)).length
  let minlen : Int := if minlen > CONF_MAX_LINE_LEN then CONF_MAX_LINE_LEN else minlen
  let key := convert_key_underscore (strncpy line_p CONF_MAX_LINE_LEN) minlen.toNat
  let value := strncpy ((line_p.dropWhile (fun c => c ≠ 61)).drop 1) CONF_MAX_LINE_LEN
  conf_parse_key_value_arg file cmds key (buf_cstr value) cmds
    { st with arg_key := key, arg_value := value }

/-- The branch of `conf_parse_args` that takes the next argument as the value, up to the
`++i`: `convert_key_underscore` runs on the array as the previous argument left it, then
`strncpy` refills the array. -/
def conf_parse_args_pair (file : FileCall) (cmds : List parse_command_t)
    (line_p next : List Nat) (st : State) : Outcome State :=
  let minlen : Int := to_signed 32 ((line_p.length : Int) - 2)
  let minlen : Int := if minlen > CONF_MAX_LINE_LEN then CONF_MAX_LINE_LEN else minlen
  let st0 := { st with arg_key := convert_key_underscore st.arg_key minlen.toNat }
  let key := strncpy line_p CONF_MAX_LINE_LEN
  conf_parse_key_value_arg file cmds key (some next) cmds { st0 with arg_key := key }

/-- The `for` loop of `conf_parse_args` over `argv[i], argv[i+1], ...`; the result of
`conf_parse_key_value_arg` is not looked at. -/
def conf_parse_args_loop (file : FileCall) (cmds : List parse_command_t) :
    List (List Nat) → State → Outcome State
  | [], st => .ret 0 st
  | arg :: rest, st =>
    if 2 < strlen arg ∧ char_at arg 0 = 45 ∧ char_at arg 1 = 45 then
      let line_p := (cstr arg).drop 2
      if 61 ∈ line_p then
        match conf_parse_args_assign file cmds line_p st with
        | .ret _ st1 => conf_parse_args_loop file cmds rest st1
        | .undefined => .undefined
        | .nofuel => .nofuel
      else
        match rest with
        | [] => .ret 0 st
        | next :: rest1 =>
          match conf_parse_args_pair file cmds line_p next st with
          | .ret _ st1 => conf_parse_args_loop file cmds rest1 st1
          | .undefined => .undefined
          | .nofuel => .nofuel
    else conf_parse_args_loop file cmds rest st

/-- Model of `conf_parse_args`; `argc` is the length of `argv`. -/
def conf_parse_args (file : FileCall) (cmds : List parse_command_t) (argv : List (List Nat))
    (st : State) : Outcome State :=
  conf_parse_args_loop file cmds (argv.drop 1) st

/-- Model of `conf_parse_env`. -/
def conf_parse_env (file : FileCall) (env : Environ) (self : List parse_command_t) :
    List parse_command_t → State → Outcome State
  | [], _ => .undefined
  | it :: rest, st =>
    match it.cmd with
    | none => .ret 0 st
    | some name =>
      match env (cstr name) with
      | none => conf_parse_env file env self rest st
      | some value =>
        match call_parse_func file self it (some value) (strlen value) st with
        | .ret r st1 => if r < 0 then .ret (-1) st1 else conf_parse_env file env self rest st1
        | .undefined => .undefined
        | .nofuel => .nofuel

/-! ## Registry well-formedness -/

/-- The descriptors a resolver visits: those before the sentinel. -/
def entries (cmds : List parse_command_t) : List parse_command_t :=
  cmds.takeWhile (fun d => d.cmd.isSome)

/-- A storage binding the registry contract allows: a data address, with a width of
1, 2, 4 or 8 bytes for the numeric encoders, and the registry itself for
`conf_do_include` (as `CONF_CMD_BEGIN` binds it). -/
def supported_binding (d : parse_command_t) : Bool :=
  match d.parse_func, d.addr with
  | some .conf_do_include, .cmds => true
  | some .conf_do_include, _ => false
  | some .conf_parse_string, .data _ => true
  | some _, .data _ => d.addr_cap = 1 ∨ d.addr_cap = 2 ∨ d.addr_cap = 4 ∨ d.addr_cap = 8
  | _, _ => false

/-- A configuration value as a file line or an argument carries it: no NUL, carriage
return or newline inside, and no space or tab at either end. -/
def trimmed_value (v : List Nat) : Prop :=
  (∀ c ∈ v, c ≠ 0 ∧ c ≠ 13 ∧ c ≠ 10) ∧
  (v.head? ≠ some 32 ∧ v.head? ≠ some 9) ∧
  (v.getLast? ≠ some 32 ∧ v.getLast? ≠ some 9)

instance (v : List Nat) : Decidable (trimmed_value v) := by
  unfold trimmed_value
  infer_instance

/-- A key as a file line carries it: not empty, no NUL, space, tab, carriage return
or newline inside, and not starting with `#` or `[`. -/
def line_key (k : List Nat) : Prop :=
  k ≠ [] ∧ (∀ c ∈ k, c ≠ 0 ∧ c ≠ 32 ∧ c ≠ 9 ∧ c ≠ 13 ∧ c ≠ 10) ∧
  (k.head? ≠ some 35 ∧ k.head? ≠ some 91)

instance (k : List Nat) : Decidable (line_key k) := by
  unfold line_key
  infer_instance

/-! ## The unit-suffixed texts of the specification -/

/-- Specification side: the text `n1 u1 n2 u2 ... nk uk r`, each `ni` and `r` given by
its decimal digits (values 0 to 9) and each `ui` by its character. -/
def spec_unit_text (segs : List (List Nat × Nat)) (r : List Nat) : List Nat :=
  (segs.map (fun p => p.1.map (· + 48) ++ [p.2])).flatten ++ r.map (· + 48)

/-- Specification side: the sum over `i` of `ni * weight ui`, plus `r`. -/
def spec_unit_total (weight : Nat → Nat) (segs : List (List Nat × Nat)) (r : List Nat) : Nat :=
  (segs.map (fun p => Nat.ofDigits 10 p.1.reverse * weight p.2)).sum
    + Nat.ofDigits 10 r.reverse

/-- Specification side: the unit letters of a memory size, `b B k K m M g G t T p P`. -/
def spec_memspace_units : List Nat := [98, 66, 107, 75, 109, 77, 103, 71, 116, 84, 112, 80]

/-- Specification side: `e(b)=0, e(k)=1, e(m)=2, e(g)=3, e(t)=4, e(p)=5`. -/
def spec_memspace_exponent (u : Nat) : Nat :=
  if u = 107 ∨ u = 75 then 1
  else if u = 109 ∨ u = 77 then 2
  else if u = 103 ∨ u = 71 then 3
  else if u = 116 ∨ u = 84 then 4
  else if u = 112 ∨ u = 80 then 5
  else 0

/-- Specification side: the unit letters of a duration, `s S m M h H d D y Y`. -/
def spec_time_units : List Nat := [115, 83, 109, 77, 104, 72, 100, 68, 121, 89]

/-- Specification side: `c(s)=1, c(m)=60, c(h)=3600, c(d)=86400, c(y)=31536000`. -/
def spec_time_seconds (u : Nat) : Nat :=
  if u = 109 ∨ u = 77 then 60
  else if u = 104 ∨ u = 72 then 3600
  else if u = 100 ∨ u = 68 then 86400
  else if u = 121 ∨ u = 89 then 31536000
  else 1

/-- Specification side: the value of the character `c` as a digit of base `base` (10 or
16): `0`-`9`, and in base 16 also `a`-`f` and `A`-`F`; `none` when `c` is not a digit of
that base. -/
def spec_base_digit (base : Nat) (c : Nat) : Option Nat :=
  if 48 ≤ c ∧ c ≤ 57 then some (c - 48)
  else if base = 16 ∧ 97 ≤ c ∧ c ≤ 102 then some (c - 97 + 10)
  else if base = 16 ∧ 65 ≤ c ∧ c ≤ 70 then some (c - 65 + 10)
  else none

/-- Specification side: the base-16 value of a text of hexadecimal digits, most
significant digit first, continuing from the value `acc` of the digits already read. -/
def spec_hex_value (acc : Nat) : List Nat → Nat
  | [] => acc
  | c :: cs => spec_hex_value (acc * 16 + (spec_base_digit 16 c).getD 0) cs

/-- Specification side: `c` is an ASCII digit or letter. -/
def spec_alnum (c : Nat) : Bool :=
  decide ((48 ≤ c ∧ c ≤ 57) ∨ (97 ≤ c ∧ c ≤ 122) ∨ (65 ≤ c ∧ c ≤ 90))

/-! ## Reading a slot back -/

/-- The C string found at address `a`, as `conf_print_conf` prints `(char *)it->addr`
with `%s`; the scan gives up after `n` bytes. -/
def read_cstr (mem : Mem) (a : Nat) : Nat → List Nat
  | 0 => []
  | n + 1 => if mem a % 256 = 0 then [] else (mem a % 256) :: read_cstr mem (a + 1) n

/-- What a slot holds, as the accessors of the source read it. -/
inductive SlotValue where
  | text (s : List Nat)
  | number (v : Option Int)
deriving DecidableEq, Repr

/-- The value held by the slot of a descriptor: the C string at `addr` when the encoder
is `conf_parse_string`, and `get_int_from_addr(addr, addr_cap)` otherwise; `n` bounds
the string scan. -/
def slot_value (d : parse_command_t) (mem : Mem) (n : Nat) : SlotValue :=
  match d.parse_func, d.addr with
  | some .conf_parse_string, .data a => .text (read_cstr mem a n)
  | _, _ => .number (get_int_from_addr mem d.addr d.addr_cap)

/-! ## Specification side of the resolvers -/

/-- Specification side: the descriptors before the sentinel whose name is `k`, in
registry order. -/
def spec_named (k : List Nat) (cmds : List parse_command_t) : List parse_command_t :=
  (entries cmds).filter (fun d => d.cmd.map cstr = some k)

/-- Specification side: invoke, in order, the encoder of each listed descriptor with
the value and length listed with it, stopping with -1 at the first encoder that fails
and returning 0 when none does. -/
def spec_invoke_each (file : FileCall) (self : List parse_command_t) :
    List (parse_command_t × List Nat × Nat) → State → Outcome State
  | [], st => .ret 0 st
  | (d, v, n) :: rest, st =>
    match call_parse_func file self d (some v) n st with
    | .ret r st1 => if r < 0 then .ret (-1) st1 else spec_invoke_each file self rest st1
    | .undefined => .undefined
    | .nofuel => .nofuel

/-- Specification side: the descriptors before the sentinel whose name is a defined
environment variable, each with the value of that variable and its length. -/
def spec_env_calls (env : Environ) (cmds : List parse_command_t) :
    List (parse_command_t × List Nat × Nat) :=
  (entries cmds).filterMap (fun d =>
    match d.cmd with
    | some name =>
      match env (cstr name) with
      | some v => some (d, v, strlen v)
      | none => none
    | none => none)

/-! ## Concrete registries and states used by the evaluations below -/

/-- The state of a program that has not yet run any resolver: the static arrays are
zero-filled, and so is the application's configuration structure. -/
def initial_state : State :=
  { mem := fun _ => 0, key := [], value := [],
    arg_key := List.replicate CONF_MAX_LINE_LEN 0,
    arg_value := List.replicate CONF_MAX_LINE_LEN 0 }

/-- The descriptor `CONF_CMD_INT(conf, foo_bar, "0", ...)` with `conf->foo_bar` an `int`
at address 16. -/
def foo_bar_descriptor : parse_command_t :=
  { cmd := some (ascii "foo_bar"), parse_func := some .conf_parse_integer, addr := .data 16,
    addr_cap := 4, default_value_string := some (ascii "0"), value_type := 0, desc := none }

/-- The registry `{ CONF_CMD_INT(conf, foo_bar, "0", ...), CONF_CMD_END() }`. -/
def foo_bar_registry : List parse_command_t := [foo_bar_descriptor, CONF_CMD_END]

/-- A file system with `main.conf` (`include sub.conf`, then `foo_bar 12`) and
`sub.conf` (`foo_bar 3`). -/
def include_fs : FileSystem := fun path =>
  if path = ascii "main.conf" then some [ascii "include sub.conf\n", ascii "foo_bar 12\n"]
  else if path = ascii "sub.conf" then some [ascii "foo_bar 3\n"]
  else none

/-- The registry `{ CONF_CMD(conf, item, f, NULL, ...), CONF_CMD_END() }`: one descriptor
without default value, bound to 4 bytes at address 16. -/
def null_default_registry (f : parse_fn) : List parse_command_t :=
  [ { cmd := some (ascii "item"), parse_func := some f, addr := .data 16,
      addr_cap := 4, default_value_string := none, value_type := 0, desc := none },
    CONF_CMD_END ]

/-- The registry `{ {"bad", conf_parse_integer, &x, 3, "0", ...}, CONF_CMD_INT(conf,
foo_bar, "0", ...), CONF_CMD_END() }`: the first descriptor has the unsupported width 3
(at address 8), the second is `foo_bar`. -/
def bad_width_registry : List parse_command_t :=
  [ { cmd := some (ascii "bad"), parse_func := some .conf_parse_integer, addr := .data 8,
      addr_cap := 3, default_value_string := some (ascii "0"), value_type := 0, desc := none },
    foo_bar_descriptor, CONF_CMD_END ]

/-- An environment in which only `FOO_BAR`, the upper-cased name, is defined. -/
def upper_case_env : Environ := fun name =>
  if name = ascii "FOO_BAR" then some (ascii "5") else none

/-- An environment in which only `foo_bar` is defined. -/
def lower_case_env : Environ := fun name =>
  if name = ascii "foo_bar" then some (ascii "5") else none

/-- A registry with a duplicated name: `foo_bar` (integer, 4 bytes at address 16), `other`
(integer, 4 bytes at address 24), a second `foo_bar` (boolean, 1 byte at address 32), then
the sentinel. -/
def duplicate_registry : List parse_command_t :=
  [ foo_bar_descriptor,
    { cmd := some (ascii "other"), parse_func := some .conf_parse_integer, addr := .data 24,
      addr_cap := 4, default_value_string := some (ascii "0"), value_type := 0, desc := none },
    { cmd := some (ascii "foo_bar"), parse_func := some .conf_parse_bool, addr := .data 32,
      addr_cap := 1, default_value_string := some (ascii "no"), value_type := 0, desc := none },
    CONF_CMD_END ]

/-- The string descriptor `title`: a slot of 16 bytes at address 40 with the empty
default. -/
def title_descriptor : parse_command_t :=
  { cmd := some (ascii "title"), parse_func := some .conf_parse_string, addr := .data 40,
    addr_cap := 16, default_value_string := some (ascii ""), value_type := 1, desc := none }

/-- The registry `{ foo_bar, title, CONF_CMD_END() }`. -/
def title_registry : List parse_command_t := [foo_bar_descriptor, title_descriptor, CONF_CMD_END]

/-! ## Memory and integer lemmas -/

theorem store_le_frame_lt (n : Nat) : ∀ (m : Mem) (a u x : Nat), x < a →
    store_le m a n u x = m x := by
  induction n with
  | zero => intro m a u x _; rfl
  | succ n ih =>
    intro m a u x hx
    rw [store_le, ih _ _ _ _ (by omega)]
    simp [Mem.write]; omega

theorem store_le_frame_ge (n : Nat) : ∀ (m : Mem) (a u x : Nat), a + n ≤ x →
    store_le m a n u x = m x := by
  induction n with
  | zero => intro m a u x _; rfl
  | succ n ih =>
    intro m a u x hx
    rw [store_le, ih _ _ _ _ (by omega)]
    simp [Mem.write]; omega

theorem load_store_le (n : Nat) : ∀ (m : Mem) (a u : Nat),
    load_le (store_le m a n u) a n = u % 256 ^ n := by
  induction n with
  | zero => intro m a u; simp [load_le, Nat.mod_one]
  | succ n ih =>
    intro m a u
    rw [store_le, load_le, ih, store_le_frame_lt _ _ _ _ _ (by omega), pow_succ', Nat.mod_mul]
    simp [Mem.write]

theorem to_signed_emod (bits : Nat) (v : Int) :
    to_signed bits (v % 2 ^ bits) = to_signed bits v := by
  unfold to_signed
  rw [Int.emod_add_emod]

theorem load_store_int (a w : Nat) (v : Int) (mem : Mem) :
    to_signed (8 * w) (load_le (store_le mem a w (v % 2 ^ (8 * w)).toNat) a w)
      = to_signed (8 * w) v := by
  rw [load_store_le]
  have h0 : (0 : Int) ≤ v % 2 ^ (8 * w) := Int.emod_nonneg _ (by positivity)
  have h1 : v % 2 ^ (8 * w) < 2 ^ (8 * w) := Int.emod_lt_of_pos _ (by positivity)
  have h2 : (v % 2 ^ (8 * w)).toNat < 256 ^ w := by
    have : (256 : Nat) ^ w = 2 ^ (8 * w) := by rw [pow_mul]; norm_num
    rw [this]; zify; rw [Int.toNat_of_nonneg h0]; exact_mod_cast h1
  rw [Nat.mod_eq_of_lt h2, Int.toNat_of_nonneg h0, to_signed_emod]

theorem get_put_integer (mem : Mem) (a w : Nat) (v : Int)
    (hw : w = 1 ∨ w = 2 ∨ w = 4 ∨ w = 8) :
    ∃ m, put_integer2addr (.data a) w v mem = .ret 0 m ∧
      get_int_from_addr m (.data a) w = some (to_signed (8 * w) v) := by
  rcases hw with rfl | rfl | rfl | rfl <;>
  · refine ⟨_, rfl, ?_⟩
    simp only [get_int_from_addr, load_int]
    rw [load_store_int]

theorem put_or_fail_get (mem : Mem) (a w : Nat) (v : Int)
    (hw : w = 1 ∨ w = 2 ∨ w = 4 ∨ w = 8) :
    ∃ m, put_or_fail (.data a) w v mem = .ret 0 m ∧
      get_int_from_addr m (.data a) w = some (to_signed (8 * w) v) := by
  obtain ⟨m, h1, h2⟩ := get_put_integer mem a w v hw
  exact ⟨m, by simp [put_or_fail, h1], h2⟩

theorem to_signed_of_range (bits : Nat) (v : Int) (hb : 0 < bits)
    (h1 : -(2 ^ (bits - 1)) ≤ v) (h2 : v < 2 ^ (bits - 1)) : to_signed bits v = v := by
  unfold to_signed
  have hp : (2 : Int) ^ bits = 2 ^ (bits - 1) + 2 ^ (bits - 1) := by
    obtain ⟨k, rfl⟩ : ∃ k, bits = k + 1 := ⟨bits - 1, by omega⟩
    simp [pow_succ]; ring
  rw [Int.emod_eq_of_lt (by omega) (by omega)]
  ring

theorem cstr_of_ne_zero (l : List Nat) (h : ∀ x ∈ l, x ≠ 0) : cstr l = l := by
  unfold cstr
  rw [List.takeWhile_eq_self_iff]
  simpa using h

theorem to_signed_lower (bits : Nat) (v : Int) :
    -(2 ^ (bits - 1)) ≤ to_signed bits v := by
  unfold to_signed
  have := Int.emod_nonneg (v + 2 ^ (bits - 1)) (b := 2 ^ bits) (by positivity)
  omega

theorem to_signed_upper (bits : Nat) (v : Int) (hb : 0 < bits) :
    to_signed bits v < 2 ^ (bits - 1) := by
  unfold to_signed
  have hp : (2 : Int) ^ bits = 2 ^ (bits - 1) + 2 ^ (bits - 1) := by
    obtain ⟨k, rfl⟩ : ∃ k, bits = k + 1 := ⟨bits - 1, by omega⟩
    simp [pow_succ]; ring
  have := Int.emod_lt_of_pos (v + 2 ^ (bits - 1)) (b := 2 ^ bits) (by positivity)
  omega

theorem to_signed_modEq (bits : Nat) (v : Int) : to_signed bits v ≡ v [ZMOD 2 ^ bits] := by
  unfold to_signed Int.ModEq
  rw [Int.sub_emod, Int.emod_emod_of_dvd _ (dvd_refl _), ← Int.sub_emod]
  simp

theorem to_signed_congr (bits : Nat) (a b : Int) (h : a ≡ b [ZMOD 2 ^ bits]) :
    to_signed bits a = to_signed bits b := by
  unfold to_signed
  have : (a + 2 ^ (bits - 1)) % 2 ^ bits = (b + 2 ^ (bits - 1)) % 2 ^ bits :=
    Int.ModEq.add_right _ h
  rw [this]

theorem cstr_append_of_ne_zero (l r : List Nat) (h : ∀ x ∈ l, x ≠ 0) :
    cstr (l ++ r) = l ++ cstr r := by
  unfold cstr
  rw [List.takeWhile_append_of_pos]
  simpa using h

/-! ## `strtoll` on decimal text -/

theorem strtoll_digit_decimal (d : Nat) (hd : d < 10) : strtoll_digit 10 (d + 48) = some d := by
  unfold strtoll_digit
  have h1 : 48 ≤ d + 48 ∧ d + 48 ≤ 57 := by omega
  simp [h1, hd]

theorem strtoll_digits_decimal (ds : List Nat) (hd : ∀ d ∈ ds, d < 10) : ∀ acc : Nat,
    strtoll_digits 10 (ds.map (· + 48)) acc
      = acc * 10 ^ ds.length + Nat.ofDigits 10 ds.reverse := by
  induction ds with
  | nil => intro acc; simp [strtoll_digits]
  | cons d ds ih =>
    intro acc
    have h1 := hd d (List.mem_cons_self _ _)
    simp only [List.map_cons, strtoll_digits, strtoll_digit_decimal d h1]
    rw [ih (fun x hx => hd x (List.mem_cons_of_mem _ hx))]
    simp [Nat.ofDigits_append, pow_succ]
    ring

theorem getD_mem_or_default {α : Type} (l : List α) (i : Nat) (d : α) :
    l.getD i d ∈ l ∨ l.getD i d = d := by
  induction l generalizing i with
  | nil => right; simp
  | cons x xs ih =>
    cases i with
    | zero => left; simp
    | succ i =>
      rcases ih i with h | h
      · left; simpa using Or.inr h
      · right; simpa using h

theorem strtoll_skip_0x_decimal (s : List Nat) : strtoll_skip_0x 10 s = s := by
  unfold strtoll_skip_0x
  split <;> simp

theorem strtoll_decimal (neg : Bool) (ds : List Nat) (hd : ∀ d ∈ ds, d < 10)
    (hlo : -(2 ^ 63) ≤ (if neg then -1 else 1) * ((Nat.ofDigits 10 ds.reverse : Nat) : Int))
    (hhi : (if neg then -1 else 1) * ((Nat.ofDigits 10 ds.reverse : Nat) : Int) < 2 ^ 63) :
    strtoll ((if neg then [45] else []) ++ ds.map (· + 48)) 10
      = (if neg then -1 else 1) * ((Nat.ofDigits 10 ds.reverse : Nat) : Int) := by
  have hz : ∀ x ∈ (if neg then [45] else []) ++ ds.map (· + 48), x ≠ 0 := by
    intro x hx
    cases neg <;> simp at hx <;> omega
  have hdig := strtoll_digits_decimal ds hd 0
  unfold strtoll
  rw [cstr_of_ne_zero _ hz]
  simp only [strtoll_skip_0x_decimal]
  cases neg with
  | false =>
    cases ds with
    | nil => simp [strtoll_digits]
    | cons d ds =>
      have h1 := hd d (List.mem_cons_self _ _)
      have h2 : ¬ (d + 48 = 32 ∨ (9 ≤ d + 48 ∧ d + 48 ≤ 13)) := by omega
      have h3 : d + 48 ≠ 45 := by omega
      have h4 : d + 48 ≠ 43 := by omega
      simp only [Bool.false_eq_true, if_false, List.nil_append, List.map_cons] at hdig hhi hlo ⊢
      simp only [List.dropWhile_cons, h2, decide_False, Bool.false_eq_true, if_false, List.head?_cons,
        Option.some.injEq, h3, h4, or_self]
      rw [hdig]
      simp only [Nat.zero_mul, Nat.zero_add, one_mul] at hhi ⊢
      rw [min_eq_left (by omega)]
  | true =>
    have h2 : ¬ ((45 : Nat) = 32 ∨ (9 ≤ 45 ∧ 45 ≤ 13)) := by omega
    simp only [if_true, List.singleton_append] at hdig hhi hlo ⊢
    simp only [List.dropWhile_cons, h2, decide_False, Bool.false_eq_true, if_false, List.head?_cons,
      true_or, if_true, List.tail_cons, decide_True]
    rw [hdig]
    simp only [Nat.zero_mul, Nat.zero_add] at hlo ⊢
    rw [max_eq_left (by omega)]
    ring

theorem char_at_ne_x (s : List Nat) (i : Nat) (h : ∀ x ∈ s, x ≠ 120) : char_at s i ≠ 120 := by
  unfold char_at
  rcases getD_mem_or_default (cstr s ++ [0]) i 0 with h1 | h1
  · rw [List.mem_append] at h1
    rcases h1 with h1 | h1
    · exact h _ ((List.takeWhile_sublist _).subset h1)
    · intro h2; rw [h2] at h1; simp at h1
  · omega

/-! ## Walking a registry -/

theorem entries_cons_some (e : parse_command_t) (rest : List parse_command_t) (n : List Nat)
    (h : e.cmd = some n) : entries (e :: rest) = e :: entries rest := by
  simp [entries, h]

theorem sentinel_in_tail (e : parse_command_t) (rest : List parse_command_t) (n : List Nat)
    (h : e.cmd = some n) (ht : ∃ x ∈ e :: rest, x.cmd = none) : ∃ x ∈ rest, x.cmd = none := by
  obtain ⟨x, hx, hx2⟩ := ht
  rcases List.mem_cons.mp hx with rfl | hx
  · rw [h] at hx2; cases hx2
  · exact ⟨x, hx, hx2⟩

/-! ## C1: the boolean encoder on the documented words -/

/-- C1, as stated, fails: the raw value "off" begins with `o`, one of the four
characters `conf_parse_bool` takes for true, so at width 1 the slot does not read back
as 0 after encoding "off". -/
theorem conf_parse_bool_off_not_zero :
    ¬ ∃ m, conf_parse_bool (.data 0) 1 (some (ascii "off")) 3 (fun _ => 0) = .ret 0 m ∧
      get_int_from_addr m (.data 0) 1 = some 0 := by
  rintro ⟨m, h1, h2⟩
  have h : conf_parse_bool (.data 0) 1 (some (ascii "off")) 3 (fun _ => 0)
      = .ret 0 (store_le (fun _ => 0) 0 1 1) := rfl
  rw [h] at h1
  injection h1 with _ hm
  subst hm
  revert h2
  decide

/-- C1, amended: at every supported width (1, 2, 4, 8) `conf_parse_bool` returns
success and the slot reads back as 1 for "yes", "true", "on", "1" and also for "off",
and as 0 for "no", "false", "0" and the empty string. -/
theorem conf_parse_bool_words (mem : Mem) (a w value_len : Nat)
    (hw : w = 1 ∨ w = 2 ∨ w = 4 ∨ w = 8) :
    (∀ v ∈ [ascii "yes", ascii "true", ascii "on", ascii "1", ascii "off"],
      ∃ m, conf_parse_bool (.data a) w (some v) value_len mem = .ret 0 m ∧
        get_int_from_addr m (.data a) w = some 1) ∧
    (∀ v ∈ [ascii "no", ascii "false", ascii "0", ascii ""],
      ∃ m, conf_parse_bool (.data a) w (some v) value_len mem = .ret 0 m ∧
        get_int_from_addr m (.data a) w = some 0) := by
  have one : to_signed (8 * w) 1 = 1 := by
    rcases hw with rfl | rfl | rfl | rfl <;> decide
  have zero : to_signed (8 * w) 0 = 0 := by
    rcases hw with rfl | rfl | rfl | rfl <;> decide
  have t := put_or_fail_get mem a w 1 hw
  have f := put_or_fail_get mem a w 0 hw
  rw [one] at t
  rw [zero] at f
  constructor
  · intro v hv
    simp only [List.mem_cons, List.mem_singleton, List.not_mem_nil, or_false] at hv
    rcases hv with rfl | rfl | rfl | rfl | rfl <;> exact t
  · intro v hv
    simp only [List.mem_cons, List.mem_singleton, List.not_mem_nil, or_false] at hv
    rcases hv with rfl | rfl | rfl | rfl <;> exact f

/-- Witness for C1 (amended) at width 4, address 16. -/
theorem conf_parse_bool_words_witness :
    (∀ v ∈ [ascii "yes", ascii "true", ascii "on", ascii "1", ascii "off"],
      ∃ m, conf_parse_bool (.data 16) 4 (some v) 0 (fun _ => 255) = .ret 0 m ∧
        get_int_from_addr m (.data 16) 4 = some 1) ∧
    (∀ v ∈ [ascii "no", ascii "false", ascii "0", ascii ""],
      ∃ m, conf_parse_bool (.data 16) 4 (some v) 0 (fun _ => 255) = .ret 0 m ∧
        get_int_from_addr m (.data 16) 4 = some 0) :=
  conf_parse_bool_words (fun _ => 255) 16 4 0 (by decide)

/-! ## C2: `--key=value` arguments -/

/-- A registry name without `=` never compares equal to a key array that still carries
`=value` after the key. -/
theorem strcmp_buf_assign (key : List Nat) (hkey : ∀ c ∈ key, c ≠ 0) :
    ∀ (name rest : List Nat), (∀ x ∈ name, x ≠ 61) →
      strcmp_buf name (key ++ 61 :: rest) = some false := by
  induction key with
  | nil =>
    intro name rest hname
    cases name with
    | nil => simp [strcmp_buf]
    | cons x xs =>
      have := hname x (List.mem_cons_self _ _)
      by_cases hx : x = 0 <;> simp [strcmp_buf, hx, this]
  | cons c cs ih =>
    intro name rest hname
    have hc := hkey c (List.mem_cons_self _ _)
    cases name with
    | nil => simp [strcmp_buf, hc]
    | cons x xs =>
      by_cases hx : x = 0
      · simp [strcmp_buf, hx, hc]
      · by_cases hxc : x = c
        · subst hxc
          simp only [List.cons_append, strcmp_buf, hx, if_false, ne_eq, not_true_eq_false]
          exact ih (fun y hy => hkey y (List.mem_cons_of_mem _ hy)) xs rest
            (fun y hy => hname y (List.mem_cons_of_mem _ hy))
        · simp [strcmp_buf, hx, hxc]

/-- When no descriptor before the sentinel matches the key array,
`conf_parse_key_value_arg` returns 0 and changes nothing. -/
theorem conf_parse_key_value_arg_no_match (file : FileCall) (self : List parse_command_t)
    (key : List Nat) (value : Option (List Nat)) (st : State) (it : List parse_command_t)
    (ht : ∃ x ∈ it, x.cmd = none)
    (hm : ∀ e ∈ entries it, ∀ n, e.cmd = some n → strcmp_buf n key = some false) :
    conf_parse_key_value_arg file self key value it st = .ret 0 st := by
  induction it with
  | nil => simp at ht
  | cons e rest ih =>
    cases hcmd : e.cmd with
    | none => simp [conf_parse_key_value_arg, hcmd]
    | some n =>
      rw [entries_cons_some e rest n hcmd] at hm
      have h1 := hm e (List.mem_cons_self _ _) n hcmd
      have h2 := ih (sentinel_in_tail e rest n hcmd ht)
        (fun x hx => hm x (List.mem_cons_of_mem _ hx))
      simp [conf_parse_key_value_arg, hcmd, h1, h2]

theorem convert_key_underscore_append (a b : List Nat) :
    convert_key_underscore (a ++ b) a.length
      = a.map (fun c => if c = 45 ∨ c = 46 then 95 else c) ++ b := by
  induction a with
  | nil => cases b <;> simp [convert_key_underscore]
  | cons c cs ih => simp [convert_key_underscore, ih]

/-- The `--key=value` form on any registry whose names contain no `=`: whatever the key
and the value, no descriptor is invoked and application memory is unchanged. -/
theorem conf_parse_args_assign_never_matches (file : FileCall) (cmds : List parse_command_t)
    (prog key value : List Nat) (st : State)
    (hterm : ∃ x ∈ cmds, x.cmd = none)
    (hnames : ∀ e ∈ entries cmds, ∀ n, e.cmd = some n → ∀ x ∈ n, x ≠ 61)
    (hkey : ∀ c ∈ key, c ≠ 0 ∧ c ≠ 61) (hlen : key.length < CONF_MAX_LINE_LEN) :
    ∃ st1, conf_parse_args file cmds [prog, 45 :: 45 :: (key ++ 61 :: value)] st = .ret 0 st1 ∧
      st1.mem = st.mem := by
  have hlen1 : key.length < 1000 := hlen
  have hcs : cstr (45 :: 45 :: (key ++ 61 :: value)) = 45 :: 45 :: (key ++ 61 :: cstr value) := by
    have h1 := cstr_append_of_ne_zero (45 :: 45 :: key) (61 :: value) (by
      intro x hx
      simp only [List.mem_cons] at hx
      rcases hx with rfl | rfl | hx
      · omega
      · omega
      · exact (hkey x hx).1)
    have h2 : cstr (61 :: value) = 61 :: cstr value := by simp [cstr]
    rw [h2] at h1
    exact h1
  have hcond : 2 < strlen (45 :: 45 :: (key ++ 61 :: value)) ∧
      char_at (45 :: 45 :: (key ++ 61 :: value)) 0 = 45 ∧
      char_at (45 :: 45 :: (key ++ 61 :: value)) 1 = 45 := by
    simp only [strlen, char_at, hcs]
    simp
  have hmem : 61 ∈ key ++ 61 :: cstr value := by simp
  have htake : (key ++ 61 :: cstr value).takeWhile (fun c => decide (c ≠ 61)) = key := by
    rw [List.takeWhile_append_of_pos (by
      intro x hx
      simpa using (hkey x hx).2)]
    simp
  have hmin : to_signed 32 (key.length : Int) = key.length :=
    to_signed_of_range 32 _ (by norm_num) (by norm_num; omega) (by norm_num; omega)
  have hcs2 : cstr (key ++ 61 :: cstr value) = key ++ 61 :: cstr value := by
    rw [cstr_append_of_ne_zero _ _ (fun x hx => (hkey x hx).1)]
    simp [cstr, List.takeWhile_takeWhile]
  have hcopy : ∃ rest, strncpy (key ++ 61 :: cstr value) CONF_MAX_LINE_LEN = key ++ 61 :: rest := by
    unfold strncpy
    rw [hcs2, List.take_append_eq_append_take, List.take_of_length_le (by omega)]
    obtain ⟨j, hj⟩ : ∃ j, CONF_MAX_LINE_LEN - key.length = j + 1 :=
      ⟨999 - key.length, by simp only [CONF_MAX_LINE_LEN]; omega⟩
    rw [hj, List.take_succ_cons]
    exact ⟨(cstr value).take j ++ List.replicate
      (CONF_MAX_LINE_LEN - strlen (key ++ 61 :: cstr value)) 0, by simp⟩
  obtain ⟨rest, hrest⟩ := hcopy
  have hassign : ∀ s : State, ∃ s1, conf_parse_args_assign file cmds (key ++ 61 :: cstr value) s
      = .ret 0 s1 ∧ s1.mem = s.mem := by
    intro s
    unfold conf_parse_args_assign
    simp only [htake, hmin, hrest]
    have hclamp : (if ((key.length : Int) > (CONF_MAX_LINE_LEN : Nat)) then
        ((CONF_MAX_LINE_LEN : Nat) : Int) else (key.length : Int)) = key.length := by
      rw [if_neg (by simp only [CONF_MAX_LINE_LEN]; omega)]
    rw [hclamp, Int.toNat_ofNat, convert_key_underscore_append]
    have hnorm : ∀ c ∈ key.map (fun c => if c = 45 ∨ c = 46 then 95 else c), c ≠ 0 := by
      intro c hc
      rw [List.mem_map] at hc
      obtain ⟨x, hx, rfl⟩ := hc
      have := (hkey x hx).1
      split <;> omega
    exact ⟨_, conf_parse_key_value_arg_no_match file cmds _ _ _ cmds hterm
      (fun e he n hn => strcmp_buf_assign _ hnorm n rest (hnames e he n hn)), rfl⟩
  obtain ⟨s1, hs1, hs1m⟩ := hassign st
  refine ⟨s1, ?_, hs1m⟩
  simp only [conf_parse_args, List.drop_one, List.tail_cons, conf_parse_args_loop, hcond,
    and_self, if_true, hcs, List.drop_succ_cons, List.drop_zero, hmem, hs1]

/-- C2, evaluated on the registry holding `foo_bar` (an `int`): whatever the state,
`conf_parse_args` on `[prog, "--foo-bar=5"]` and on `[prog, "--foo.bar=5"]` returns 0
and leaves application memory as it was; from the initial state `foo_bar` still reads
0 afterwards, not 5. The key array receives the whole text after `--` and is never cut
at the `=`, so the name compared with the registry is `foo_bar=5`. -/
theorem conf_parse_args_assign_foo_bar_unchanged (file : FileCall) :
    (∀ st : State, ∃ st1,
      conf_parse_args file foo_bar_registry [ascii "prog", ascii "--foo-bar=5"] st
        = .ret 0 st1 ∧ st1.mem = st.mem) ∧
    (∀ st : State, ∃ st1,
      conf_parse_args file foo_bar_registry [ascii "prog", ascii "--foo.bar=5"] st
        = .ret 0 st1 ∧ st1.mem = st.mem) ∧
    (∃ st1, conf_parse_args file foo_bar_registry [ascii "prog", ascii "--foo-bar=5"]
        initial_state = .ret 0 st1 ∧
      get_int_from_addr st1.mem (.data 16) 4 = some 0) :=
  ⟨fun _ => ⟨_, rfl, rfl⟩, fun _ => ⟨_, rfl, rfl⟩, _, rfl, by decide⟩

/-! ## C3: integer round trip -/

/-- C3: for every width `w` in {1, 2, 4, 8} and every `v` in the signed 64-bit range
written in decimal (an optional minus sign and the decimal digits `ds`), encoding the
text with `conf_parse_integer` into a `w`-byte slot succeeds and
`get_int_from_addr` then returns the `r` that lies in the signed range of `w` bytes and
is congruent to `v` modulo `2 ^ (8 * w)`; `r = v` when `w = 8` or `v` fits in `w` bytes. -/
theorem conf_parse_integer_roundtrip (mem : Mem) (a w value_len : Nat) (neg : Bool)
    (ds : List Nat) (v : Int)
    (hw : w = 1 ∨ w = 2 ∨ w = 4 ∨ w = 8) (hd : ∀ d ∈ ds, d < 10)
    (hv : v = (if neg then -1 else 1) * ((Nat.ofDigits 10 ds.reverse : Nat) : Int))
    (hlo : -(2 ^ 63) ≤ v) (hhi : v < 2 ^ 63) :
    ∃ m r, conf_parse_integer (.data a) w (some ((if neg then [45] else []) ++ ds.map (· + 48)))
        value_len mem = .ret 0 m ∧
      get_int_from_addr m (.data a) w = some r ∧
      -(2 ^ (8 * w - 1)) ≤ r ∧ r < 2 ^ (8 * w - 1) ∧ r ≡ v [ZMOD 2 ^ (8 * w)] ∧
      (w = 8 ∨ (-(2 ^ (8 * w - 1)) ≤ v ∧ v < 2 ^ (8 * w - 1)) → r = v) := by
  have hpos : 0 < 8 * w := by omega
  have hx : ∀ x ∈ (if neg then [45] else []) ++ ds.map (· + 48), x ≠ 120 := by
    intro x hx
    cases neg <;> simp at hx
    · obtain ⟨d, h1, rfl⟩ := hx; have := hd d h1; omega
    · rcases hx with rfl | ⟨d, h1, rfl⟩
      · omega
      · have := hd d h1; omega
  have hval : conf_parse_integer (.data a) w (some ((if neg then [45] else []) ++ ds.map (· + 48)))
      value_len mem = put_or_fail (.data a) w v mem := by
    unfold conf_parse_integer
    simp only [char_at_ne_x _ 1 hx, and_false, decide_False, Bool.false_eq_true, if_false]
    rw [strtoll_decimal neg ds hd (hv ▸ hlo) (hv ▸ hhi), ← hv]
  obtain ⟨m, h1, h2⟩ := put_or_fail_get mem a w v hw
  refine ⟨m, to_signed (8 * w) v, hval.trans h1, h2, to_signed_lower _ _,
    to_signed_upper _ _ hpos, to_signed_modEq _ _, ?_⟩
  rintro (rfl | ⟨h3, h4⟩)
  · exact to_signed_of_range _ _ (by norm_num) (by norm_num; omega) (by norm_num; omega)
  · exact to_signed_of_range _ _ hpos h3 h4

/-- Witness for C3: "-129" in a one-byte slot reads back as 127. -/
theorem conf_parse_integer_roundtrip_witness :
    ∃ m r, conf_parse_integer (.data 16) 1 (some ((if true then [45] else []) ++ [1, 2, 9].map (· + 48)))
        4 (fun _ => 0) = .ret 0 m ∧
      get_int_from_addr m (.data 16) 1 = some r ∧
      -(2 ^ (8 * 1 - 1)) ≤ r ∧ r < 2 ^ (8 * 1 - 1) ∧ r ≡ -129 [ZMOD 2 ^ (8 * 1)] ∧
      (1 = 8 ∨ (-(2 ^ (8 * 1 - 1)) ≤ (-129 : Int) ∧ (-129 : Int) < 2 ^ (8 * 1 - 1)) → r = -129) :=
  conf_parse_integer_roundtrip (fun _ => 0) 16 1 4 true [1, 2, 9] (-129) (by decide) (by decide)
    (by decide) (by decide) (by decide)

/-! ## C4: memory sizes with unit letters -/

theorem char2digit_decimal (d : Nat) (hd : d < 10) : char2digit (d + 48) = d := by
  unfold char2digit
  have h1 : 48 ≤ d + 48 ∧ d + 48 ≤ 57 := by omega
  simp [h1]

theorem ofDigits_reverse_cons (d : Nat) (ds : List Nat) :
    Nat.ofDigits 10 (d :: ds).reverse = Nat.ofDigits 10 ds.reverse + 10 ^ ds.length * d := by
  simp [Nat.ofDigits_append]

theorem memspace_switch_digit (s : MemspaceVars) (d : Nat) (hd : d < 10) :
    memspace_switch s (d + 48)
      = { s with tmp := to_signed 64 (s.tmp * s.base + d) } := by
  unfold memspace_switch
  rw [char2digit_decimal d hd]
  have h : ∀ k : Nat, 57 < k → d + 48 ≠ k := fun k hk => by omega
  simp [h]

theorem memspace_loop_cons (n i : Int) (c : Nat) (cs : List Nat) (s : MemspaceVars)
    (h1 : i < n) (h2 : c ≠ 0) (h3 : c ≠ 120 ∧ c ≠ 88) :
    memspace_loop n i (c :: cs) s = memspace_loop n (i + 1) cs (memspace_switch s c) := by
  rw [memspace_loop]
  simp [h1, h2, h3]

theorem memspace_loop_digits (n : Int) (ds : List Nat) (hd : ∀ d ∈ ds, d < 10) :
    ∀ (i : Int) (rest : List Nat) (s : MemspaceVars), s.base = 10 → i + ds.length ≤ n →
    ∃ T : Int, T ≡ s.tmp * 10 ^ ds.length + (Nat.ofDigits 10 ds.reverse : Nat) [ZMOD 2 ^ 64] ∧
      memspace_loop n i (ds.map (· + 48) ++ rest) s
        = memspace_loop n (i + ds.length) rest { s with tmp := T } := by
  induction ds with
  | nil =>
    intro i rest s _ _
    exact ⟨s.tmp, by simp [Int.ModEq], by simp⟩
  | cons d ds ih =>
    intro i rest s hb hn
    have h1 := hd d (List.mem_cons_self _ _)
    have hlen : ((d :: ds).length : Int) = ds.length + 1 := by simp
    obtain ⟨T, hT, hrun⟩ := ih (fun x hx => hd x (List.mem_cons_of_mem _ hx)) (i + 1) rest
      { s with tmp := to_signed 64 (s.tmp * s.base + d) } hb (by omega)
    refine ⟨T, ?_, ?_⟩
    · refine hT.trans ?_
      rw [ofDigits_reverse_cons, hb]
      have h2 := to_signed_modEq 64 (s.tmp * 10 + d)
      have h3 := (h2.mul_right (10 ^ ds.length)).add_right
        (((Nat.ofDigits 10 ds.reverse : Nat) : Int))
      refine h3.trans ?_
      have : (s.tmp * 10 + ↑d) * 10 ^ ds.length + ((Nat.ofDigits 10 ds.reverse : Nat) : Int)
          = s.tmp * 10 ^ (d :: ds).length
            + ((Nat.ofDigits 10 ds.reverse + 10 ^ ds.length * d : Nat) : Int) := by
        push_cast
        simp only [List.length_cons, pow_succ]
        ring
      rw [this]
    · rw [List.map_cons, List.cons_append,
        memspace_loop_cons n i _ _ s (by omega) (by omega) (by omega),
        memspace_switch_digit s d h1, hrun]
      have : i + 1 + (ds.length : Int) = i + ((d :: ds).length : Int) := by rw [hlen]; ring
      rw [this]

theorem to_signed_eq_add (bits : Nat) (v : Int) : ∃ q : Int, to_signed bits v = v + 2 ^ bits * q := by
  have h := (Int.modEq_iff_dvd.mp (to_signed_modEq bits v).symm)
  obtain ⟨q, hq⟩ := h
  exact ⟨q, by linarith⟩

theorem memspace_switch_unit (s : MemspaceVars) (u : Nat) (hu : u ∈ spec_memspace_units) :
    (memspace_switch s u).base = s.base ∧ (memspace_switch s u).tmp = 0 ∧
    (memspace_switch s u).bytes + memspace_shifted (memspace_switch s u)
      ≡ s.bytes + memspace_shifted s + s.tmp * 2 ^ (10 * spec_memspace_exponent u)
        [ZMOD 2 ^ 64] := by
  obtain ⟨qb, hb⟩ := to_signed_eq_add 64 (s.bytes + s.tmp)
  obtain ⟨qk, hk⟩ := to_signed_eq_add 64 (s.kib + s.tmp)
  obtain ⟨qm, hm⟩ := to_signed_eq_add 64 (s.mib + s.tmp)
  obtain ⟨qg, hg⟩ := to_signed_eq_add 64 (s.gib + s.tmp)
  obtain ⟨qt, ht⟩ := to_signed_eq_add 64 (s.tib + s.tmp)
  obtain ⟨qp, hp⟩ := to_signed_eq_add 64 (s.pib + s.tmp)
  simp only [spec_memspace_units, List.mem_cons, List.mem_singleton, List.not_mem_nil,
    or_false] at hu
  rcases hu with rfl | rfl | rfl | rfl | rfl | rfl | rfl | rfl | rfl | rfl | rfl | rfl <;>
  · refine ⟨by simp [memspace_switch], by simp [memspace_switch], ?_⟩
    simp only [memspace_switch, case_move_int, memspace_shifted, spec_memspace_exponent]
    norm_num
    simp only [hb, hk, hm, hg, ht, hp]
    rw [Int.modEq_iff_dvd]
    first
      | (refine ⟨-qb, ?_⟩; ring1)
      | (refine ⟨-qk * 2 ^ 10, ?_⟩; ring1)
      | (refine ⟨-qm * 2 ^ 20, ?_⟩; ring1)
      | (refine ⟨-qg * 2 ^ 30, ?_⟩; ring1)
      | (refine ⟨-qt * 2 ^ 40, ?_⟩; ring1)
      | (refine ⟨-qp * 2 ^ 50, ?_⟩; ring1)

theorem memspace_loop_unit_step (n i : Int) (u : Nat) (cs : List Nat) (s : MemspaceVars)
    (hu : u ∈ spec_memspace_units) (h1 : i < n) :
    memspace_loop n i (u :: cs) s = memspace_loop n (i + 1) cs (memspace_switch s u) := by
  have h : u ≠ 0 ∧ u ≠ 120 ∧ u ≠ 88 := by
    simp only [spec_memspace_units, List.mem_cons, List.mem_singleton, List.not_mem_nil,
      or_false] at hu
    omega
  exact memspace_loop_cons n i u cs s h1 h.1 h.2

theorem spec_unit_text_cons (ds : List Nat) (u : Nat) (segs : List (List Nat × Nat))
    (r : List Nat) :
    spec_unit_text ((ds, u) :: segs) r = ds.map (· + 48) ++ u :: spec_unit_text segs r := by
  simp [spec_unit_text]

theorem spec_unit_total_cons (w : Nat → Nat) (ds : List Nat) (u : Nat)
    (segs : List (List Nat × Nat)) (r : List Nat) :
    spec_unit_total w ((ds, u) :: segs) r
      = Nat.ofDigits 10 ds.reverse * w u + spec_unit_total w segs r := by
  simp [spec_unit_total, Nat.add_assoc]

theorem memspace_loop_units (n : Int) (segs : List (List Nat × Nat)) (r : List Nat)
    (hsegs : ∀ p ∈ segs, (∀ d ∈ p.1, d < 10) ∧ p.2 ∈ spec_memspace_units)
    (hr : ∀ d ∈ r, d < 10) :
    ∀ (i : Int) (s : MemspaceVars), s.base = 10 → s.tmp = 0 →
      i + (spec_unit_text segs r).length ≤ n →
      (memspace_loop n i (spec_unit_text segs r) s).bytes
        + (memspace_shifted (memspace_loop n i (spec_unit_text segs r) s)
          + (memspace_loop n i (spec_unit_text segs r) s).tmp)
      ≡ s.bytes + memspace_shifted s
        + (spec_unit_total (fun u => 2 ^ (10 * spec_memspace_exponent u)) segs r : Nat)
        [ZMOD 2 ^ 64] := by
  induction segs with
  | nil =>
    intro i s hb ht hn
    have htext : spec_unit_text [] r = r.map (· + 48) ++ [] := by simp [spec_unit_text]
    rw [htext] at hn ⊢
    obtain ⟨T, hT, hrun⟩ := memspace_loop_digits n r hr i [] s hb (by simpa using hn)
    rw [hrun]
    simp only [memspace_loop, memspace_shifted, spec_unit_total, List.map_nil, List.sum_nil,
      Nat.zero_add]
    rw [ht] at hT
    have : s.bytes + (s.kib * 2 ^ 10 + s.mib * 2 ^ 20 + s.gib * 2 ^ 30 + s.tib * 2 ^ 40
        + s.pib * 2 ^ 50 + T)
        = s.bytes + (s.kib * 2 ^ 10 + s.mib * 2 ^ 20 + s.gib * 2 ^ 30 + s.tib * 2 ^ 40
        + s.pib * 2 ^ 50) + T := by ring
    rw [this]
    refine Int.ModEq.add_left _ (hT.trans ?_)
    simp [Int.ModEq]
  | cons p segs ih =>
    intro i s hb ht hn
    obtain ⟨ds, u⟩ := p
    have hp := hsegs (ds, u) (List.mem_cons_self _ _)
    rw [spec_unit_text_cons] at hn ⊢
    simp only [List.length_append, List.length_map, List.length_cons] at hn
    obtain ⟨T, hT, hrun⟩ := memspace_loop_digits n ds hp.1 i (u :: spec_unit_text segs r) s hb
      (by push_cast at hn ⊢; omega)
    rw [hrun, memspace_loop_unit_step _ _ _ _ _ hp.2 (by push_cast at hn ⊢; omega)]
    obtain ⟨h1, h2, h3⟩ := memspace_switch_unit { s with tmp := T } u hp.2
    refine (ih (fun q hq => hsegs q (List.mem_cons_of_mem _ hq)) _ _ (h1.trans hb) h2
      (by push_cast at hn ⊢; omega)).trans ?_
    rw [spec_unit_total_cons]
    simp only [Nat.cast_add, Nat.cast_mul, Nat.cast_pow, Nat.cast_ofNat]
    refine (h3.add_right _).trans ?_
    rw [ht] at hT
    simp only [memspace_shifted]
    have hT2 : T ≡ ((Nat.ofDigits 10 ds.reverse : Nat) : Int) [ZMOD 2 ^ 64] := by
      refine hT.trans ?_
      simp [Int.ModEq]
    have := (hT2.mul_right (2 ^ (10 * spec_memspace_exponent u))).add_left
      (s.bytes + (s.kib * 2 ^ 10 + s.mib * 2 ^ 20 + s.gib * 2 ^ 30 + s.tib * 2 ^ 40
        + s.pib * 2 ^ 50))
    have := this.add_right
      ((spec_unit_total (fun u => 2 ^ (10 * spec_memspace_exponent u)) segs r : Nat) : Int)
    refine this.trans ?_
    rw [add_assoc]

theorem to_signed_32_length (n : Nat) (h : n < 2 ^ 31) : to_signed 32 (n : Int) = n :=
  to_signed_of_range 32 n (by norm_num) (by norm_num; omega) (by norm_num; omega)

/-- C4: for every text `n1 u1 ... nk uk r` of decimal digit runs `ni`, `r` (possibly
empty) and memory-size unit letters `ui`, shorter than `2 ^ 31` bytes and whose total
`sum ni * 2 ^ (10 * e(ui)) + r` is below `2 ^ 63`, `conf_parse_memspace_as_bytes` at
width 8 returns 0 and the slot reads back as that total. -/
theorem conf_parse_memspace_units (mem : Mem) (a : Nat) (segs : List (List Nat × Nat))
    (r : List Nat)
    (hsegs : ∀ p ∈ segs, (∀ d ∈ p.1, d < 10) ∧ p.2 ∈ spec_memspace_units)
    (hr : ∀ d ∈ r, d < 10)
    (hlen : (spec_unit_text segs r).length < 2 ^ 31)
    (htotal : spec_unit_total (fun u => 2 ^ (10 * spec_memspace_exponent u)) segs r < 2 ^ 63) :
    ∃ m, conf_parse_memspace_as_bytes (.data a) 8 (some (spec_unit_text segs r))
        (spec_unit_text segs r).length mem = .ret 0 m ∧
      get_int_from_addr m (.data a) 8
        = some ((spec_unit_total (fun u => 2 ^ (10 * spec_memspace_exponent u)) segs r : Nat)
            : Int) := by
  have hloop := memspace_loop_units ((spec_unit_text segs r).length : Int) segs r hsegs hr 0
    { base := 10, bytes := 0, kib := 0, mib := 0, gib := 0, tib := 0, pib := 0, tmp := 0 }
    rfl rfl (by simp)
  have hval : memspace_value (spec_unit_text segs r) (spec_unit_text segs r).length
      = ((spec_unit_total (fun u => 2 ^ (10 * spec_memspace_exponent u)) segs r : Nat) : Int) := by
    unfold memspace_value
    rw [to_signed_32_length _ hlen]
    simp only []
    rw [to_signed_congr 64 _ _ hloop]
    simp only [memspace_shifted]
    norm_num
    exact to_signed_of_range 64 _ (by norm_num) (by norm_num; omega) (by norm_num; omega)
  obtain ⟨m, h1, h2⟩ := put_or_fail_get mem a 8
    ((spec_unit_total (fun u => 2 ^ (10 * spec_memspace_exponent u)) segs r : Nat) : Int)
    (by decide)
  refine ⟨m, ?_, ?_⟩
  · unfold conf_parse_memspace_as_bytes
    simp only [hval]
    exact h1
  · rw [h2, show (8 * 8 : Nat) = 64 from rfl,
      to_signed_of_range 64 _ (by norm_num) (by norm_num; omega) (by norm_num; omega)]

/-- Witness for C4: "1g3k" decodes to `(1 << 30) + (3 << 10)` and "100B" to 100. -/
theorem conf_parse_memspace_units_witness :
    (∃ m, conf_parse_memspace_as_bytes (.data 16) 8 (some (ascii "1g3k")) 4 (fun _ => 0)
        = .ret 0 m ∧
      get_int_from_addr m (.data 16) 8 = some ((1 <<< 30) + (3 <<< 10))) ∧
    (∃ m, conf_parse_memspace_as_bytes (.data 16) 8 (some (ascii "100B")) 4 (fun _ => 0)
        = .ret 0 m ∧
      get_int_from_addr m (.data 16) 8 = some 100) :=
  ⟨conf_parse_memspace_units (fun _ => 0) 16 [([1], 103), ([3], 107)] [] (by decide) (by decide)
      (by decide) (by decide),
   conf_parse_memspace_units (fun _ => 0) 16 [([1, 0, 0], 66)] [] (by decide) (by decide)
      (by decide) (by decide)⟩

/-! ## C5: durations with unit letters -/

theorem time_switch_digit (s : TimeVars) (d : Nat) (hd : d < 10) :
    time_switch s (d + 48)
      = { s with tmp := to_signed 64 (s.tmp * s.base + d) } := by
  unfold time_switch
  rw [char2digit_decimal d hd]
  have h : ∀ k : Nat, 57 < k → d + 48 ≠ k := fun k hk => by omega
  simp [h]

theorem time_loop_cons (n i : Int) (c : Nat) (cs : List Nat) (s : TimeVars)
    (h1 : i < n) (h2 : c ≠ 0) (h3 : c ≠ 120 ∧ c ≠ 88) :
    time_loop n i (c :: cs) s = time_loop n (i + 1) cs (time_switch s c) := by
  rw [time_loop]
  simp [h1, h2, h3]

theorem time_loop_digits (n : Int) (ds : List Nat) (hd : ∀ d ∈ ds, d < 10) :
    ∀ (i : Int) (rest : List Nat) (s : TimeVars), s.base = 10 → i + ds.length ≤ n →
    ∃ T : Int, T ≡ s.tmp * 10 ^ ds.length + (Nat.ofDigits 10 ds.reverse : Nat) [ZMOD 2 ^ 64] ∧
      time_loop n i (ds.map (· + 48) ++ rest) s
        = time_loop n (i + ds.length) rest { s with tmp := T } := by
  induction ds with
  | nil =>
    intro i rest s _ _
    exact ⟨s.tmp, by simp [Int.ModEq], by simp⟩
  | cons d ds ih =>
    intro i rest s hb hn
    have h1 := hd d (List.mem_cons_self _ _)
    have hlen : ((d :: ds).length : Int) = ds.length + 1 := by simp
    obtain ⟨T, hT, hrun⟩ := ih (fun x hx => hd x (List.mem_cons_of_mem _ hx)) (i + 1) rest
      { s with tmp := to_signed 64 (s.tmp * s.base + d) } hb (by omega)
    refine ⟨T, ?_, ?_⟩
    · refine hT.trans ?_
      rw [ofDigits_reverse_cons, hb]
      have h2 := to_signed_modEq 64 (s.tmp * 10 + d)
      have h3 := (h2.mul_right (10 ^ ds.length)).add_right
        (((Nat.ofDigits 10 ds.reverse : Nat) : Int))
      refine h3.trans ?_
      have : (s.tmp * 10 + ↑d) * 10 ^ ds.length + ((Nat.ofDigits 10 ds.reverse : Nat) : Int)
          = s.tmp * 10 ^ (d :: ds).length
            + ((Nat.ofDigits 10 ds.reverse + 10 ^ ds.length * d : Nat) : Int) := by
        push_cast
        simp only [List.length_cons, pow_succ]
        ring
      rw [this]
    · rw [List.map_cons, List.cons_append,
        time_loop_cons n i _ _ s (by omega) (by omega) (by omega),
        time_switch_digit s d h1, hrun]
      have : i + 1 + (ds.length : Int) = i + ((d :: ds).length : Int) := by rw [hlen]; ring
      rw [this]

theorem time_switch_unit (s : TimeVars) (u : Nat) (hu : u ∈ spec_time_units) :
    (time_switch s u).base = s.base ∧ (time_switch s u).tmp = 0 ∧
    (time_switch s u).seconds + time_scaled (time_switch s u)
      ≡ s.seconds + time_scaled s + s.tmp * spec_time_seconds u
        [ZMOD 2 ^ 64] := by
  obtain ⟨qs, hs⟩ := to_signed_eq_add 64 (s.seconds + s.tmp)
  obtain ⟨qm, hm⟩ := to_signed_eq_add 64 (s.minutes + s.tmp)
  obtain ⟨qh, hh⟩ := to_signed_eq_add 64 (s.hours + s.tmp)
  obtain ⟨qd, hd⟩ := to_signed_eq_add 64 (s.days + s.tmp)
  obtain ⟨qy, hy⟩ := to_signed_eq_add 64 (s.years + s.tmp)
  simp only [spec_time_units, List.mem_cons, List.mem_singleton, List.not_mem_nil,
    or_false] at hu
  rcases hu with rfl | rfl | rfl | rfl | rfl | rfl | rfl | rfl | rfl | rfl <;>
  · refine ⟨by simp [time_switch], by simp [time_switch], ?_⟩
    simp only [time_switch, case_move_int, time_scaled, spec_time_seconds]
    norm_num
    simp only [hs, hm, hh, hd, hy]
    rw [Int.modEq_iff_dvd]
    first
      | (refine ⟨-qs, ?_⟩; ring1)
      | (refine ⟨-qm * 60, ?_⟩; ring1)
      | (refine ⟨-qh * 3600, ?_⟩; ring1)
      | (refine ⟨-qd * 86400, ?_⟩; ring1)
      | (refine ⟨-qy * 31536000, ?_⟩; ring1)

theorem time_loop_unit_step (n i : Int) (u : Nat) (cs : List Nat) (s : TimeVars)
    (hu : u ∈ spec_time_units) (h1 : i < n) :
    time_loop n i (u :: cs) s = time_loop n (i + 1) cs (time_switch s u) := by
  have h : u ≠ 0 ∧ u ≠ 120 ∧ u ≠ 88 := by
    simp only [spec_time_units, List.mem_cons, List.mem_singleton, List.not_mem_nil,
      or_false] at hu
    omega
  exact time_loop_cons n i u cs s h1 h.1 h.2

theorem time_loop_units (n : Int) (segs : List (List Nat × Nat)) (r : List Nat)
    (hsegs : ∀ p ∈ segs, (∀ d ∈ p.1, d < 10) ∧ p.2 ∈ spec_time_units)
    (hr : ∀ d ∈ r, d < 10) :
    ∀ (i : Int) (s : TimeVars), s.base = 10 → s.tmp = 0 →
      i + (spec_unit_text segs r).length ≤ n →
      (time_loop n i (spec_unit_text segs r) s).seconds
        + (time_scaled (time_loop n i (spec_unit_text segs r) s)
          + (time_loop n i (spec_unit_text segs r) s).tmp)
      ≡ s.seconds + time_scaled s
        + (spec_unit_total (fun u => spec_time_seconds u) segs r : Nat)
        [ZMOD 2 ^ 64] := by
  induction segs with
  | nil =>
    intro i s hb ht hn
    have htext : spec_unit_text [] r = r.map (· + 48) ++ [] := by simp [spec_unit_text]
    rw [htext] at hn ⊢
    obtain ⟨T, hT, hrun⟩ := time_loop_digits n r hr i [] s hb (by simpa using hn)
    rw [hrun]
    simp only [time_loop, time_scaled, spec_unit_total, List.map_nil, List.sum_nil,
      Nat.zero_add]
    rw [ht] at hT
    have : s.seconds + (s.years * 365 * 24 * 60 * 60 + s.days * 24 * 60 * 60 + s.hours * 60 * 60
        + s.minutes * 60 + T)
        = s.seconds + (s.years * 365 * 24 * 60 * 60 + s.days * 24 * 60 * 60 + s.hours * 60 * 60
        + s.minutes * 60) + T := by ring
    rw [this]
    refine Int.ModEq.add_left _ (hT.trans ?_)
    simp [Int.ModEq]
  | cons p segs ih =>
    intro i s hb ht hn
    obtain ⟨ds, u⟩ := p
    have hp := hsegs (ds, u) (List.mem_cons_self _ _)
    rw [spec_unit_text_cons] at hn ⊢
    simp only [List.length_append, List.length_map, List.length_cons] at hn
    obtain ⟨T, hT, hrun⟩ := time_loop_digits n ds hp.1 i (u :: spec_unit_text segs r) s hb
      (by push_cast at hn ⊢; omega)
    rw [hrun, time_loop_unit_step _ _ _ _ _ hp.2 (by push_cast at hn ⊢; omega)]
    obtain ⟨h1, h2, h3⟩ := time_switch_unit { s with tmp := T } u hp.2
    refine (ih (fun q hq => hsegs q (List.mem_cons_of_mem _ hq)) _ _ (h1.trans hb) h2
      (by push_cast at hn ⊢; omega)).trans ?_
    rw [spec_unit_total_cons]
    simp only [Nat.cast_add, Nat.cast_mul, Nat.cast_pow, Nat.cast_ofNat]
    refine (h3.add_right _).trans ?_
    rw [ht] at hT
    simp only [time_scaled]
    have hT2 : T ≡ ((Nat.ofDigits 10 ds.reverse : Nat) : Int) [ZMOD 2 ^ 64] := by
      refine hT.trans ?_
      simp [Int.ModEq]
    have := (hT2.mul_right (spec_time_seconds u)).add_left
      (s.seconds + (s.years * 365 * 24 * 60 * 60 + s.days * 24 * 60 * 60 + s.hours * 60 * 60
        + s.minutes * 60))
    have := this.add_right
      ((spec_unit_total (fun u => spec_time_seconds u) segs r : Nat) : Int)
    refine this.trans ?_
    rw [add_assoc]

/-- C5: for every text `n1 u1 ... nk uk r` of decimal digit runs `ni`, `r` (possibly
empty) and duration unit letters `ui`, shorter than `2 ^ 31` bytes and whose total
`sum ni * c(ui) + r` is below `2 ^ 63`, `conf_parse_time_as_second` at width 8 returns 0
and the slot reads back as that total. -/
theorem conf_parse_time_units (mem : Mem) (a : Nat) (segs : List (List Nat × Nat))
    (r : List Nat)
    (hsegs : ∀ p ∈ segs, (∀ d ∈ p.1, d < 10) ∧ p.2 ∈ spec_time_units)
    (hr : ∀ d ∈ r, d < 10)
    (hlen : (spec_unit_text segs r).length < 2 ^ 31)
    (htotal : spec_unit_total (fun u => spec_time_seconds u) segs r < 2 ^ 63) :
    ∃ m, conf_parse_time_as_second (.data a) 8 (some (spec_unit_text segs r))
        (spec_unit_text segs r).length mem = .ret 0 m ∧
      get_int_from_addr m (.data a) 8
        = some ((spec_unit_total (fun u => spec_time_seconds u) segs r : Nat)
            : Int) := by
  have hloop := time_loop_units ((spec_unit_text segs r).length : Int) segs r hsegs hr 0
    { base := 10, seconds := 0, hours := 0, minutes := 0, days := 0, years := 0, tmp := 0 }
    rfl rfl (by simp)
  have hval : time_value (spec_unit_text segs r) (spec_unit_text segs r).length
      = ((spec_unit_total (fun u => spec_time_seconds u) segs r : Nat) : Int) := by
    unfold time_value
    rw [to_signed_32_length _ hlen]
    simp only []
    rw [to_signed_congr 64 _ _ hloop]
    simp only [time_scaled]
    norm_num
    exact to_signed_of_range 64 _ (by norm_num) (by norm_num; omega) (by norm_num; omega)
  obtain ⟨m, h1, h2⟩ := put_or_fail_get mem a 8
    ((spec_unit_total (fun u => spec_time_seconds u) segs r : Nat) : Int)
    (by decide)
  refine ⟨m, ?_, ?_⟩
  · unfold conf_parse_time_as_second
    simp only [hval]
    exact h1
  · rw [h2, show (8 * 8 : Nat) = 64 from rfl,
      to_signed_of_range 64 _ (by norm_num) (by norm_num; omega) (by norm_num; omega)]

/-- Witness for C5: "3y10d10h6m10s" decodes to
`3 * 31536000 + 10 * 86400 + 10 * 3600 + 6 * 60 + 10`. -/
theorem conf_parse_time_units_witness :
    ∃ m, conf_parse_time_as_second (.data 16) 8 (some (ascii "3y10d10h6m10s")) 13 (fun _ => 0)
        = .ret 0 m ∧
      get_int_from_addr m (.data 16) 8
        = some (3 * 31536000 + 10 * 86400 + 10 * 3600 + 6 * 60 + 10) :=
  conf_parse_time_units (fun _ => 0) 16
    [([3], 121), ([1, 0], 100), ([1, 0], 104), ([6], 109), ([1, 0], 115)] []
    (by decide) (by decide) (by decide) (by decide)

/-! ## C6: the string encoder -/

theorem to_signed_32_pred (n : Nat) (h : n + 1 < 2 ^ 31) :
    to_signed 32 (((n + 1 : Nat) : Int) - 1) = (n : Int) := by
  have : (((n + 1 : Nat) : Int) - 1) = (n : Int) := by push_cast; ring
  rw [this]
  exact to_signed_of_range 32 n (by norm_num) (by norm_num; omega) (by norm_num; omega)

/-- The copy loop of `conf_parse_string` on a source without NUL and a count below
`2 ^ 31`: it copies the first `min n (length src)` bytes and leaves the rest of memory
alone. -/
theorem conf_parse_string_loop_copy (src : List Nat) (hsrc : ∀ x ∈ src, x ≠ 0) :
    ∀ (n dest : Nat) (mem : Mem), n < 2 ^ 31 →
      conf_parse_string_loop (n : Int) src dest mem
        = (dest + min n src.length,
           fun x => if dest ≤ x ∧ x < dest + min n src.length
             then src.getD (x - dest) 0 % 256 else mem x) := by
  induction src with
  | nil =>
    intro n dest mem _
    simp only [conf_parse_string_loop, List.length_nil, Nat.min_zero, Nat.add_zero]
    congr 1
    funext x
    have : ¬ (dest ≤ x ∧ x < dest) := by omega
    simp [this]
  | cons c cs ih =>
    intro n dest mem hn
    have hc := hsrc c (List.mem_cons_self _ _)
    cases n with
    | zero =>
      simp only [conf_parse_string_loop, Nat.cast_zero, true_or, if_true, Nat.zero_min,
        Nat.add_zero]
      congr 1
      funext x
      have : ¬ (dest ≤ x ∧ x < dest) := by omega
      simp [this]
    | succ n =>
      have h0 : ¬ ((((n + 1 : Nat) : Int) = 0) ∨ c = 0) := by
        push_cast
        omega
      rw [conf_parse_string_loop, if_neg h0, to_signed_32_pred n hn,
        ih (fun x hx => hsrc x (List.mem_cons_of_mem _ hx)) n (dest + 1) _ (by omega)]
      have hmin : min (n + 1) (c :: cs).length = min n cs.length + 1 := by
        simp only [List.length_cons]
        omega
      rw [hmin]
      refine Prod.ext (by simp only []; omega) ?_
      funext x
      simp only [Mem.write]
      by_cases hx : x = dest
      · subst hx
        have h1 : ¬ (x + 1 ≤ x ∧ x < x + 1 + min n cs.length) := by omega
        have h2 : x ≤ x ∧ x < x + (min n cs.length + 1) := by omega
        simp [h1, h2]
      · by_cases hr : dest + 1 ≤ x ∧ x < dest + 1 + min n cs.length
        · have h2 : dest ≤ x ∧ x < dest + (min n cs.length + 1) := by omega
          obtain ⟨j, hj⟩ : ∃ j, x - dest = j + 1 := ⟨x - dest - 1, by omega⟩
          have h3 : x - (dest + 1) = j := by omega
          simp [hr, h2, hj, h3]
        · have h2 : ¬ (dest ≤ x ∧ x < dest + (min n cs.length + 1)) := by omega
          simp [hr, h2, hx]

/-- What `conf_parse_string` does when the value is at least as long as the capacity:
it fills all `c` bytes of the storage with bytes of the value and writes the terminator
at index `c`, the first byte after the storage. -/
theorem conf_parse_string_overrun (mem : Mem) (a c : Nat) (v : List Nat)
    (hc : 1 ≤ c) (hv : ∀ x ∈ v, x ≠ 0) (hlen : c ≤ v.length) (hcap : c < 2 ^ 31) :
    ∃ m, conf_parse_string (.data a) c (some v) v.length mem = .ret 0 m ∧
      m (a + c) = 0 ∧ ∀ i, i < c → m (a + i) = v.getD i 0 % 256 := by
  have hlen2 : (if c < v.length then (c : Int) else (v.length : Int)) = (c : Int) := by
    split
    · rfl
    · have : c = v.length := by omega
      rw [← this]
  have hs : to_signed 32 (c : Int) = (c : Int) :=
    to_signed_of_range 32 c (by norm_num) (by norm_num; omega) (by norm_num; omega)
  have hne : ¬ ((c : Int) = 0) := by omega
  refine ⟨_, by simp only [conf_parse_string, hlen2, hs, hne, if_false]; rfl, ?_, ?_⟩
  · simp [Mem.write, conf_parse_string_loop_copy v hv c a mem hcap, Nat.min_eq_left hlen]
  · intro i hi
    simp only [Mem.write, conf_parse_string_loop_copy v hv c a mem hcap, Nat.min_eq_left hlen]
    have h1 : a + i ≠ a + c := by omega
    have h2 : a ≤ a + i ∧ a + i < a + c := by omega
    simp [h1, h2]

/-- C6, evaluated at capacity 1 and raw value "a" (length 1): `conf_parse_string`
copies one byte, not `min(c - 1, len) = 0`, and writes the terminator at index 1, outside
the one-byte storage: the byte after the slot, 7 before the call, is 0 after it. -/
theorem conf_parse_string_writes_past_capacity :
    ∃ m, conf_parse_string (.data 16) 1 (some (ascii "a")) 1 (fun _ => 7) = .ret 0 m ∧
      m 16 = 97 ∧ m 17 = 0 :=
  ⟨_, rfl, by decide, by decide⟩


/-! ## C7: defaults resolver with an absent default -/

/-- C7, evaluated on a registry of one descriptor without default followed by the
sentinel: with the integer encoder and with the boolean encoder `conf_init` reads
through the NULL default (the model's `undefined`), so it does not return success; with the
string encoder it returns success and stores the empty string. -/
theorem conf_init_null_default (file : FileCall) (st : State) :
    conf_init file (null_default_registry .conf_parse_integer)
      (null_default_registry .conf_parse_integer) st = .undefined ∧
    conf_init file (null_default_registry .conf_parse_bool)
      (null_default_registry .conf_parse_bool) st = .undefined ∧
    ∃ st1, conf_init file (null_default_registry .conf_parse_string)
      (null_default_registry .conf_parse_string) st = .ret 0 st1 ∧ st1.mem 16 = 0 :=
  ⟨rfl, rfl, _, rfl, rfl⟩

/-! ## C8: an included file followed by a line of the including file -/

theorem put_or_fail_ok (mem : Mem) (a w : Nat) (v : Int)
    (hw : w = 1 ∨ w = 2 ∨ w = 4 ∨ w = 8) :
    ∃ m, put_or_fail (.data a) w v mem = .ret 0 m := by
  obtain ⟨m, h, _⟩ := put_or_fail_get mem a w v hw
  exact ⟨m, h⟩

theorem conf_parse_string_ok (mem : Mem) (a cap : Nat) (v : List Nat) (vl : Nat) :
    ∃ m, conf_parse_string (.data a) cap (some v) vl mem = .ret 0 m := by
  by_cases h : to_signed 32 (if cap < vl then (cap : Int) else vl) = 0
  · exact ⟨mem.write a 0, by simp only [conf_parse_string, h, if_true]⟩
  · exact ⟨(conf_parse_string_loop (to_signed 32 (if cap < vl then (cap : Int) else vl)) v a
        mem).2.write (conf_parse_string_loop (to_signed 32 (if cap < vl then (cap : Int) else vl))
        v a mem).1 0, by simp only [conf_parse_string, h, if_false]⟩

theorem value_encoder_ok (file : FileCall) (self : List parse_command_t) (d : parse_command_t)
    (hs : supported_binding d = true) (hd : d.parse_func ≠ some .conf_do_include)
    (v : List Nat) (vl : Nat) (st : State) :
    ∃ m, call_parse_func file self d (some v) vl st = .ret 0 { st with mem := m } := by
  obtain ⟨cmd, pf, addr, cap, dv, vt, desc⟩ := d
  simp only at hd
  cases pf with
  | none => simp [supported_binding] at hs
  | some f =>
    cases addr with
    | null => cases f <;> simp [supported_binding] at hs
    | cmds => cases f <;> simp [supported_binding] at hs; exact absurd rfl hd
    | data a =>
      cases f with
      | conf_do_include => exact absurd rfl hd
      | conf_parse_string =>
        obtain ⟨m, h⟩ := conf_parse_string_ok st.mem a cap v vl
        exact ⟨m, by simp only [call_parse_func, h]; rfl⟩
      | conf_parse_integer =>
        have hw : cap = 1 ∨ cap = 2 ∨ cap = 4 ∨ cap = 8 := by simpa [supported_binding] using hs
        simp only [call_parse_func, conf_parse_integer]
        obtain ⟨m, h⟩ := put_or_fail_ok st.mem a cap
          (strtoll (if (decide (2 < vl ∧ char_at v 0 = 48 ∧ char_at v 1 = 120)) = true
            then List.drop 2 (cstr v) else v)
            (if (decide (2 < vl ∧ char_at v 0 = 48 ∧ char_at v 1 = 120)) = true then 16 else 10)) hw
        exact ⟨m, by rw [h]; rfl⟩
      | conf_parse_memspace_as_bytes =>
        have hw : cap = 1 ∨ cap = 2 ∨ cap = 4 ∨ cap = 8 := by simpa [supported_binding] using hs
        simp only [call_parse_func, conf_parse_memspace_as_bytes]
        obtain ⟨m, h⟩ := put_or_fail_ok st.mem a cap (memspace_value v vl) hw
        exact ⟨m, by rw [h]; rfl⟩
      | conf_parse_time_as_second =>
        have hw : cap = 1 ∨ cap = 2 ∨ cap = 4 ∨ cap = 8 := by simpa [supported_binding] using hs
        simp only [call_parse_func, conf_parse_time_as_second]
        obtain ⟨m, h⟩ := put_or_fail_ok st.mem a cap (time_value v vl) hw
        exact ⟨m, by rw [h]; rfl⟩
      | conf_parse_bool =>
        have hw : cap = 1 ∨ cap = 2 ∨ cap = 4 ∨ cap = 8 := by simpa [supported_binding] using hs
        simp only [call_parse_func, conf_parse_bool]
        obtain ⟨m, h⟩ := put_or_fail_ok st.mem a cap
          (if char_at v 0 = 121 ∨ char_at v 0 = 116 ∨ char_at v 0 = 111 ∨ char_at v 0 = 49
            then 1 else 0) hw
        exact ⟨m, by rw [h]; rfl⟩

theorem conf_parse_line_key_rest (file : FileCall) (cmds : List parse_command_t)
    (k t : List Nat) (line_len : Nat) (st : State)
    (hk : line_key k) (hlen : (k ++ 32 :: t).length < CONF_MAX_LINE_LEN) (hl : line_len ≠ 0) :
    conf_parse_line file cmds (k ++ 32 :: t) line_len st
      = conf_parse_line_loop file cmds cmds
          ((((cstr t).dropWhile (fun c => c = 32 ∨ c = 9 ∨ c = 13 ∨ c = 10)).takeWhile
            (fun c => c ≠ 13 ∧ c ≠ 10)).length)
          { st with
            key := k,
            value := (((cstr t).dropWhile (fun c => c = 32 ∨ c = 9 ∨ c = 13 ∨ c = 10)).takeWhile
              (fun c => c ≠ 13 ∧ c ≠ 10)).rdropWhile (fun c => c = 32 ∨ c = 9) } := by
  obtain ⟨hne, hchars, hhead⟩ := hk
  obtain ⟨c, k1, rfl⟩ : ∃ c k1, k = c :: k1 := by
    cases k with
    | nil => exact absurd rfl hne
    | cons c k1 => exact ⟨c, k1, rfl⟩
  have hc := hchars c (List.mem_cons_self _ _)
  have hc2 : c ≠ 35 ∧ c ≠ 91 := by
    simpa using hhead
  have h1 : cstr (c :: k1 ++ 32 :: t) = c :: (k1 ++ 32 :: cstr t) := by
    rw [cstr_append_of_ne_zero _ _ (fun x hx => (hchars x hx).1)]
    simp [cstr]
  have h2 : (c :: (k1 ++ 32 :: cstr t)).dropWhile (fun c => decide (c = 32 ∨ c = 9))
      = c :: (k1 ++ 32 :: cstr t) := by
    have : ¬ (c = 32 ∨ c = 9) := by omega
    simp [this]
  have h3 : (c :: (k1 ++ 32 :: cstr t)).takeWhile
      (fun c => decide (c ≠ 32 ∧ c ≠ 9 ∧ c ≠ 13 ∧ c ≠ 10)) = c :: k1 := by
    rw [← List.cons_append, List.takeWhile_append_of_pos]
    · simp
    · intro x hx
      have := hchars x hx
      simp only [decide_eq_true_eq]
      omega
  have h4 : (c :: (k1 ++ 32 :: cstr t)).dropWhile
      (fun c => decide (c ≠ 32 ∧ c ≠ 9 ∧ c ≠ 13 ∧ c ≠ 10)) = 32 :: cstr t := by
    rw [← List.cons_append, List.dropWhile_append_of_pos]
    · simp
    · intro x hx
      have := hchars x hx
      simp only [decide_eq_true_eq]
      omega
  have h5 : (32 :: cstr t).dropWhile (fun c => decide (c = 32 ∨ c = 9 ∨ c = 13 ∨ c = 10))
      = (cstr t).dropWhile (fun c => decide (c = 32 ∨ c = 9 ∨ c = 13 ∨ c = 10)) := by
    simp
  have h6 : (((cstr t).dropWhile (fun c => decide (c = 32 ∨ c = 9 ∨ c = 13 ∨ c = 10))).takeWhile
      (fun c => decide (c ≠ 13 ∧ c ≠ 10))).length < CONF_MAX_LINE_LEN := by
    have a1 := (List.takeWhile_sublist (fun c => decide (c ≠ 13 ∧ c ≠ 10))
      (l := (cstr t).dropWhile (fun c => decide (c = 32 ∨ c = 9 ∨ c = 13 ∨ c = 10)))).length_le
    have a2 := (List.dropWhile_sublist (fun c => decide (c = 32 ∨ c = 9 ∨ c = 13 ∨ c = 10))
      (l := cstr t)).length_le
    have a3 : (cstr t).length ≤ t.length :=
      (List.takeWhile_sublist (fun c => decide (c ≠ 0)) (l := t)).length_le
    simp only [List.length_append, List.length_cons] at hlen
    omega
  have h7 : (c :: k1).length < CONF_MAX_LINE_LEN := by
    simp only [List.length_append, List.length_cons] at hlen ⊢
    omega
  unfold conf_parse_line
  rw [if_neg hl]
  simp only [h1, h2]
  have hc3 : ¬ (c = 35 ∨ c = 13 ∨ c = 10 ∨ c = 91) := by omega
  rw [if_neg hc3]
  simp only [h3, h4, h5]
  rw [if_neg (by omega)]

theorem line_value_tokens (v eol : List Nat) (hv : trimmed_value v)
    (heol : eol = [] ∨ eol = [10] ∨ eol = [13, 10]) :
    ((cstr (v ++ eol)).dropWhile (fun c => c = 32 ∨ c = 9 ∨ c = 13 ∨ c = 10)).takeWhile
        (fun c => c ≠ 13 ∧ c ≠ 10) = v ∧
    v.rdropWhile (fun c => c = 32 ∨ c = 9) = v := by
  obtain ⟨hchars, hhead, hlast⟩ := hv
  have hz : cstr (v ++ eol) = v ++ eol := by
    apply cstr_of_ne_zero
    intro x hx
    rw [List.mem_append] at hx
    rcases hx with hx | hx
    · exact (hchars x hx).1
    · rcases heol with rfl | rfl | rfl <;> simp at hx <;> omega
  have htake : (v ++ eol).takeWhile (fun c => decide (c ≠ 13 ∧ c ≠ 10)) = v := by
    rw [List.takeWhile_append_of_pos]
    · rcases heol with rfl | rfl | rfl <;> simp
    · intro x hx
      have := hchars x hx
      simp only [decide_eq_true_eq]
      omega
  constructor
  · rw [hz]
    cases v with
    | nil =>
      rcases heol with rfl | rfl | rfl <;> simp
    | cons x v1 =>
      have h1 := hchars x (List.mem_cons_self _ _)
      have h2 : x ≠ 32 ∧ x ≠ 9 := by
        simpa using hhead
      have h3 : ¬ (x = 32 ∨ x = 9 ∨ x = 13 ∨ x = 10) := by omega
      have h4 : (x :: v1 ++ eol).dropWhile (fun c => decide (c = 32 ∨ c = 9 ∨ c = 13 ∨ c = 10))
          = x :: v1 ++ eol := by
        simp [h3]
      rw [h4]
      exact htake
  · rw [List.rdropWhile_eq_self_iff]
    intro hl
    have h1 : v.getLast hl ≠ 32 ∧ v.getLast hl ≠ 9 := by
      rw [List.getLast?_eq_getLast v hl] at hlast
      simpa using hlast
    simp only [decide_eq_true_eq]
    omega

theorem conf_parse_line_key_value (file : FileCall) (cmds : List parse_command_t)
    (k v eol : List Nat) (line_len : Nat) (st : State)
    (hk : line_key k) (hv : trimmed_value v) (heol : eol = [] ∨ eol = [10] ∨ eol = [13, 10])
    (hlen : (k ++ 32 :: (v ++ eol)).length < CONF_MAX_LINE_LEN) (hl : line_len ≠ 0) :
    conf_parse_line file cmds (k ++ 32 :: (v ++ eol)) line_len st
      = conf_parse_line_loop file cmds cmds v.length { st with key := k, value := v } := by
  rw [conf_parse_line_key_rest file cmds k (v ++ eol) line_len st hk hlen hl]
  obtain ⟨h1, h2⟩ := line_value_tokens v eol hv heol
  simp only [h1, h2]

/-- The dispatch loop when every descriptor matching the key is a value encoder with a
supported binding: it returns 0 and only application memory changes. -/
theorem conf_parse_line_loop_values (file : FileCall) (self : List parse_command_t)
    (vl : Nat) (it : List parse_command_t) :
    ∀ st : State, (∃ x ∈ it, x.cmd = none) →
      (∀ e ∈ entries it, ∀ n, e.cmd = some n → cstr n = cstr st.key →
        supported_binding e = true ∧ e.parse_func ≠ some .conf_do_include) →
      ∃ m, conf_parse_line_loop file self it vl st = .ret 0 { st with mem := m } := by
  induction it with
  | nil => intro st ht; simp at ht
  | cons e rest ih =>
    intro st ht hm
    cases hcmd : e.cmd with
    | none => exact ⟨st.mem, by simp [conf_parse_line_loop, hcmd]⟩
    | some n =>
      have ht2 := sentinel_in_tail e rest n hcmd ht
      rw [entries_cons_some e rest n hcmd] at hm
      have hm2 : ∀ m : Mem, ∀ x ∈ entries rest, ∀ n, x.cmd = some n →
          cstr n = cstr ({ st with mem := m } : State).key →
          supported_binding x = true ∧ x.parse_func ≠ some .conf_do_include :=
        fun _ x hx => hm x (List.mem_cons_of_mem _ hx)
      by_cases hkey : cstr n = cstr st.key
      · obtain ⟨h1, h2⟩ := hm e (List.mem_cons_self _ _) n hcmd hkey
        obtain ⟨m1, hcall⟩ := value_encoder_ok file self e h1 h2 st.value vl st
        obtain ⟨m, hrest⟩ := ih { st with mem := m1 } ht2 (hm2 m1)
        exact ⟨m, by simp [conf_parse_line_loop, hcmd, hkey, hcall, hrest]⟩
      · obtain ⟨m, hrest⟩ := ih st ht2 (hm2 st.mem)
        exact ⟨m, by simp [conf_parse_line_loop, hcmd, hkey, hrest]⟩

/-- The dispatch loop when no descriptor matches the key: nothing changes. -/
theorem conf_parse_line_loop_no_match (file : FileCall) (self : List parse_command_t)
    (vl : Nat) (it : List parse_command_t) (st : State) (ht : ∃ x ∈ it, x.cmd = none)
    (hm : ∀ e ∈ entries it, ∀ n, e.cmd = some n → cstr n ≠ cstr st.key) :
    conf_parse_line_loop file self it vl st = .ret 0 st := by
  induction it with
  | nil => simp at ht
  | cons e rest ih =>
    cases hcmd : e.cmd with
    | none => simp [conf_parse_line_loop, hcmd]
    | some n =>
      rw [entries_cons_some e rest n hcmd] at hm
      have hkey := hm e (List.mem_cons_self _ _) n hcmd
      have := ih (sentinel_in_tail e rest n hcmd ht) (fun x hx => hm x (List.mem_cons_of_mem _ hx))
      simp [conf_parse_line_loop, hcmd, hkey, this]

theorem entries_append (pre rest : List parse_command_t) (hpre : ∀ e ∈ pre, e.cmd ≠ none) :
    entries (pre ++ rest) = pre ++ entries rest := by
  unfold entries
  rw [List.takeWhile_append_of_pos]
  intro e he
  have := hpre e he
  cases h : e.cmd with
  | none => exact absurd h this
  | some n => rfl

/-- The dispatch loop seen from the last descriptor `d` that matches the key, when the
matching descriptors are value encoders with supported bindings: the loop returns 0 and
its final state is the one `d`'s encoder leaves. -/
theorem conf_parse_line_loop_last (file : FileCall) (self : List parse_command_t)
    (vl : Nat) (d : parse_command_t) (post : List parse_command_t) (n : List Nat)
    (hd : d.cmd = some n) (hterm : ∃ x ∈ post, x.cmd = none) (pre : List parse_command_t) :
    ∀ st : State, (∀ e ∈ pre, e.cmd ≠ none) → cstr n = cstr st.key →
      (∀ e ∈ entries post, ∀ n, e.cmd = some n → cstr n ≠ cstr st.key) →
      (∀ e ∈ pre ++ [d], ∀ n, e.cmd = some n → cstr n = cstr st.key →
        supported_binding e = true ∧ e.parse_func ≠ some .conf_do_include) →
      ∃ m1 m2, conf_parse_line_loop file self (pre ++ d :: post) vl st
          = .ret 0 { st with mem := m2 } ∧
        call_parse_func file self d (some st.value) vl { st with mem := m1 }
          = .ret 0 { st with mem := m2 } := by
  induction pre with
  | nil =>
    intro st _ hkey hpost hm
    obtain ⟨h1, h2⟩ := hm d (by simp) n hd hkey
    obtain ⟨m2, hcall⟩ := value_encoder_ok file self d h1 h2 st.value vl st
    have hrest := conf_parse_line_loop_no_match file self vl post { st with mem := m2 } hterm
      hpost
    exact ⟨st.mem, m2, by simp [conf_parse_line_loop, hd, hkey, hcall, hrest], hcall⟩
  | cons e pre ih =>
    intro st hpre hkey hpost hm
    obtain ⟨ne, hcmd⟩ : ∃ ne, e.cmd = some ne := by
      have := hpre e (List.mem_cons_self _ _)
      cases h : e.cmd with
      | none => exact absurd h this
      | some ne => exact ⟨ne, rfl⟩
    have hpre2 : ∀ x ∈ pre, x.cmd ≠ none := fun x hx => hpre x (List.mem_cons_of_mem _ hx)
    have hm2 : ∀ x ∈ pre ++ [d], ∀ n, x.cmd = some n → cstr n = cstr st.key →
        supported_binding x = true ∧ x.parse_func ≠ some .conf_do_include :=
      fun x hx => hm x (by simp at hx ⊢; tauto)
    by_cases hk : cstr ne = cstr st.key
    · obtain ⟨h1, h2⟩ := hm e (by simp) ne hcmd hk
      obtain ⟨m0, hcall⟩ := value_encoder_ok file self e h1 h2 st.value vl st
      obtain ⟨m1, m2, hloop, hlast⟩ := ih { st with mem := m0 } hpre2 hkey hpost hm2
      exact ⟨m1, m2, by simp [conf_parse_line_loop, hcmd, hk, hcall, hloop], hlast⟩
    · obtain ⟨m1, m2, hloop, hlast⟩ := ih st hpre2 hkey hpost hm2
      exact ⟨m1, m2, by simp [conf_parse_line_loop, hcmd, hk, hloop], hlast⟩

/-- The dispatch loop for the line `include sub.conf`, when the nested file resolves and
leaves the key `k` in the static array: the loop returns 0. -/
theorem conf_parse_line_loop_include (file : FileCall) (self : List parse_command_t)
    (k : List Nat) (vl : Nat)
    (hfile : ∀ s0 : State, ∃ s2, file (some self) (some (ascii "sub.conf")) s0 = .ret 0 s2 ∧
      s2.key = k)
    (it : List parse_command_t) :
    ∀ st : State, (∃ x ∈ it, x.cmd = none) → st.value = ascii "sub.conf" →
      (∀ e ∈ entries it, ∀ n, e.cmd = some n → cstr n = cstr st.key →
        supported_binding e = true) →
      (∀ e ∈ entries it, ∀ n, e.cmd = some n → cstr n = cstr k →
        supported_binding e = true ∧ e.parse_func ≠ some .conf_do_include) →
      ∃ st1, conf_parse_line_loop file self it vl st = .ret 0 st1 := by
  induction it with
  | nil => intro st ht; simp at ht
  | cons e rest ih =>
    intro st ht hval hinc hk
    cases hcmd : e.cmd with
    | none => exact ⟨st, by simp [conf_parse_line_loop, hcmd]⟩
    | some n =>
      have ht2 := sentinel_in_tail e rest n hcmd ht
      rw [entries_cons_some e rest n hcmd] at hinc hk
      have hinc2 : ∀ m : Mem, ∀ x ∈ entries rest, ∀ n, x.cmd = some n →
          cstr n = cstr ({ st with mem := m } : State).key → supported_binding x = true :=
        fun _ x hx => hinc x (List.mem_cons_of_mem _ hx)
      have hk2 : ∀ x ∈ entries rest, ∀ n, x.cmd = some n → cstr n = cstr k →
          supported_binding x = true ∧ x.parse_func ≠ some .conf_do_include :=
        fun x hx => hk x (List.mem_cons_of_mem _ hx)
      by_cases hkey : cstr n = cstr st.key
      · have hs := hinc e (List.mem_cons_self _ _) n hcmd hkey
        by_cases hf : e.parse_func = some .conf_do_include
        · have haddr : e.addr = .cmds := by
            unfold supported_binding at hs
            rw [hf] at hs
            cases ha : e.addr <;> simp [ha] at hs
            rfl
          obtain ⟨s2, hs2, hs2k⟩ := hfile st
          have hcall : call_parse_func file self e (some st.value) vl st = .ret 0 s2 := by
            have h8 : strlen (ascii "sub.conf") ≠ 0 := by decide
            simp [call_parse_func, hf, conf_do_include, haddr, hval, h8, hs2]
          obtain ⟨m, hrest⟩ := conf_parse_line_loop_values file self vl rest s2 ht2
            (fun x hx n hn hc => hk2 x hx n hn (by rw [hc, hs2k]))
          exact ⟨{ s2 with mem := m }, by simp [conf_parse_line_loop, hcmd, hkey, hcall, hrest]⟩
        · obtain ⟨m1, hcall⟩ := value_encoder_ok file self e hs hf st.value vl st
          obtain ⟨st1, hrest⟩ := ih { st with mem := m1 } ht2 hval (hinc2 m1) hk2
          exact ⟨st1, by simp [conf_parse_line_loop, hcmd, hkey, hcall, hrest]⟩
      · obtain ⟨st1, hrest⟩ := ih st ht2 hval (hinc2 st.mem) hk2
        exact ⟨st1, by simp [conf_parse_line_loop, hcmd, hkey, hrest]⟩

theorem cstr_line_key (k : List Nat) (hk : line_key k) : cstr k = k :=
  cstr_of_ne_zero k (fun x hx => (hk.2.1 x hx).1)

theorem strlen_key_line_ne_zero (k t : List Nat) (hk : line_key k) :
    strlen (k ++ 32 :: t) ≠ 0 := by
  unfold strlen
  rw [cstr_append_of_ne_zero _ _ (fun x hx => (hk.2.1 x hx).1)]
  have := List.length_pos.mpr hk.1
  simp only [List.length_append]
  omega

/-- A file made of the single line `k rest`, when the descriptors named `k` are value
encoders with supported bindings: the file resolves and leaves `k` in the key array. -/
theorem conf_parse_file_body_key_line (fs : FileSystem) (file : FileCall)
    (cmds : List parse_command_t) (sub k t : List Nat) (st : State)
    (hsub : fs (cstr sub) = some [k ++ 32 :: t]) (hk : line_key k)
    (hlen : (k ++ 32 :: t).length < CONF_MAX_LINE_LEN)
    (hterm : ∃ x ∈ cmds, x.cmd = none)
    (hkv : ∀ e ∈ entries cmds, ∀ n, e.cmd = some n → cstr n = cstr k →
      supported_binding e = true ∧ e.parse_func ≠ some .conf_do_include) :
    ∃ s2, conf_parse_file_body fs file (some cmds) (some sub) st = .ret 0 s2 ∧ s2.key = k := by
  have hline := conf_parse_line_key_rest file cmds k t (strlen (k ++ 32 :: t)) st hk hlen
    (strlen_key_line_ne_zero k t hk)
  obtain ⟨m, hloop⟩ := conf_parse_line_loop_values file cmds
    ((((cstr t).dropWhile (fun c => c = 32 ∨ c = 9 ∨ c = 13 ∨ c = 10)).takeWhile
      (fun c => c ≠ 13 ∧ c ≠ 10)).length) cmds
    { st with
      key := k,
      value := (((cstr t).dropWhile (fun c => c = 32 ∨ c = 9 ∨ c = 13 ∨ c = 10)).takeWhile
        (fun c => c ≠ 13 ∧ c ≠ 10)).rdropWhile (fun c => c = 32 ∨ c = 9) }
    hterm hkv
  rw [hloop] at hline
  have hres : ∃ s2, conf_parse_line file cmds (k ++ 32 :: t) (strlen (k ++ 32 :: t)) st
      = .ret 0 s2 ∧ s2.key = k := ⟨_, hline, rfl⟩
  obtain ⟨s2, h1, h2⟩ := hres
  exact ⟨s2, by simp [conf_parse_file_body, hsub, conf_parse_file_lines, h1], h2⟩

theorem conf_parse_file_succ (fs : FileSystem) (fuel : Nat) :
    conf_parse_file fs (fuel + 1) = conf_parse_file_body fs (conf_parse_file fs fuel) := rfl

theorem conf_parse_file_is_body (fs : FileSystem) (fuel : Nat) :
    ∃ file, conf_parse_file fs fuel = conf_parse_file_body fs file := by
  cases fuel with
  | zero => exact ⟨_, rfl⟩
  | succ n => exact ⟨_, rfl⟩

theorem line_key_include : line_key (ascii "include") := by decide

theorem trimmed_value_sub_conf : trimmed_value (ascii "sub.conf") := by decide

/-- C8: over a file system of line lists, let file `f` hold the line `include sub.conf`
and then the line `k v_outer`, and `sub.conf` the line `k v_inner`, each at most a line
buffer long and ending with nothing, LF or CRLF. For every registry with a sentinel in
which the descriptors named `include` or `k` have supported bindings and those named `k`
are value encoders, `conf_parse_file` returns 0, and the final state is the one the
encoder of `d`, the last descriptor named `k`, leaves when it encodes exactly `v_outer`:
the value of the outer file, written after the included one, is the one stored. -/
theorem conf_parse_file_include_then_key (fs : FileSystem) (fuel : Nat)
    (pre post : List parse_command_t) (d : parse_command_t)
    (name k v_outer v_inner eol f : List Nat) (st : State)
    (hF : fs (cstr f)
      = some [ascii "include sub.conf" ++ eol, k ++ 32 :: (v_outer ++ eol)])
    (hsub : fs (ascii "sub.conf") = some [k ++ 32 :: (v_inner ++ eol)])
    (heol : eol = [] ∨ eol = [10] ∨ eol = [13, 10])
    (hk : line_key k) (hv : trimmed_value v_outer)
    (hlen_outer : (k ++ 32 :: (v_outer ++ eol)).length < CONF_MAX_LINE_LEN)
    (hlen_inner : (k ++ 32 :: (v_inner ++ eol)).length < CONF_MAX_LINE_LEN)
    (hpre : ∀ e ∈ pre, e.cmd ≠ none)
    (hd : d.cmd = some name) (hname : cstr name = k)
    (hterm : ∃ x ∈ post, x.cmd = none)
    (hlast : ∀ e ∈ entries post, ∀ n, e.cmd = some n → cstr n ≠ k)
    (hinc : ∀ e ∈ entries (pre ++ d :: post), ∀ n, e.cmd = some n →
      cstr n = ascii "include" → supported_binding e = true)
    (hkv : ∀ e ∈ entries (pre ++ d :: post), ∀ n, e.cmd = some n → cstr n = k →
      supported_binding e = true ∧ e.parse_func ≠ some .conf_do_include) :
    ∃ s1 s2, conf_parse_file fs (fuel + 1) (some (pre ++ d :: post)) (some f) st = .ret 0 s2 ∧
      call_parse_func (conf_parse_file fs fuel) (pre ++ d :: post) d (some v_outer)
        v_outer.length s1 = .ret 0 s2 := by
  have hck := cstr_line_key k hk
  have hterm2 : ∃ x ∈ pre ++ d :: post, x.cmd = none := by
    obtain ⟨x, hx, hx2⟩ := hterm
    exact ⟨x, by simp [hx], hx2⟩
  have hfile : ∀ s0 : State, ∃ s2, conf_parse_file fs fuel (some (pre ++ d :: post))
      (some (ascii "sub.conf")) s0 = .ret 0 s2 ∧ s2.key = k := by
    intro s0
    obtain ⟨file, hfl⟩ := conf_parse_file_is_body fs fuel
    rw [hfl]
    exact conf_parse_file_body_key_line fs file _ (ascii "sub.conf") k (v_inner ++ eol) s0
      (by rw [show cstr (ascii "sub.conf") = ascii "sub.conf" from by decide]; exact hsub)
      hk hlen_inner hterm2 (by rw [hck]; exact hkv)
  have hl1 : ascii "include sub.conf" ++ eol = ascii "include" ++ 32 :: (ascii "sub.conf" ++ eol) := by
    simp [ascii]
  have hlen1 : (ascii "include" ++ 32 :: (ascii "sub.conf" ++ eol)).length < CONF_MAX_LINE_LEN := by
    rcases heol with rfl | rfl | rfl <;> decide
  have hline1 := conf_parse_line_key_value (conf_parse_file fs fuel) (pre ++ d :: post)
    (ascii "include") (ascii "sub.conf") eol
    (strlen (ascii "include" ++ 32 :: (ascii "sub.conf" ++ eol))) st line_key_include
    trimmed_value_sub_conf heol hlen1 (strlen_key_line_ne_zero _ _ line_key_include)
  obtain ⟨st1, hloop1⟩ := conf_parse_line_loop_include (conf_parse_file fs fuel)
    (pre ++ d :: post) k (ascii "sub.conf").length hfile (pre ++ d :: post)
    { st with key := ascii "include", value := ascii "sub.conf" } hterm2 rfl
    (fun e he n hn hc => hinc e he n hn (by
      rw [hc]; exact cstr_line_key _ line_key_include))
    (by rw [hck]; exact hkv)
  rw [hloop1] at hline1
  have hline2 := conf_parse_line_key_value (conf_parse_file fs fuel) (pre ++ d :: post)
    k v_outer eol (strlen (k ++ 32 :: (v_outer ++ eol))) st1 hk hv heol hlen_outer
    (strlen_key_line_ne_zero _ _ hk)
  rw [entries_append pre (d :: post) hpre, entries_cons_some d post name hd] at hkv
  obtain ⟨m1, m2, hloop2, hcall⟩ := conf_parse_line_loop_last (conf_parse_file fs fuel)
    (pre ++ d :: post) v_outer.length d post name hd hterm pre
    { st1 with key := k, value := v_outer } hpre (by rw [hname, hck])
    (by rw [hck]; exact hlast)
    (fun e he n hn hc => hkv e (by simp at he ⊢; tauto) n hn (by rw [hc, hck]))
  rw [hloop2] at hline2
  refine ⟨_, _, ?_, hcall⟩
  rw [conf_parse_file_succ]
  simp [conf_parse_file_body, hF, hl1, conf_parse_file_lines, hline1, hline2]

/-- Witness for C8: `CONF_CMD_BEGIN` followed by `foo_bar`; `main.conf` includes
`sub.conf` (`foo_bar 3`) and then sets `foo_bar 12`, and `foo_bar` reads back as 12. -/
theorem conf_parse_file_include_then_key_witness :
    ∃ s1 s2, conf_parse_file include_fs (0 + 1)
        (some (CONF_CMD_BEGIN ++ foo_bar_descriptor :: [CONF_CMD_END]))
        (some (ascii "main.conf")) initial_state = .ret 0 s2 ∧
      call_parse_func (conf_parse_file include_fs 0)
        (CONF_CMD_BEGIN ++ foo_bar_descriptor :: [CONF_CMD_END]) foo_bar_descriptor
        (some (ascii "12")) (ascii "12").length s1 = .ret 0 s2 ∧
      get_int_from_addr s2.mem (.data 16) 4 = some 12 := by
  obtain ⟨s1, s2, h1, h2⟩ := conf_parse_file_include_then_key include_fs 0 CONF_CMD_BEGIN
    [CONF_CMD_END] foo_bar_descriptor (ascii "foo_bar") (ascii "foo_bar") (ascii "12")
    (ascii "3") [10] (ascii "main.conf") initial_state rfl rfl (Or.inr (Or.inl rfl))
    (by decide) (by decide)
    (by decide) (by decide) (by decide) rfl (by decide) ⟨CONF_CMD_END, by simp, rfl⟩
    (by simp [entries, CONF_CMD_END])
    (by
      intro e he n hn hc
      simp only [entries, CONF_CMD_BEGIN, foo_bar_descriptor, CONF_CMD_END, List.cons_append,
        List.nil_append, List.takeWhile_cons, Option.isSome_some, Option.isSome_none, if_true,
        List.mem_cons] at he
      rcases he with rfl | rfl | rfl | he
      · rfl
      · rfl
      · rfl
      · simp at he)
    (by
      intro e he n hn hc
      simp only [entries, CONF_CMD_BEGIN, foo_bar_descriptor, CONF_CMD_END, List.cons_append,
        List.nil_append, List.takeWhile_cons, Option.isSome_some, Option.isSome_none, if_true,
        List.mem_cons] at he
      rcases he with rfl | rfl | rfl | he
      · simp only [Option.some.injEq] at hn; subst hn; revert hc; decide
      · simp only [Option.some.injEq] at hn; subst hn; revert hc; decide
      · exact ⟨rfl, by decide⟩
      · simp at he)
  have hrun : ∃ s, conf_parse_file include_fs (0 + 1)
      (some (CONF_CMD_BEGIN ++ foo_bar_descriptor :: [CONF_CMD_END]))
      (some (ascii "main.conf")) initial_state = .ret 0 s ∧
      get_int_from_addr s.mem (.data 16) 4 = some 12 := ⟨_, rfl, by decide⟩
  obtain ⟨s, hs, hg⟩ := hrun
  rw [h1] at hs
  injection hs with _ hs
  subst hs
  exact ⟨s1, s2, h1, h2, hg⟩

/-! ## C9: a file that cannot be opened -/

/-- C9: `conf_parse_file` called with a NULL registry, a NULL path, or a path the file
system cannot open returns -1 and leaves the whole program state, hence every
descriptor's storage, exactly as it was, at every inclusion depth. -/
theorem conf_parse_file_unopenable (fs : FileSystem) (fuel : Nat)
    (cmds : Option (List parse_command_t)) (confile : Option (List Nat)) (st : State)
    (h : cmds = none ∨ confile = none ∨ ∃ p, confile = some p ∧ fs (cstr p) = none) :
    conf_parse_file fs fuel cmds confile st = .ret (-1) st := by
  have body : ∀ file, conf_parse_file_body fs file cmds confile st = .ret (-1) st := by
    intro file
    rcases h with rfl | rfl | ⟨p, rfl, hp⟩
    · rfl
    · cases cmds <;> rfl
    · cases cmds with
      | none => rfl
      | some c => simp [conf_parse_file_body, hp]
  cases fuel with
  | zero => exact body _
  | succ n => exact body _

/-- Witness for C9: a path missing from an empty file system. -/
theorem conf_parse_file_unopenable_witness :
    conf_parse_file (fun _ => none) 3 (some foo_bar_registry) (some (ascii "missing.conf"))
      initial_state = .ret (-1) initial_state :=
  conf_parse_file_unopenable _ 3 _ _ _ (Or.inr (Or.inr ⟨_, rfl, rfl⟩))


/-! ## C10: comment and section lines -/

/-- C10: for every registry, state and line made of spaces and tabs followed by `#`,
`[`, carriage return or newline and then anything, `conf_parse_line` returns 0 and
leaves the whole program state, hence every descriptor's storage, unchanged. -/
theorem conf_parse_line_comment (file : FileCall) (cmds : List parse_command_t)
    (ws rest : List Nat) (c line_len : Nat) (st : State)
    (hws : ∀ x ∈ ws, x = 32 ∨ x = 9) (hc : c = 35 ∨ c = 91 ∨ c = 13 ∨ c = 10) :
    conf_parse_line file cmds (ws ++ c :: rest) line_len st = .ret 0 st := by
  unfold conf_parse_line
  split
  · rfl
  · have h1 : cstr (ws ++ c :: rest) = ws ++ c :: cstr rest := by
      rw [cstr_append_of_ne_zero _ _ (fun x hx => by rcases hws x hx with h | h <;> omega)]
      have : c ≠ 0 := by omega
      simp [cstr, this]
    have h2 : (ws ++ c :: cstr rest).dropWhile (fun c => decide (c = 32 ∨ c = 9))
        = c :: cstr rest := by
      rw [List.dropWhile_append_of_pos (by simpa using hws)]
      have : ¬ (c = 32 ∨ c = 9) := by omega
      simp [this]
    simp only [h1, h2]
    have : c = 35 ∨ c = 13 ∨ c = 10 ∨ c = 91 := by omega
    simp [this]

/-- Witness for C10: a `#` line that mentions a registered key. -/
theorem conf_parse_line_comment_witness :
    conf_parse_line (fun _ _ _ => .nofuel) foo_bar_registry
      ([32, 9] ++ 35 :: ascii " foo_bar 5\n") 13 initial_state = .ret 0 initial_state :=
  conf_parse_line_comment _ _ _ _ _ _ _ (by decide) (by decide)

/-! ## Lemmas shared by the resolver theorems -/

/-- The descriptors before the sentinel, when the registry starts with the sentinel. -/
theorem entries_cons_none (e : parse_command_t) (rest : List parse_command_t)
    (h : e.cmd = none) : entries (e :: rest) = [] := by
  simp [entries, h]

/-- An encoder lifted by `on_mem` leaves the static key and value arrays alone. -/
theorem on_mem_statics (st st1 : State) (o : Outcome Mem) (r : Int)
    (h : on_mem st o = .ret r st1) : st1.key = st.key ∧ st1.value = st.value := by
  cases o with
  | ret r0 m =>
    simp only [on_mem] at h
    injection h with _ h2
    subst h2
    exact ⟨rfl, rfl⟩
  | undefined => simp [on_mem] at h
  | nofuel => simp [on_mem] at h

/-- A value encoder leaves the static key and value arrays of `conf_parse_line` alone. -/
theorem call_parse_func_statics (file : FileCall) (self : List parse_command_t)
    (d : parse_command_t) (hd : d.parse_func ≠ some .conf_do_include)
    (value : Option (List Nat)) (vl : Nat) (st st1 : State) (r : Int)
    (h : call_parse_func file self d value vl st = .ret r st1) :
    st1.key = st.key ∧ st1.value = st.value := by
  unfold call_parse_func at h
  split at h
  · cases h
  · exact on_mem_statics _ _ _ _ h
  · exact on_mem_statics _ _ _ _ h
  · exact on_mem_statics _ _ _ _ h
  · exact on_mem_statics _ _ _ _ h
  · exact on_mem_statics _ _ _ _ h
  · rename_i hf
    exact absurd hf hd

/-- No descriptor is named `k` in a registry that starts with the sentinel. -/
theorem spec_named_cons_none (k : List Nat) (e : parse_command_t) (rest : List parse_command_t)
    (h : e.cmd = none) : spec_named k (e :: rest) = [] := by
  simp [spec_named, entries_cons_none e rest h]

/-- A first descriptor named `k` is the first of the descriptors named `k`. -/
theorem spec_named_cons_match (k : List Nat) (e : parse_command_t)
    (rest : List parse_command_t) (n : List Nat) (h : e.cmd = some n) (hk : cstr n = k) :
    spec_named k (e :: rest) = e :: spec_named k rest := by
  simp [spec_named, entries_cons_some e rest n h, h, hk]

/-- A first descriptor with another name is not among the descriptors named `k`. -/
theorem spec_named_cons_other (k : List Nat) (e : parse_command_t)
    (rest : List parse_command_t) (n : List Nat) (h : e.cmd = some n) (hk : cstr n ≠ k) :
    spec_named k (e :: rest) = spec_named k rest := by
  simp [spec_named, entries_cons_some e rest n h, h, hk]

/-- A descriptor named `k` in the tail of a registry is named `k` in the registry. -/
theorem mem_spec_named_of_tail (k : List Nat) (e x : parse_command_t)
    (rest : List parse_command_t) (n : List Nat) (h : e.cmd = some n)
    (hx : x ∈ spec_named k rest) : x ∈ spec_named k (e :: rest) := by
  by_cases hk : cstr n = k
  · rw [spec_named_cons_match k e rest n h hk]
    exact List.mem_cons_of_mem _ hx
  · rw [spec_named_cons_other k e rest n h hk]
    exact hx

/-- The dispatch loop of `conf_parse_line`, when the descriptors matching the key are
not `conf_do_include`: it invokes exactly the descriptors named by the key, in order. -/
theorem conf_parse_line_loop_eq_invoke (file : FileCall) (self : List parse_command_t)
    (vl : Nat) (k v : List Nat) (it : List parse_command_t) :
    ∀ st : State, (∃ x ∈ it, x.cmd = none) → cstr st.key = k → st.value = v →
      (∀ d ∈ spec_named k it, d.parse_func ≠ some .conf_do_include) →
      conf_parse_line_loop file self it vl st
        = spec_invoke_each file self ((spec_named k it).map (fun d => (d, v, vl))) st := by
  induction it with
  | nil => intro st ht; simp at ht
  | cons e rest ih =>
    intro st ht hkey hval hninc
    cases hcmd : e.cmd with
    | none =>
      simp [conf_parse_line_loop, hcmd, spec_named_cons_none k e rest hcmd, spec_invoke_each]
    | some n =>
      have ht2 := sentinel_in_tail e rest n hcmd ht
      have hninc2 : ∀ d ∈ spec_named k rest, d.parse_func ≠ some .conf_do_include :=
        fun d hd => hninc d (mem_spec_named_of_tail k e d rest n hcmd hd)
      by_cases hk : cstr n = k
      · have he : e.parse_func ≠ some .conf_do_include :=
          hninc e (by rw [spec_named_cons_match k e rest n hcmd hk]; exact List.mem_cons_self _ _)
        rw [spec_named_cons_match k e rest n hcmd hk]
        simp only [conf_parse_line_loop, hcmd, hk, hkey, if_true, List.map_cons,
          spec_invoke_each, hval]
        cases hcall : call_parse_func file self e (some v) vl st with
        | ret r st1 =>
          simp only
          by_cases hr : r < 0
          · simp [hr]
          · simp only [hr, if_false]
            obtain ⟨h1, h2⟩ := call_parse_func_statics file self e he _ _ _ _ _ hcall
            exact ih st1 ht2 (by rw [h1]; exact hkey) (by rw [h2]; exact hval) hninc2
        | undefined => rfl
        | nofuel => rfl
      · rw [spec_named_cons_other k e rest n hcmd hk]
        have hk2 : ¬ (cstr n = cstr st.key) := by rw [hkey]; exact hk
        simp only [conf_parse_line_loop, hcmd, hk2, if_false]
        exact ih st ht2 hkey hval hninc2

/-- Comparing a name with a key array that holds the NUL-terminated key `k`: the result
is whether the name, as a C string, is `k`. -/
theorem strcmp_buf_terminated (k : List Nat) (hk : ∀ c ∈ k, c ≠ 0) :
    ∀ (name rest : List Nat),
      strcmp_buf name (k ++ 0 :: rest) = some (decide (cstr name = k)) := by
  induction k with
  | nil =>
    intro name rest
    cases name with
    | nil => simp [strcmp_buf, cstr]
    | cons x xs =>
      by_cases hx : x = 0
      · simp [strcmp_buf, cstr, hx]
      · simp [strcmp_buf, cstr, hx]
  | cons c cs ih =>
    intro name rest
    have hc := hk c (List.mem_cons_self _ _)
    cases name with
    | nil => simp [strcmp_buf, cstr, hc]
    | cons x xs =>
      by_cases hx : x = 0
      · simp [strcmp_buf, cstr, hx, hc]
      · by_cases hxc : x = c
        · subst hxc
          have := ih (fun y hy => hk y (List.mem_cons_of_mem _ hy)) xs rest
          have hcx : cstr (x :: xs) = x :: cstr xs := by simp [cstr, hx]
          simp only [List.cons_append, strcmp_buf, hx, if_false, ne_eq, not_true_eq_false,
            hcx, List.cons.injEq, true_and]
          exact this
        · simp [strcmp_buf, cstr, hx, hxc]

/-- Copying a key shorter than the array with `strncpy` leaves it NUL-terminated: the
array is the key followed by NUL bytes. -/
theorem strncpy_short (k : List Nat) (hk : ∀ c ∈ k, c ≠ 0)
    (hlen : k.length < CONF_MAX_LINE_LEN) :
    ∃ rest, strncpy k CONF_MAX_LINE_LEN = k ++ 0 :: rest := by
  have hlen1 : k.length < 1000 := hlen
  unfold strncpy strlen
  rw [cstr_of_ne_zero k hk, List.take_of_length_le (by simp only [CONF_MAX_LINE_LEN]; omega)]
  obtain ⟨j, hj⟩ : ∃ j, CONF_MAX_LINE_LEN - k.length = j + 1 :=
    ⟨999 - k.length, by simp only [CONF_MAX_LINE_LEN]; omega⟩
  rw [hj]
  exact ⟨List.replicate j 0, by simp [List.replicate_succ]⟩

/-- When the key array decides every comparison as "the name is `k`",
`conf_parse_key_value_arg` invokes exactly the descriptors named `k`, in order, each with
the value and its length. -/
theorem conf_parse_key_value_arg_eq_invoke (file : FileCall) (self : List parse_command_t)
    (key k v : List Nat)
    (hkey : ∀ name, strcmp_buf name key = some (decide (cstr name = k)))
    (it : List parse_command_t) :
    ∀ st : State, (∃ x ∈ it, x.cmd = none) →
      conf_parse_key_value_arg file self key (some v) it st
        = spec_invoke_each file self ((spec_named k it).map (fun d => (d, v, strlen v))) st := by
  induction it with
  | nil => intro st ht; simp at ht
  | cons e rest ih =>
    intro st ht
    cases hcmd : e.cmd with
    | none =>
      simp [conf_parse_key_value_arg, hcmd, spec_named_cons_none k e rest hcmd,
        spec_invoke_each]
    | some n =>
      have ht2 := sentinel_in_tail e rest n hcmd ht
      by_cases hk : cstr n = k
      · rw [spec_named_cons_match k e rest n hcmd hk]
        simp only [conf_parse_key_value_arg, hcmd, hkey n, hk, decide_True, List.map_cons,
          spec_invoke_each]
        cases hcall : call_parse_func file self e (some v) (strlen v) st with
        | ret r st1 =>
          simp only
          by_cases hr : r < 0
          · simp [hr]
          · simp only [hr, if_false]
            exact ih st1 ht2
        | undefined => rfl
        | nofuel => rfl
      · rw [spec_named_cons_other k e rest n hcmd hk]
        simp only [conf_parse_key_value_arg, hcmd, hkey n, hk, decide_False]
        exact ih st ht2

/-- Whatever the registry and the arguments, a result of `conf_parse_args_loop` is 0:
no path of `conf_parse_args` returns anything else. -/
theorem conf_parse_args_loop_returns_zero (file : FileCall) (cmds : List parse_command_t) :
    ∀ (n : Nat) (args : List (List Nat)) (st st1 : State) (r : Int), args.length ≤ n →
      conf_parse_args_loop file cmds args st = .ret r st1 → r = 0 := by
  intro n
  induction n with
  | zero =>
    intro args st st1 r hn h
    have : args = [] := List.length_eq_zero.mp (by omega)
    subst this
    simp only [conf_parse_args_loop] at h
    injection h with h1 _
    exact h1.symm
  | succ n ih =>
    intro args st st1 r hn h
    cases args with
    | nil =>
      simp only [conf_parse_args_loop] at h
      injection h with h1 _
      exact h1.symm
    | cons arg rest =>
      simp only [List.length_cons] at hn
      rw [conf_parse_args_loop] at h
      split at h
      · simp only at h
        split at h
        · split at h
          · exact ih _ _ _ _ (by omega) h
          · cases h
          · cases h
        · split at h
          · injection h with h1 _
            exact h1.symm
          · rename_i next rest1
            simp only [List.length_cons] at hn
            split at h
            · exact ih _ _ _ _ (by omega) h
            · cases h
            · cases h
      · exact ih _ _ _ _ (by omega) h

/-- With a width outside 1, 2, 4, 8 the store fails with -1 and writes nothing. -/
theorem put_or_fail_unsupported (mem : Mem) (addr : Ptr) (w : Nat) (v : Int)
    (hw : ¬ (w = 1 ∨ w = 2 ∨ w = 4 ∨ w = 8)) :
    put_or_fail addr w v mem = .ret (-1) mem := by
  have h : put_integer2addr addr w v mem = .ret (-1) mem := by
    unfold put_integer2addr
    split <;> first | omega | rfl
  simp [put_or_fail, h]

/-- The store returns -1 or 0; -1 exactly for a width outside 1, 2, 4, 8, and then the
memory is unchanged. -/
theorem put_or_fail_width (mem : Mem) (a w : Nat) (v : Int) :
    ∃ r m, put_or_fail (.data a) w v mem = .ret r m ∧ (r = -1 ∨ r = 0) ∧
      (r = -1 ↔ ¬ (w = 1 ∨ w = 2 ∨ w = 4 ∨ w = 8)) ∧ (r = -1 → m = mem) := by
  by_cases hw : w = 1 ∨ w = 2 ∨ w = 4 ∨ w = 8
  · obtain ⟨m, h, _⟩ := put_or_fail_get mem a w v hw
    exact ⟨0, m, h, Or.inr rfl, by simp [hw], by intro h0; cases h0⟩
  · exact ⟨-1, mem, put_or_fail_unsupported mem _ w v hw, Or.inl rfl, by simp [hw],
      fun _ => rfl⟩

/-- The first character of a C string, as `char`: that of the first byte, or 0 for the
empty list. -/
theorem char_at_zero (v : List Nat) :
    char_at v 0 = match v with
      | [] => 0
      | c :: _ => c := by
  cases v with
  | nil => rfl
  | cons c cs =>
    by_cases hc : c = 0
    · subst hc; simp [char_at, cstr]
    · simp [char_at, cstr, hc]

/-- The integer encoder on a data address, as one store. -/
theorem conf_parse_integer_eq (a w vl : Nat) (s : List Nat) (mem : Mem) :
    conf_parse_integer (.data a) w (some s) vl mem
      = put_or_fail (.data a) w
          (strtoll (if 2 < vl ∧ char_at s 0 = 48 ∧ char_at s 1 = 120 then (cstr s).drop 2 else s)
            (if 2 < vl ∧ char_at s 0 = 48 ∧ char_at s 1 = 120 then 16 else 10)) mem := by
  unfold conf_parse_integer
  by_cases h : 2 < vl ∧ char_at s 0 = 48 ∧ char_at s 1 = 120 <;> simp [h]

/-- On a NUL-free text the test `value_len > 2 && value[0] == 0x30 && value[1] == 0x78` of
`conf_parse_integer`, with `value_len` the length of the text, says that the text is longer
than 2 bytes and starts with the two bytes of "0x". -/
theorem hex_mark_iff (s : List Nat) (hs : ∀ x ∈ s, x ≠ 0) :
    (2 < s.length ∧ char_at s 0 = 48 ∧ char_at s 1 = 120)
      ↔ (2 < s.length ∧ s.take 2 = [48, 120]) := by
  unfold char_at
  rw [cstr_of_ne_zero s hs]
  match s with
  | [] => simp
  | [_] => simp
  | x :: y :: rest => simp

/-! ## C11: `--key value` arguments -/

/-- C11: for every sentinel-terminated registry, every non-empty key `k` without NUL and
equals sign that fits the 1000-byte key array, every token `v` and every list `rest` of further
tokens, `conf_parse_args` on `[prog, "--k", v] ++ rest` invokes, in registry order, the
encoders of the descriptors named `k` with exactly `v` (and `strlen v`), whatever `v` starts
with, and then resumes scanning at the first token of `rest`; when `"--k"` is the last token
the call returns 0 and leaves the whole state unchanged. -/
theorem conf_parse_args_pair_consumes (file : FileCall) (cmds : List parse_command_t)
    (prog k v : List Nat) (rest : List (List Nat)) (st : State)
    (hne : k ≠ []) (hk : ∀ c ∈ k, c ≠ 0 ∧ c ≠ 61) (hlen : k.length < CONF_MAX_LINE_LEN)
    (hterm : ∃ x ∈ cmds, x.cmd = none) :
    conf_parse_args file cmds (prog :: (45 :: 45 :: k) :: v :: rest) st
        = (match spec_invoke_each file cmds
              ((spec_named k cmds).map (fun d => (d, v, strlen v)))
              { st with arg_key := strncpy k CONF_MAX_LINE_LEN } with
            | .ret _ st1 => conf_parse_args_loop file cmds rest st1
            | .undefined => .undefined
            | .nofuel => .nofuel) ∧
    conf_parse_args file cmds [prog, 45 :: 45 :: k] st = .ret 0 st := by
  have hz : ∀ c ∈ k, c ≠ 0 := fun c hc => (hk c hc).1
  have hcs : cstr (45 :: 45 :: k) = 45 :: 45 :: k :=
    cstr_of_ne_zero _ (by
      intro x hx
      simp only [List.mem_cons] at hx
      rcases hx with rfl | rfl | hx
      · omega
      · omega
      · exact hz x hx)
  have hcond : 2 < strlen (45 :: 45 :: k) ∧ char_at (45 :: 45 :: k) 0 = 45 ∧
      char_at (45 :: 45 :: k) 1 = 45 := by
    have := List.length_pos.mpr hne
    simp only [strlen, char_at, hcs]
    simp
    omega
  have hno : ¬ (61 ∈ k) := fun h => (hk 61 h).2 rfl
  obtain ⟨zeros, hcopy⟩ := strncpy_short k hz hlen
  have hkey : ∀ name, strcmp_buf name (strncpy k CONF_MAX_LINE_LEN)
      = some (decide (cstr name = k)) := by
    intro name
    rw [hcopy]
    exact strcmp_buf_terminated k hz name zeros
  constructor
  · simp only [conf_parse_args, List.drop_one, List.tail_cons, conf_parse_args_loop, hcond,
      and_self, if_true, hcs, List.drop_succ_cons, List.drop_zero, hno, if_false,
      conf_parse_args_pair]
    rw [conf_parse_key_value_arg_eq_invoke file cmds _ k v hkey cmds _ hterm]
  · simp only [conf_parse_args, List.drop_one, List.tail_cons, conf_parse_args_loop, hcond,
      and_self, if_true, hcs, List.drop_succ_cons, List.drop_zero, hno, if_false]

/-- An instance of C11 on the registry of `foo_bar`: in `--foo_bar --7 --foo_bar 9` the token
`--7` is consumed as a value and the following pair is applied, so `foo_bar` reads 9; with
`--foo_bar` as last token nothing changes. -/
theorem conf_parse_args_pair_consumes_witness :
    (∃ st1, conf_parse_args (fun _ _ _ => .nofuel) foo_bar_registry
        [ascii "prog", ascii "--foo_bar", ascii "--7", ascii "--foo_bar", ascii "9"]
        initial_state = .ret 0 st1 ∧
      get_int_from_addr st1.mem (.data 16) 4 = some 9) ∧
    conf_parse_args (fun _ _ _ => .nofuel) foo_bar_registry [ascii "prog", ascii "--foo_bar"]
      initial_state = .ret 0 initial_state := by
  have h := conf_parse_args_pair_consumes (fun _ _ _ => .nofuel) foo_bar_registry
    (ascii "prog") (ascii "foo_bar") (ascii "--7") [ascii "--foo_bar", ascii "9"]
    initial_state (by decide) (by decide) (by decide) ⟨CONF_CMD_END, by decide, rfl⟩
  exact ⟨⟨_, h.1.trans rfl, by decide⟩, h.2⟩

/-! ## C12: key normalisation in the `--key value` form -/

/-- C12 (refuted by the code): on the registry of `foo_bar`, `conf_parse_args` on
`["prog", "--foo-bar", "5"]` and on `["prog", "--foo.bar", "5"]` returns 0 and leaves the
memory unchanged for every state, so from the initial state `foo_bar` still reads 0, while
`["prog", "--foo_bar", "5"]` sets it to 5. -/
theorem conf_parse_args_pair_not_normalised (file : FileCall) :
    (∀ st : State, ∃ st1,
      conf_parse_args file foo_bar_registry [ascii "prog", ascii "--foo-bar", ascii "5"] st
        = .ret 0 st1 ∧ st1.mem = st.mem) ∧
    (∀ st : State, ∃ st1,
      conf_parse_args file foo_bar_registry [ascii "prog", ascii "--foo.bar", ascii "5"] st
        = .ret 0 st1 ∧ st1.mem = st.mem) ∧
    (∃ st1, conf_parse_args file foo_bar_registry [ascii "prog", ascii "--foo-bar", ascii "5"]
        initial_state = .ret 0 st1 ∧
      get_int_from_addr st1.mem (.data 16) 4 = some 0) ∧
    (∃ st1, conf_parse_args file foo_bar_registry [ascii "prog", ascii "--foo_bar", ascii "5"]
        initial_state = .ret 0 st1 ∧
      get_int_from_addr st1.mem (.data 16) 4 = some 5) :=
  ⟨fun _ => ⟨_, rfl, rfl⟩, fun _ => ⟨_, rfl, rfl⟩, ⟨_, rfl, by decide⟩, ⟨_, rfl, by decide⟩⟩

/-! ## C13: a failing encoder in `conf_parse_args` -/

/-- C13 (refuted by the code): on a registry whose descriptor `bad` has the unsupported
width 3, the lookup of `--bad 1` returns -1, yet `conf_parse_args` on
`["prog", "--bad", "1", "--foo_bar", "5"]` returns 0 and applies the later argument:
`foo_bar` reads 5. -/
theorem conf_parse_args_ignores_failure (file : FileCall) :
    (∃ st1, conf_parse_key_value_arg file bad_width_registry
        (strncpy (ascii "bad") CONF_MAX_LINE_LEN) (some (ascii "1")) bad_width_registry
        initial_state = .ret (-1) st1) ∧
    (∃ st1, conf_parse_args file bad_width_registry
        [ascii "prog", ascii "--bad", ascii "1", ascii "--foo_bar", ascii "5"] initial_state
          = .ret 0 st1 ∧
      get_int_from_addr st1.mem (.data 16) 4 = some 5) :=
  ⟨⟨_, rfl⟩, ⟨_, rfl, by decide⟩⟩

/-! ## C14: base selection of the integer encoder -/

/-- C14: for every NUL-free text `s` and every supported width `w`, `conf_parse_integer`
returns 0 and the slot reads back, truncated to `w` bytes, `strtoll` in base 16 of the text
after the first two bytes when `s` is longer than 2 bytes and starts with "0x", and
`strtoll` in base 10 of `s` otherwise; the texts "", "abc", "0x" and "0X1F" decode to 0 and
"0x1F" decodes to 31. -/
theorem conf_parse_integer_base (mem : Mem) (a w : Nat) (s : List Nat)
    (hw : w = 1 ∨ w = 2 ∨ w = 4 ∨ w = 8) (hs : ∀ x ∈ s, x ≠ 0) :
    (∃ m, conf_parse_integer (.data a) w (some s) s.length mem = .ret 0 m ∧
      get_int_from_addr m (.data a) w = some (to_signed (8 * w)
        (if 2 < s.length ∧ s.take 2 = [48, 120] then strtoll (s.drop 2) 16
          else strtoll s 10))) ∧
    (∀ e ∈ [ascii "", ascii "abc", ascii "0x", ascii "0X1F"],
      ∃ m, conf_parse_integer (.data a) w (some e) e.length mem = .ret 0 m ∧
        get_int_from_addr m (.data a) w = some 0) ∧
    (∃ m, conf_parse_integer (.data a) w (some (ascii "0x1F")) (ascii "0x1F").length mem
        = .ret 0 m ∧
      get_int_from_addr m (.data a) w = some 31) := by
  have zero : to_signed (8 * w) 0 = 0 := by
    rcases hw with rfl | rfl | rfl | rfl <;> decide
  have v31 : to_signed (8 * w) 31 = 31 := by
    rcases hw with rfl | rfl | rfl | rfl <;> decide
  refine ⟨?_, ?_, ?_⟩
  · rw [conf_parse_integer_eq]
    by_cases h : 2 < s.length ∧ s.take 2 = [48, 120]
    · have h1 := (hex_mark_iff s hs).mpr h
      rw [if_pos h1, if_pos h1, if_pos h, cstr_of_ne_zero s hs]
      exact put_or_fail_get mem a w _ hw
    · have h1 : ¬ (2 < s.length ∧ char_at s 0 = 48 ∧ char_at s 1 = 120) :=
        fun h2 => h ((hex_mark_iff s hs).mp h2)
      rw [if_neg h1, if_neg h1, if_neg h]
      exact put_or_fail_get mem a w _ hw
  · have f := put_or_fail_get mem a w 0 hw
    rw [zero] at f
    intro e he
    simp only [List.mem_cons, List.mem_singleton, List.not_mem_nil, or_false] at he
    rcases he with rfl | rfl | rfl | rfl <;> exact f
  · have f := put_or_fail_get mem a w 31 hw
    rw [v31] at f
    exact f

/-- An instance of C14 at width 4 on the text "0x-1f". -/
theorem conf_parse_integer_base_witness :
    (∃ m, conf_parse_integer (.data 16) 4 (some (ascii "0x-1f")) (ascii "0x-1f").length
        (fun _ => 0) = .ret 0 m ∧
      get_int_from_addr m (.data 16) 4 = some (to_signed (8 * 4)
        (if 2 < (ascii "0x-1f").length ∧ (ascii "0x-1f").take 2 = [48, 120]
          then strtoll ((ascii "0x-1f").drop 2) 16 else strtoll (ascii "0x-1f") 10))) ∧
    (∀ e ∈ [ascii "", ascii "abc", ascii "0x", ascii "0X1F"],
      ∃ m, conf_parse_integer (.data 16) 4 (some e) e.length (fun _ => 0) = .ret 0 m ∧
        get_int_from_addr m (.data 16) 4 = some 0) ∧
    (∃ m, conf_parse_integer (.data 16) 4 (some (ascii "0x1F")) (ascii "0x1F").length
        (fun _ => 0) = .ret 0 m ∧
      get_int_from_addr m (.data 16) 4 = some 31) :=
  conf_parse_integer_base (fun _ => 0) 16 4 (ascii "0x-1f") (by decide) (by decide)

/-! ## C15: unsupported widths -/

/-- C15: each of the integer, boolean, memory-size and duration encoders, on every memory,
address, raw value, value length and width `w`, returns -1 or 0; it returns -1 exactly when
`w` is not one of 1, 2, 4, 8, and then the memory is unchanged. -/
theorem numeric_encoders_fail_iff_width (mem : Mem) (a w vl : Nat) (v : List Nat) :
    (∃ r m, conf_parse_integer (.data a) w (some v) vl mem = .ret r m ∧ (r = -1 ∨ r = 0) ∧
      (r = -1 ↔ ¬ (w = 1 ∨ w = 2 ∨ w = 4 ∨ w = 8)) ∧ (r = -1 → m = mem)) ∧
    (∃ r m, conf_parse_bool (.data a) w (some v) vl mem = .ret r m ∧ (r = -1 ∨ r = 0) ∧
      (r = -1 ↔ ¬ (w = 1 ∨ w = 2 ∨ w = 4 ∨ w = 8)) ∧ (r = -1 → m = mem)) ∧
    (∃ r m, conf_parse_memspace_as_bytes (.data a) w (some v) vl mem = .ret r m ∧
      (r = -1 ∨ r = 0) ∧
      (r = -1 ↔ ¬ (w = 1 ∨ w = 2 ∨ w = 4 ∨ w = 8)) ∧ (r = -1 → m = mem)) ∧
    (∃ r m, conf_parse_time_as_second (.data a) w (some v) vl mem = .ret r m ∧
      (r = -1 ∨ r = 0) ∧
      (r = -1 ↔ ¬ (w = 1 ∨ w = 2 ∨ w = 4 ∨ w = 8)) ∧ (r = -1 → m = mem)) :=
  ⟨put_or_fail_width mem a w _, put_or_fail_width mem a w _, put_or_fail_width mem a w _,
    put_or_fail_width mem a w _⟩

/-! ## C16: the environment resolver -/

theorem conf_parse_env_eq_invoke (file : FileCall) (env : Environ)
    (self : List parse_command_t) (it : List parse_command_t) :
    ∀ st : State, (∃ x ∈ it, x.cmd = none) →
      conf_parse_env file env self it st
        = spec_invoke_each file self (spec_env_calls env it) st := by
  induction it with
  | nil => intro st ht; simp at ht
  | cons e rest ih =>
    intro st ht
    cases hcmd : e.cmd with
    | none =>
      simp [conf_parse_env, hcmd, spec_env_calls, entries_cons_none e rest hcmd,
        spec_invoke_each]
    | some n =>
      have ht2 := sentinel_in_tail e rest n hcmd ht
      cases henv : env (cstr n) with
      | none =>
        have hcalls : spec_env_calls env (e :: rest) = spec_env_calls env rest := by
          simp [spec_env_calls, entries_cons_some e rest n hcmd, hcmd, henv]
        rw [hcalls, ← ih st ht2]
        simp [conf_parse_env, hcmd, henv]
      | some v =>
        have hcalls : spec_env_calls env (e :: rest)
            = (e, v, strlen v) :: spec_env_calls env rest := by
          simp [spec_env_calls, entries_cons_some e rest n hcmd, hcmd, henv]
        rw [hcalls]
        simp only [conf_parse_env, hcmd, henv, spec_invoke_each]
        cases hcall : call_parse_func file self e (some v) (strlen v) st with
        | ret r st1 =>
          simp only
          by_cases hr : r < 0
          · simp [hr]
          · simp only [hr, if_false]
            exact ih st1 ht2
        | undefined => rfl
        | nofuel => rfl

/-- C16: on every sentinel-terminated registry and every environment (a partial map from
names to strings), `conf_parse_env` is the in-order invocation, stopping with -1 at the
first failing encoder, of the encoders of exactly those descriptors whose name is defined in
the environment, each with the value of the variable of exactly that name; when no
descriptor name is defined it returns 0 and leaves the state unchanged. -/
theorem conf_parse_env_walk (file : FileCall) (env : Environ) (cmds : List parse_command_t)
    (st : State) (hterm : ∃ x ∈ cmds, x.cmd = none) :
    conf_parse_env file env cmds cmds st
        = spec_invoke_each file cmds (spec_env_calls env cmds) st ∧
    ((∀ d ∈ entries cmds, ∀ n, d.cmd = some n → env (cstr n) = none) →
      conf_parse_env file env cmds cmds st = .ret 0 st) := by
  have h := conf_parse_env_eq_invoke file env cmds cmds st hterm
  refine ⟨h, ?_⟩
  intro hnone
  have hcalls : spec_env_calls env cmds = [] := by
    unfold spec_env_calls
    rw [List.filterMap_eq_nil_iff]
    intro d hd
    cases hcmd : d.cmd with
    | none => rfl
    | some n => simp [hnone d hd n hcmd]
  rw [h, hcalls]
  rfl

/-- An instance of C16 on the registry of `foo_bar`: with only `FOO_BAR` defined the state
is unchanged, with `foo_bar=5` defined the slot reads 5. -/
theorem conf_parse_env_walk_witness :
    conf_parse_env (fun _ _ _ => .nofuel) upper_case_env foo_bar_registry foo_bar_registry
        initial_state = .ret 0 initial_state ∧
    (∃ st1, conf_parse_env (fun _ _ _ => .nofuel) lower_case_env foo_bar_registry
        foo_bar_registry initial_state = .ret 0 st1 ∧
      st1 = { initial_state with mem := st1.mem } ∧
      get_int_from_addr st1.mem (.data 16) 4 = some 5) := by
  refine ⟨(conf_parse_env_walk (fun _ _ _ => .nofuel) upper_case_env foo_bar_registry
    initial_state ⟨CONF_CMD_END, by decide, rfl⟩).2 ?_, ?_⟩
  · intro d hd n hn
    have hd2 : d = foo_bar_descriptor := by
      simpa [entries, foo_bar_registry, foo_bar_descriptor, CONF_CMD_END] using hd
    subst hd2
    simp only [foo_bar_descriptor, Option.some.injEq] at hn
    subst hn
    decide
  · have h := (conf_parse_env_walk (fun _ _ _ => .nofuel) lower_case_env foo_bar_registry
      initial_state ⟨CONF_CMD_END, by decide, rfl⟩).1
    exact ⟨_, h.trans rfl, rfl, by decide⟩

/-! ## C17: the tokeniser of `conf_parse_line` -/

/-- The tokeniser of `conf_parse_line`: leading blanks `ws`, the key, and a rest `t` that
is empty or starts with a blank or a line end. The key array receives the key, and the
value array what is left of `t` after the separating blanks and line ends, up to the next
line end, with trailing blanks removed; `valuelen` counts the trailing blanks too. -/
theorem conf_parse_line_tokens (file : FileCall) (cmds : List parse_command_t)
    (ws k t : List Nat) (line_len : Nat) (st : State)
    (hws : ∀ x ∈ ws, x = 32 ∨ x = 9) (hk : line_key k)
    (ht : ∀ c, t.head? = some c → c = 32 ∨ c = 9 ∨ c = 13 ∨ c = 10 ∨ c = 0)
    (hlen : (ws ++ (k ++ t)).length < CONF_MAX_LINE_LEN) (hl : line_len ≠ 0) :
    conf_parse_line file cmds (ws ++ (k ++ t)) line_len st
      = conf_parse_line_loop file cmds cmds
          ((((cstr t).dropWhile (fun c => c = 32 ∨ c = 9 ∨ c = 13 ∨ c = 10)).takeWhile
            (fun c => c ≠ 13 ∧ c ≠ 10)).length)
          { st with
            key := k,
            value := (((cstr t).dropWhile (fun c => c = 32 ∨ c = 9 ∨ c = 13 ∨ c = 10)).takeWhile
              (fun c => c ≠ 13 ∧ c ≠ 10)).rdropWhile (fun c => c = 32 ∨ c = 9) } := by
  obtain ⟨hne, hchars, hhead⟩ := hk
  obtain ⟨c, k1, rfl⟩ : ∃ c k1, k = c :: k1 := by
    cases k with
    | nil => exact absurd rfl hne
    | cons c k1 => exact ⟨c, k1, rfl⟩
  have hc := hchars c (List.mem_cons_self _ _)
  have hc2 : c ≠ 35 ∧ c ≠ 91 := by
    simpa using hhead
  have hthead : ∀ x, (cstr t).head? = some x → x = 32 ∨ x = 9 ∨ x = 13 ∨ x = 10 := by
    intro x hx
    cases t with
    | nil => simp [cstr] at hx
    | cons y ys =>
      have hy := ht y rfl
      by_cases hy0 : y = 0
      · subst hy0; simp [cstr] at hx
      · simp [cstr, hy0] at hx
        subst hx
        omega
  have h1 : cstr (ws ++ (c :: k1 ++ t)) = ws ++ (c :: (k1 ++ cstr t)) := by
    rw [cstr_append_of_ne_zero _ _ (fun x hx => by rcases hws x hx with h | h <;> omega),
      cstr_append_of_ne_zero _ _ (fun x hx => (hchars x hx).1)]
    rfl
  have h2 : (ws ++ (c :: (k1 ++ cstr t))).dropWhile (fun c => decide (c = 32 ∨ c = 9))
      = c :: (k1 ++ cstr t) := by
    rw [List.dropWhile_append_of_pos (by simpa using hws)]
    have : ¬ (c = 32 ∨ c = 9) := by omega
    simp [this]
  have htk : (cstr t).takeWhile (fun c => decide (c ≠ 32 ∧ c ≠ 9 ∧ c ≠ 13 ∧ c ≠ 10)) = [] := by
    cases hct : cstr t with
    | nil => rfl
    | cons y ys =>
      have := hthead y (by rw [hct]; rfl)
      have hy : ¬ (y ≠ 32 ∧ y ≠ 9 ∧ y ≠ 13 ∧ y ≠ 10) := by omega
      simp [hy]
  have htd : (cstr t).dropWhile (fun c => decide (c ≠ 32 ∧ c ≠ 9 ∧ c ≠ 13 ∧ c ≠ 10)) = cstr t := by
    cases hct : cstr t with
    | nil => rfl
    | cons y ys =>
      have := hthead y (by rw [hct]; rfl)
      have hy : ¬ (y ≠ 32 ∧ y ≠ 9 ∧ y ≠ 13 ∧ y ≠ 10) := by omega
      simp [hy]
  have h3 : (c :: (k1 ++ cstr t)).takeWhile
      (fun c => decide (c ≠ 32 ∧ c ≠ 9 ∧ c ≠ 13 ∧ c ≠ 10)) = c :: k1 := by
    rw [← List.cons_append, List.takeWhile_append_of_pos, htk]
    · simp
    · intro x hx
      have := hchars x hx
      simp only [decide_eq_true_eq]
      omega
  have h4 : (c :: (k1 ++ cstr t)).dropWhile
      (fun c => decide (c ≠ 32 ∧ c ≠ 9 ∧ c ≠ 13 ∧ c ≠ 10)) = cstr t := by
    rw [← List.cons_append, List.dropWhile_append_of_pos, htd]
    intro x hx
    have := hchars x hx
    simp only [decide_eq_true_eq]
    omega
  have h6 : (((cstr t).dropWhile (fun c => decide (c = 32 ∨ c = 9 ∨ c = 13 ∨ c = 10))).takeWhile
      (fun c => decide (c ≠ 13 ∧ c ≠ 10))).length < CONF_MAX_LINE_LEN := by
    have a1 := (List.takeWhile_sublist (fun c => decide (c ≠ 13 ∧ c ≠ 10))
      (l := (cstr t).dropWhile (fun c => decide (c = 32 ∨ c = 9 ∨ c = 13 ∨ c = 10)))).length_le
    have a2 := (List.dropWhile_sublist (fun c => decide (c = 32 ∨ c = 9 ∨ c = 13 ∨ c = 10))
      (l := cstr t)).length_le
    have a3 : (cstr t).length ≤ t.length :=
      (List.takeWhile_sublist (fun c => decide (c ≠ 0)) (l := t)).length_le
    simp only [List.length_append, List.length_cons] at hlen
    omega
  have h7 : (c :: k1).length < CONF_MAX_LINE_LEN := by
    simp only [List.length_append, List.length_cons] at hlen ⊢
    omega
  unfold conf_parse_line
  rw [if_neg hl]
  simp only [h1, h2]
  have hc3 : ¬ (c = 35 ∨ c = 13 ∨ c = 10 ∨ c = 91) := by omega
  rw [if_neg hc3]
  simp only [h3, h4]
  rw [if_neg (by omega)]

/-- Trimming at the end removes a run of trimmed characters that follows a text ending in
an untrimmed one. -/
theorem rdropWhile_append_of_pos {α : Type} (p : α → Bool) (l tr : List α)
    (h : ∀ x ∈ tr, p x = true) : (l ++ tr).rdropWhile p = l.rdropWhile p := by
  induction tr using List.reverseRecOn with
  | nil => simp
  | append_singleton tr x ih =>
    rw [← List.append_assoc, List.rdropWhile_concat_pos _ _ _ (h x (by simp))]
    exact ih (fun y hy => h y (by simp [hy]))

/-- The tokens of the rest `sep value trail eol` of a line. -/
theorem line_rest_tokens (sep value trail eol : List Nat)
    (hsep : ∀ x ∈ sep, x = 32 ∨ x = 9) (hv : trimmed_value value)
    (htrail : ∀ x ∈ trail, x = 32 ∨ x = 9)
    (heol : eol = [] ∨ eol = [13] ∨ eol = [10] ∨ eol = [13, 10]) :
    ((cstr (sep ++ (value ++ (trail ++ eol)))).dropWhile
        (fun c => c = 32 ∨ c = 9 ∨ c = 13 ∨ c = 10)).takeWhile (fun c => c ≠ 13 ∧ c ≠ 10)
      = (if value = [] then [] else value ++ trail) ∧
    (if value = [] then ([] : List Nat) else value ++ trail).rdropWhile
        (fun c => c = 32 ∨ c = 9) = value := by
  obtain ⟨hchars, hhead, hlast⟩ := hv
  have heolz : ∀ x ∈ eol, x = 13 ∨ x = 10 := by
    intro x hx
    rcases heol with rfl | rfl | rfl | rfl <;> simp at hx <;> omega
  have hz : cstr (sep ++ (value ++ (trail ++ eol))) = sep ++ (value ++ (trail ++ eol)) := by
    apply cstr_of_ne_zero
    intro x hx
    simp only [List.mem_append] at hx
    rcases hx with hx | hx | hx | hx
    · rcases hsep x hx with h | h <;> omega
    · exact (hchars x hx).1
    · rcases htrail x hx with h | h <;> omega
    · rcases heolz x hx with h | h <;> omega
  have hdsep : (sep ++ (value ++ (trail ++ eol))).dropWhile
      (fun c => decide (c = 32 ∨ c = 9 ∨ c = 13 ∨ c = 10))
      = (value ++ (trail ++ eol)).dropWhile
          (fun c => decide (c = 32 ∨ c = 9 ∨ c = 13 ∨ c = 10)) := by
    rw [List.dropWhile_append_of_pos]
    intro x hx
    have := hsep x hx
    simp only [decide_eq_true_eq]
    omega
  rw [hz, hdsep]
  cases value with
  | nil =>
    simp only [List.nil_append, if_true, List.rdropWhile_nil, and_true]
    have hall : (trail ++ eol).dropWhile (fun c => decide (c = 32 ∨ c = 9 ∨ c = 13 ∨ c = 10))
        = [] := by
      rw [List.dropWhile_eq_nil_iff]
      intro x hx
      simp only [List.mem_append] at hx
      simp only [decide_eq_true_eq]
      rcases hx with hx | hx
      · have := htrail x hx; omega
      · have := heolz x hx; omega
    rw [hall]
    rfl
  | cons x v1 =>
    have h1 := hchars x (List.mem_cons_self _ _)
    have h2 : x ≠ 32 ∧ x ≠ 9 := by
      simpa using hhead
    have h3 : ¬ (x = 32 ∨ x = 9 ∨ x = 13 ∨ x = 10) := by omega
    have h4 : (x :: v1 ++ (trail ++ eol)).dropWhile
        (fun c => decide (c = 32 ∨ c = 9 ∨ c = 13 ∨ c = 10)) = x :: v1 ++ (trail ++ eol) := by
      simp [h3]
    have h5 : (x :: v1 ++ (trail ++ eol)).takeWhile (fun c => decide (c ≠ 13 ∧ c ≠ 10))
        = x :: v1 ++ trail := by
      rw [← List.append_assoc, List.takeWhile_append_of_pos]
      · rcases heol with rfl | rfl | rfl | rfl <;> simp
      · intro y hy
        simp only [List.mem_append] at hy
        simp only [decide_eq_true_eq]
        rcases hy with hy | hy
        · have := hchars y hy; omega
        · have := htrail y hy; omega
    have hne : ¬ (x :: v1 = []) := by simp
    rw [h4, h5, if_neg hne]
    refine ⟨rfl, ?_⟩
    rw [rdropWhile_append_of_pos _ _ _ (by
      intro y hy
      have := htrail y hy
      simp only [decide_eq_true_eq]
      omega)]
    rw [List.rdropWhile_eq_self_iff]
    intro hl
    have h6 : (x :: v1).getLast hl ≠ 32 ∧ (x :: v1).getLast hl ≠ 9 := by
      rw [List.getLast?_eq_getLast _ hl] at hlast
      simpa using hlast
    simp only [decide_eq_true_eq]
    omega

/-- C17: for every line `ws key sep value trail eol` within the line buffer, with `ws`,
`sep`, `trail` runs of spaces and tabs (`sep` non-empty when `value` is), `key` a key token,
`value` without CR and LF and neither starting nor ending with a space or tab, and `eol`
empty, CR, LF or CR LF, `conf_parse_line` invokes the encoder of the first descriptor named
`key` with exactly the string `value` (the empty string when nothing follows the key), then
continues with the descriptors after it; the length passed with a non-empty value also
counts the trailing blanks. -/
theorem conf_parse_line_tokenises (file : FileCall) (pre post : List parse_command_t)
    (d : parse_command_t) (name ws key sep value trail eol : List Nat) (line_len : Nat)
    (st : State)
    (hws : ∀ x ∈ ws, x = 32 ∨ x = 9) (hk : line_key key)
    (hsep : ∀ x ∈ sep, x = 32 ∨ x = 9) (hsep1 : value ≠ [] → sep ≠ [])
    (hv : trimmed_value value) (htrail : ∀ x ∈ trail, x = 32 ∨ x = 9)
    (heol : eol = [] ∨ eol = [13] ∨ eol = [10] ∨ eol = [13, 10])
    (hlen : (ws ++ (key ++ (sep ++ (value ++ (trail ++ eol))))).length < CONF_MAX_LINE_LEN)
    (hl : line_len ≠ 0)
    (hpre : ∀ e ∈ pre, ∃ n, e.cmd = some n ∧ cstr n ≠ key)
    (hd : d.cmd = some name) (hname : cstr name = key) :
    conf_parse_line file (pre ++ d :: post) (ws ++ (key ++ (sep ++ (value ++ (trail ++ eol)))))
        line_len st
      = (match call_parse_func file (pre ++ d :: post) d (some value)
            (if value = [] then 0 else value.length + trail.length)
            { st with key := key, value := value } with
          | .ret r st1 =>
            if r < 0 then .ret (-1) st1
            else conf_parse_line_loop file (pre ++ d :: post) post
              (if value = [] then 0 else value.length + trail.length) st1
          | .undefined => .undefined
          | .nofuel => .nofuel) := by
  have ht : ∀ c, (sep ++ (value ++ (trail ++ eol))).head? = some c →
      c = 32 ∨ c = 9 ∨ c = 13 ∨ c = 10 ∨ c = 0 := by
    intro c hc
    cases sep with
    | cons x xs =>
      simp only [List.cons_append, List.head?_cons, Option.some.injEq] at hc
      subst hc
      have := hsep x (List.mem_cons_self _ _)
      omega
    | nil =>
      have hvn : value = [] := by
        by_contra h
        exact hsep1 h rfl
      subst hvn
      simp only [List.nil_append] at hc
      cases trail with
      | cons x xs =>
        simp only [List.cons_append, List.head?_cons, Option.some.injEq] at hc
        subst hc
        have := htrail x (List.mem_cons_self _ _)
        omega
      | nil =>
        simp only [List.nil_append] at hc
        rcases heol with rfl | rfl | rfl | rfl <;> simp at hc <;> omega
  obtain ⟨h1, h2⟩ := line_rest_tokens sep value trail eol hsep hv htrail heol
  have hvl : (if value = [] then ([] : List Nat) else value ++ trail).length
      = (if value = [] then 0 else value.length + trail.length) := by
    split <;> simp
  rw [conf_parse_line_tokens file (pre ++ d :: post) ws key _ line_len st hws hk ht hlen hl]
  simp only [h1, h2, hvl]
  have hck := cstr_line_key key hk
  generalize (if value = [] then 0 else value.length + trail.length) = vl
  have hskip : ∀ (l : List parse_command_t) (s : State), (∀ e ∈ l, ∃ n, e.cmd = some n ∧
      cstr n ≠ cstr s.key) → ∀ tl, conf_parse_line_loop file (pre ++ d :: post) (l ++ tl) vl s
        = conf_parse_line_loop file (pre ++ d :: post) tl vl s := by
    intro l s hls tl
    induction l with
    | nil => rfl
    | cons e l ih =>
      obtain ⟨n, hn1, hn2⟩ := hls e (List.mem_cons_self _ _)
      simp only [List.cons_append, conf_parse_line_loop, hn1, hn2, if_false]
      exact ih (fun x hx => hls x (List.mem_cons_of_mem _ hx))
  rw [hskip pre _ (by
    intro e he
    obtain ⟨n, hn1, hn2⟩ := hpre e he
    exact ⟨n, hn1, by simpa [hck] using hn2⟩)]
  simp only [conf_parse_line_loop, hd, hname, hck, if_true]

/-- An instance of C17 on a registry with the string descriptor `title`: the line
`" \t title \t hello  world\t \r\n"` stores "hello  world" and the line `"title"` stores
the empty string. -/
theorem conf_parse_line_tokenises_witness :
    (∃ st1, conf_parse_line (fun _ _ _ => .nofuel) title_registry
        (ascii " \t title \t hello  world\t \r\n") 28 initial_state = .ret 0 st1 ∧
      st1.value = ascii "hello  world" ∧
      read_cstr st1.mem 40 17 = ascii "hello  world") ∧
    (∃ st1, conf_parse_line (fun _ _ _ => .nofuel) title_registry (ascii "title") 5
        { initial_state with mem := fun _ => 7 } = .ret 0 st1 ∧
      st1.value = [] ∧ read_cstr st1.mem 40 17 = []) := by
  have h1 := conf_parse_line_tokenises (fun _ _ _ => .nofuel) [foo_bar_descriptor]
    [CONF_CMD_END] title_descriptor (ascii "title") (ascii " \t ") (ascii "title")
    (ascii " \t ") (ascii "hello  world") (ascii "\t ") (ascii "\r\n") 28 initial_state
    (by decide) (by decide) (by decide) (by decide) (by decide) (by decide) (by decide)
    (by decide) (by decide) (by decide) rfl (by decide)
  have h2 := conf_parse_line_tokenises (fun _ _ _ => .nofuel) [foo_bar_descriptor]
    [CONF_CMD_END] title_descriptor (ascii "title") [] (ascii "title")
    [] [] [] [] 5 { initial_state with mem := fun _ => 7 }
    (by decide) (by decide) (by decide) (by decide) (by decide) (by decide) (by decide)
    (by decide) (by decide) (by decide) rfl (by decide)
  exact ⟨⟨_, h1.trans rfl, rfl, by decide⟩, ⟨_, h2.trans rfl, rfl, by decide⟩⟩

/-! ## C18: every descriptor named by the key -/

/-- C18: for every sentinel-terminated registry (duplicate names allowed) whose
descriptors named `key` have no include encoder, and every line `key value` within the line
buffer, `conf_parse_line` is the in-order invocation with `value`, stopping with -1 at the
first failing encoder, of the encoders of exactly the descriptors before the sentinel whose
name is `key`; when there is none it returns 0 and leaves the memory unchanged. -/
theorem conf_parse_line_invokes_all (file : FileCall) (cmds : List parse_command_t)
    (key value eol : List Nat) (line_len : Nat) (st : State)
    (hk : line_key key) (hv : trimmed_value value)
    (heol : eol = [] ∨ eol = [10] ∨ eol = [13, 10])
    (hlen : (key ++ 32 :: (value ++ eol)).length < CONF_MAX_LINE_LEN) (hl : line_len ≠ 0)
    (hterm : ∃ x ∈ cmds, x.cmd = none)
    (hninc : ∀ d ∈ spec_named key cmds, d.parse_func ≠ some .conf_do_include) :
    conf_parse_line file cmds (key ++ 32 :: (value ++ eol)) line_len st
        = spec_invoke_each file cmds
            ((spec_named key cmds).map (fun d => (d, value, value.length)))
            { st with key := key, value := value } ∧
    (spec_named key cmds = [] →
      ∃ st1, conf_parse_line file cmds (key ++ 32 :: (value ++ eol)) line_len st = .ret 0 st1 ∧
        st1.mem = st.mem) := by
  have h : conf_parse_line file cmds (key ++ 32 :: (value ++ eol)) line_len st
      = spec_invoke_each file cmds
          ((spec_named key cmds).map (fun d => (d, value, value.length)))
          { st with key := key, value := value } := by
    rw [conf_parse_line_key_value file cmds key value eol line_len st hk hv heol hlen hl]
    exact conf_parse_line_loop_eq_invoke file cmds value.length key value cmds
      { st with key := key, value := value } hterm (cstr_line_key key hk) rfl hninc
  refine ⟨h, ?_⟩
  intro hnone
  rw [h, hnone]
  exact ⟨_, rfl, rfl⟩

/-- An instance of C18 on a registry with two descriptors named `foo_bar`: the line
`foo_bar 1` sets both slots to 1 and leaves the slot of `other` at 0. -/
theorem conf_parse_line_invokes_all_witness :
    ∃ st1, conf_parse_line (fun _ _ _ => .nofuel) duplicate_registry (ascii "foo_bar 1\n")
        10 initial_state = .ret 0 st1 ∧
      spec_invoke_each (fun _ _ _ => .nofuel) duplicate_registry
        ((spec_named (ascii "foo_bar") duplicate_registry).map
          (fun d => (d, ascii "1", (ascii "1").length)))
        { initial_state with key := ascii "foo_bar", value := ascii "1" } = .ret 0 st1 ∧
      get_int_from_addr st1.mem (.data 16) 4 = some 1 ∧
      get_int_from_addr st1.mem (.data 32) 1 = some 1 ∧
      get_int_from_addr st1.mem (.data 24) 4 = some 0 := by
  have h := (conf_parse_line_invokes_all (fun _ _ _ => .nofuel) duplicate_registry
    (ascii "foo_bar") (ascii "1") [10] 10 initial_state (by decide) (by decide)
    (Or.inr (Or.inl rfl)) (by decide) (by decide) ⟨CONF_CMD_END, by decide, rfl⟩
    (by decide)).1
  exact ⟨_, h.trans rfl, rfl, by decide, by decide, by decide⟩

/-! ## C19: an encode overwrites the slot -/

/-- The copy loop of `conf_parse_string` run on two memories: it stops at the same
address, leaves everything outside the copied range as it was, and leaves the same bytes
inside it. -/
theorem conf_parse_string_loop_indep (src : List Nat) :
    ∀ (len : Int) (dest : Nat) (m1 m2 : Mem),
      (conf_parse_string_loop len src dest m1).1 = (conf_parse_string_loop len src dest m2).1 ∧
      dest ≤ (conf_parse_string_loop len src dest m1).1 ∧
      (∀ x, x < dest ∨ (conf_parse_string_loop len src dest m1).1 ≤ x →
        (conf_parse_string_loop len src dest m1).2 x = m1 x ∧
        (conf_parse_string_loop len src dest m2).2 x = m2 x) ∧
      (∀ x, dest ≤ x → x < (conf_parse_string_loop len src dest m1).1 →
        (conf_parse_string_loop len src dest m1).2 x
          = (conf_parse_string_loop len src dest m2).2 x) := by
  induction src with
  | nil =>
    intro len dest m1 m2
    have e : ∀ m, conf_parse_string_loop len [] dest m = (dest, m) := fun m => rfl
    rw [e, e]
    exact ⟨rfl, Nat.le_refl _, fun _ _ => ⟨rfl, rfl⟩, fun x h1 h2 => by omega⟩
  | cons c cs ih =>
    intro len dest m1 m2
    by_cases hstop : len = 0 ∨ c = 0
    · have e : ∀ m, conf_parse_string_loop len (c :: cs) dest m = (dest, m) :=
        fun m => by simp only [conf_parse_string_loop, hstop, if_true]
      rw [e, e]
      exact ⟨rfl, Nat.le_refl _, fun _ _ => ⟨rfl, rfl⟩, fun x h1 h2 => by omega⟩
    · have e : ∀ m, conf_parse_string_loop len (c :: cs) dest m
          = conf_parse_string_loop (to_signed 32 (len - 1)) cs (dest + 1) (m.write dest c) :=
        fun m => by simp only [conf_parse_string_loop, hstop, if_false]
      rw [e, e]
      obtain ⟨h1, h2, h3, h4⟩ := ih (to_signed 32 (len - 1)) (dest + 1) (m1.write dest c)
        (m2.write dest c)
      refine ⟨h1, by omega, ?_, ?_⟩
      · intro x hx
        obtain ⟨a1, a2⟩ := h3 x (by omega)
        have hne : x ≠ dest := by omega
        rw [a1, a2]
        simp [Mem.write, hne]
      · intro x hx1 hx2
        by_cases hx : x = dest
        · obtain ⟨a1, a2⟩ := h3 x (by omega)
          rw [a1, a2]
          simp [Mem.write, hx]
        · exact h4 x (by omega) hx2

/-- Two memories that agree from `a` up to a NUL byte hold the same C string at `a`. -/
theorem read_cstr_congr (m1 m2 : Mem) (k : Nat) (hk : m1 k % 256 = 0) (n : Nat) :
    ∀ a, a ≤ k → (∀ x, a ≤ x → x ≤ k → m1 x = m2 x) → read_cstr m1 a n = read_cstr m2 a n := by
  induction n with
  | zero => intro a _ _; rfl
  | succ n ih =>
    intro a hak hag
    have ha := hag a (Nat.le_refl _) hak
    simp only [read_cstr, ← ha]
    by_cases h0 : m1 a % 256 = 0
    · simp [h0]
    · have hlt : a ≠ k := by
        intro h
        subst h
        exact h0 hk
      simp only [h0, if_false]
      rw [ih (a + 1) (by omega) (fun x h1 h2 => hag x (by omega) h2)]

/-- The string encoder on two memories: both calls succeed and the slot holds the same
C string afterwards. -/
theorem conf_parse_string_indep (a cap vl : Nat) (v : List Nat) (m1 m2 : Mem) (n : Nat) :
    ∃ r1 r2, conf_parse_string (.data a) cap (some v) vl m1 = .ret 0 r1 ∧
      conf_parse_string (.data a) cap (some v) vl m2 = .ret 0 r2 ∧
      read_cstr r1 a n = read_cstr r2 a n := by
  by_cases h : to_signed 32 (if cap < vl then (cap : Int) else vl) = 0
  · refine ⟨m1.write a 0, m2.write a 0, by simp only [conf_parse_string, h, if_true],
      by simp only [conf_parse_string, h, if_true], ?_⟩
    refine read_cstr_congr _ _ a (by simp [Mem.write]) n a (Nat.le_refl _) ?_
    intro x h1 h2
    have : x = a := by omega
    simp [Mem.write, this]
  · obtain ⟨h1, h2, h3, h4⟩ := conf_parse_string_loop_indep v
      (to_signed 32 (if cap < vl then (cap : Int) else vl)) a m1 m2
    have e : ∀ m, conf_parse_string (.data a) cap (some v) vl m = .ret 0
        ((conf_parse_string_loop (to_signed 32 (if cap < vl then (cap : Int) else vl)) v a
          m).2.write (conf_parse_string_loop
            (to_signed 32 (if cap < vl then (cap : Int) else vl)) v a m).1 0) :=
      fun m => by simp only [conf_parse_string, h, if_false]
    refine ⟨_, _, e m1, e m2, ?_⟩
    refine read_cstr_congr _ _
      (conf_parse_string_loop (to_signed 32 (if cap < vl then (cap : Int) else vl)) v a m1).1
      (by simp [Mem.write]) n a h2 ?_
    intro x hx1 hx2
    rw [← h1]
    by_cases hx : x = (conf_parse_string_loop
        (to_signed 32 (if cap < vl then (cap : Int) else vl)) v a m1).1
    · simp [Mem.write, hx]
    · have := h4 x hx1 (by omega)
      simp [Mem.write, hx, this]

/-- A value encoder with a supported binding, run on two states: both calls succeed and
the slot holds the same value afterwards. -/
theorem value_encoder_indep (file : FileCall) (self : List parse_command_t)
    (d : parse_command_t) (hs : supported_binding d = true)
    (hd : d.parse_func ≠ some .conf_do_include) (v : List Nat) (vl n : Nat) (st1 st2 : State) :
    ∃ s1 s2, call_parse_func file self d (some v) vl st1 = .ret 0 s1 ∧
      call_parse_func file self d (some v) vl st2 = .ret 0 s2 ∧
      slot_value d s1.mem n = slot_value d s2.mem n := by
  obtain ⟨cmd, pf, addr, cap, dv, vt, desc⟩ := d
  simp only at hd
  cases pf with
  | none => simp [supported_binding] at hs
  | some f =>
    cases addr with
    | null => cases f <;> simp [supported_binding] at hs
    | cmds => cases f <;> simp [supported_binding] at hs; exact absurd rfl hd
    | data a =>
      have numeric : ∀ val : Int, (cap = 1 ∨ cap = 2 ∨ cap = 4 ∨ cap = 8) →
          ∃ s1 s2, on_mem st1 (put_or_fail (.data a) cap val st1.mem) = .ret 0 s1 ∧
            on_mem st2 (put_or_fail (.data a) cap val st2.mem) = .ret 0 s2 ∧
            get_int_from_addr s1.mem (.data a) cap = get_int_from_addr s2.mem (.data a) cap := by
        intro val hw
        obtain ⟨r1, a1, b1⟩ := put_or_fail_get st1.mem a cap val hw
        obtain ⟨r2, a2, b2⟩ := put_or_fail_get st2.mem a cap val hw
        exact ⟨{ st1 with mem := r1 }, { st2 with mem := r2 }, by rw [a1]; rfl, by rw [a2]; rfl,
          b1.trans b2.symm⟩
      cases f with
      | conf_do_include => exact absurd rfl hd
      | conf_parse_string =>
        obtain ⟨r1, r2, a1, a2, b⟩ := conf_parse_string_indep a cap vl v st1.mem st2.mem n
        exact ⟨{ st1 with mem := r1 }, { st2 with mem := r2 },
          by simp only [call_parse_func, a1]; rfl, by simp only [call_parse_func, a2]; rfl,
          by simp only [slot_value, b]⟩
      | conf_parse_integer =>
        have hw : cap = 1 ∨ cap = 2 ∨ cap = 4 ∨ cap = 8 := by simpa [supported_binding] using hs
        simp only [call_parse_func, conf_parse_integer, slot_value, SlotValue.number.injEq]
        exact numeric _ hw
      | conf_parse_memspace_as_bytes =>
        have hw : cap = 1 ∨ cap = 2 ∨ cap = 4 ∨ cap = 8 := by simpa [supported_binding] using hs
        simp only [call_parse_func, conf_parse_memspace_as_bytes, slot_value,
          SlotValue.number.injEq]
        exact numeric _ hw
      | conf_parse_time_as_second =>
        have hw : cap = 1 ∨ cap = 2 ∨ cap = 4 ∨ cap = 8 := by simpa [supported_binding] using hs
        simp only [call_parse_func, conf_parse_time_as_second, slot_value,
          SlotValue.number.injEq]
        exact numeric _ hw
      | conf_parse_bool =>
        have hw : cap = 1 ∨ cap = 2 ∨ cap = 4 ∨ cap = 8 := by simpa [supported_binding] using hs
        simp only [call_parse_func, conf_parse_bool, slot_value, SlotValue.number.injEq]
        exact numeric _ hw

/-- C19: for every descriptor with a supported binding and a string, integer, boolean,
memory-size or duration encoder, and every raw value, the encode succeeds from every state
and the value then held by the slot (the C string for the string encoder, the width-typed
integer otherwise) is the same from any two states; hence encoding `v1` and then `v2`
leaves the same slot value as encoding `v2` alone. -/
theorem encoders_overwrite (file : FileCall) (self : List parse_command_t)
    (d : parse_command_t) (hs : supported_binding d = true)
    (hd : d.parse_func ≠ some .conf_do_include) (n : Nat) :
    (∀ (v : List Nat) (vl : Nat) (st1 st2 : State),
      ∃ s1 s2, call_parse_func file self d (some v) vl st1 = .ret 0 s1 ∧
        call_parse_func file self d (some v) vl st2 = .ret 0 s2 ∧
        slot_value d s1.mem n = slot_value d s2.mem n) ∧
    (∀ (v1 v2 : List Nat) (vl1 vl2 : Nat) (st : State),
      ∃ s1 s12 s2, call_parse_func file self d (some v1) vl1 st = .ret 0 s1 ∧
        call_parse_func file self d (some v2) vl2 s1 = .ret 0 s12 ∧
        call_parse_func file self d (some v2) vl2 st = .ret 0 s2 ∧
        slot_value d s12.mem n = slot_value d s2.mem n) := by
  refine ⟨fun v vl st1 st2 => value_encoder_indep file self d hs hd v vl n st1 st2, ?_⟩
  intro v1 v2 vl1 vl2 st
  obtain ⟨m, h1⟩ := value_encoder_ok file self d hs hd v1 vl1 st
  obtain ⟨s12, s2, h2, h3, h4⟩ := value_encoder_indep file self d hs hd v2 vl2 n
    { st with mem := m } st
  exact ⟨_, s12, s2, h1, h2, h3, h4⟩

/-- An instance of C19 on the string descriptor `title`: "first value" then "two" leaves
the same string as "two" alone. -/
theorem encoders_overwrite_witness :
    ∃ s1 s12 s2,
      call_parse_func (fun _ _ _ => .nofuel) title_registry title_descriptor
        (some (ascii "first value")) 11 initial_state = .ret 0 s1 ∧
      call_parse_func (fun _ _ _ => .nofuel) title_registry title_descriptor
        (some (ascii "two")) 3 s1 = .ret 0 s12 ∧
      call_parse_func (fun _ _ _ => .nofuel) title_registry title_descriptor
        (some (ascii "two")) 3 initial_state = .ret 0 s2 ∧
      slot_value title_descriptor s12.mem 17 = slot_value title_descriptor s2.mem 17 :=
  (encoders_overwrite (fun _ _ _ => .nofuel) title_registry title_descriptor (by decide)
    (by decide) 17).2 (ascii "first value") (ascii "two") 11 3 initial_state

/-! ## C20: the boolean encoder reads one byte -/

/-- C20: for every raw value `v` and every supported width, `conf_parse_bool` returns 0
and stores 1 when the first byte of `v` is one of the lowercase characters y, t, o, 1 and 0
otherwise; a value with the same first byte gives the same outcome; "Yes", "TRUE" and "On"
decode to 0. -/
theorem conf_parse_bool_first_byte (mem : Mem) (a w vl : Nat) (v : List Nat)
    (hw : w = 1 ∨ w = 2 ∨ w = 4 ∨ w = 8) :
    (∃ m, conf_parse_bool (.data a) w (some v) vl mem = .ret 0 m ∧
      get_int_from_addr m (.data a) w = some
        (if v.head? = some 121 ∨ v.head? = some 116 ∨ v.head? = some 111 ∨ v.head? = some 49
          then 1 else 0)) ∧
    (∀ v1 : List Nat, v1.head? = v.head? →
      conf_parse_bool (.data a) w (some v1) vl mem = conf_parse_bool (.data a) w (some v) vl mem) ∧
    (∀ u ∈ [ascii "Yes", ascii "TRUE", ascii "On"],
      ∃ m, conf_parse_bool (.data a) w (some u) vl mem = .ret 0 m ∧
        get_int_from_addr m (.data a) w = some 0) := by
  have one : to_signed (8 * w) 1 = 1 := by
    rcases hw with rfl | rfl | rfl | rfl <;> decide
  have zero : to_signed (8 * w) 0 = 0 := by
    rcases hw with rfl | rfl | rfl | rfl <;> decide
  have key : ∀ u : List Nat, char_at u 0 = 121 ∨ char_at u 0 = 116 ∨ char_at u 0 = 111 ∨
      char_at u 0 = 49 ↔
      u.head? = some 121 ∨ u.head? = some 116 ∨ u.head? = some 111 ∨ u.head? = some 49 := by
    intro u
    rw [char_at_zero]
    cases u with
    | nil => simp
    | cons c cs => simp
  refine ⟨?_, ?_, ?_⟩
  · obtain ⟨m, h1, h2⟩ := put_or_fail_get mem a w
      (if char_at v 0 = 121 ∨ char_at v 0 = 116 ∨ char_at v 0 = 111 ∨ char_at v 0 = 49
        then 1 else 0) hw
    refine ⟨m, h1, ?_⟩
    rw [h2]
    by_cases hc : char_at v 0 = 121 ∨ char_at v 0 = 116 ∨ char_at v 0 = 111 ∨ char_at v 0 = 49
    · rw [if_pos hc, if_pos ((key v).mp hc), one]
    · rw [if_neg hc, if_neg (fun h => hc ((key v).mpr h)), zero]
  · intro v1 hv1
    have : char_at v1 0 = char_at v 0 := by
      rw [char_at_zero, char_at_zero]
      cases v1 <;> cases v <;> simp_all
    simp only [conf_parse_bool, this]
  · have f := put_or_fail_get mem a w 0 hw
    rw [zero] at f
    intro u hu
    simp only [List.mem_cons, List.mem_singleton, List.not_mem_nil, or_false] at hu
    rcases hu with rfl | rfl | rfl <;> exact f

/-- An instance of C20 at width 2 on the value "yup". -/
theorem conf_parse_bool_first_byte_witness :
    (∃ m, conf_parse_bool (.data 16) 2 (some (ascii "yup")) 3 (fun _ => 9) = .ret 0 m ∧
      get_int_from_addr m (.data 16) 2 = some
        (if (ascii "yup").head? = some 121 ∨ (ascii "yup").head? = some 116 ∨
            (ascii "yup").head? = some 111 ∨ (ascii "yup").head? = some 49
          then 1 else 0)) ∧
    (∀ v1 : List Nat, v1.head? = (ascii "yup").head? →
      conf_parse_bool (.data 16) 2 (some v1) 3 (fun _ => 9)
        = conf_parse_bool (.data 16) 2 (some (ascii "yup")) 3 (fun _ => 9)) ∧
    (∀ u ∈ [ascii "Yes", ascii "TRUE", ascii "On"],
      ∃ m, conf_parse_bool (.data 16) 2 (some u) 3 (fun _ => 9) = .ret 0 m ∧
        get_int_from_addr m (.data 16) 2 = some 0) :=
  conf_parse_bool_first_byte (fun _ => 9) 16 2 3 (ascii "yup") (by decide)

/-! ## C21: memory sizes written in base 16 -/

/-- A hexadecimal digit is neither NUL nor the letter x, and `char2digit` gives its
value. -/
theorem char2digit_hex (c d : Nat) (h : spec_base_digit 16 c = some d) :
    char2digit c = d ∧ d < 16 ∧ c ≠ 0 ∧ c ≠ 120 ∧ c ≠ 88 := by
  unfold spec_base_digit at h
  unfold char2digit
  split_ifs at h with h1 h2 h3
  · injection h with h
    simp only [h1, and_self, if_true]
    omega
  · injection h with h
    have e1 : ¬ (48 ≤ c ∧ c ≤ 57) := h1
    have e2 : 97 ≤ c ∧ c ≤ 122 := by omega
    simp only [e1, e2, and_self, if_true, if_false]
    omega
  · injection h with h
    have e1 : ¬ (48 ≤ c ∧ c ≤ 57) := h1
    have e2 : ¬ (97 ≤ c ∧ c ≤ 122) := by omega
    have e3 : 65 ≤ c ∧ c ≤ 90 := by omega
    simp only [e1, e2, e3, and_self, if_true, if_false]
    omega

/-- The `switch` on a hexadecimal digit other than `b` and `B`: the default branch. -/
theorem memspace_switch_hex (s : MemspaceVars) (c d : Nat)
    (h : spec_base_digit 16 c = some d) (hb : c ≠ 98 ∧ c ≠ 66) :
    memspace_switch s c = { s with tmp := to_signed 64 (s.tmp * s.base + d) } := by
  obtain ⟨h1, _, _, _, _⟩ := char2digit_hex c d h
  have hr : c ≤ 57 ∨ (97 ≤ c ∧ c ≤ 102) ∨ (65 ≤ c ∧ c ≤ 70) := by
    unfold spec_base_digit at h
    split_ifs at h <;> omega
  unfold memspace_switch
  rw [h1]
  have e1 : ¬ (c = 107 ∨ c = 75) := by omega
  have e2 : ¬ (c = 109 ∨ c = 77) := by omega
  have e3 : ¬ (c = 103 ∨ c = 71) := by omega
  have e4 : ¬ (c = 116 ∨ c = 84) := by omega
  have e5 : ¬ (c = 112 ∨ c = 80) := by omega
  have e6 : ¬ (c = 98 ∨ c = 66) := by omega
  simp only [e1, e2, e3, e4, e5, e6, if_false]

/-- Reading more hexadecimal digits does not lower the value. -/
theorem spec_hex_value_le (h : List Nat) : ∀ acc, acc ≤ spec_hex_value acc h := by
  induction h with
  | nil => intro acc; exact Nat.le_refl _
  | cons c cs ih =>
    intro acc
    have := ih (acc * 16 + (spec_base_digit 16 c).getD 0)
    simp only [spec_hex_value]
    omega

/-- The scan of `conf_parse_memspace_as_bytes` in base 16 over hexadecimal digits other
than `b` and `B`: the accumulator takes their base-16 value. -/
theorem memspace_loop_hex (n : Int) (h : List Nat)
    (hh : ∀ c ∈ h, (spec_base_digit 16 c).isSome = true ∧ c ≠ 98 ∧ c ≠ 66) :
    ∀ (i : Int) (rest : List Nat) (s : MemspaceVars) (t : Nat), s.base = 16 → s.tmp = t →
      i + h.length ≤ n → spec_hex_value t h < 2 ^ 63 →
      memspace_loop n i (h ++ rest) s
        = memspace_loop n (i + h.length) rest { s with tmp := (spec_hex_value t h : Nat) } := by
  induction h with
  | nil =>
    intro i rest s t _ ht _ _
    simp [spec_hex_value, ← ht]
  | cons c cs ih =>
    intro i rest s t hb ht hn hv
    obtain ⟨hc1, hc2⟩ := hh c (List.mem_cons_self _ _)
    obtain ⟨d, hd⟩ := Option.isSome_iff_exists.mp hc1
    obtain ⟨_, hd16, k0, k1, k2⟩ := char2digit_hex c d hd
    have hlen : ((c :: cs).length : Int) = cs.length + 1 := by simp
    have hv1 : spec_hex_value (t * 16 + d) cs < 2 ^ 63 := by
      simpa [spec_hex_value, hd] using hv
    have hle := spec_hex_value_le cs (t * 16 + d)
    have hstep : to_signed 64 (s.tmp * s.base + d) = ((t * 16 + d : Nat) : Int) := by
      rw [hb, ht]
      push_cast
      exact to_signed_of_range 64 _ (by norm_num) (by norm_num; omega) (by norm_num; omega)
    rw [List.cons_append, memspace_loop_cons n i c _ s (by omega) k0 ⟨k1, k2⟩,
      memspace_switch_hex s c d hd hc2, hstep,
      ih (fun x hx => hh x (List.mem_cons_of_mem _ hx)) (i + 1) rest
        { s with tmp := ((t * 16 + d : Nat) : Int) } (t * 16 + d) hb rfl (by omega) hv1]
    have e : i + 1 + (cs.length : Int) = i + ((c :: cs).length : Int) := by rw [hlen]; ring
    rw [e]
    simp [spec_hex_value, hd]

/-- The letter x at index 1 with an empty accumulator switches the scan to base 16. -/
theorem memspace_loop_base_switch (n : Int) (x : Nat) (cs : List Nat) (s : MemspaceVars)
    (hn : 1 < n) (hx : x = 120 ∨ x = 88) (ht : s.tmp = 0) :
    memspace_loop n 1 (x :: cs) s = memspace_loop n (1 + 1) cs { s with base := 16, tmp := 0 } := by
  rw [memspace_loop]
  have c1 : ¬ (¬ ((1 : Int) < n) ∨ x = 0) := by omega
  have c2 : (1 : Int) = 1 ∧ (x = 120 ∨ x = 88) ∧ s.tmp = 0 := ⟨rfl, hx, ht⟩
  rw [if_neg c1, if_pos c2]

/-- Counterexample to C21 as stated: "1b" is a text of hexadecimal digits of base-16
value 27, yet on "0x1b" and on "0X1B" the letter is taken as the byte unit and the slot
reads 1. -/
theorem memspace_hex_b_is_unit :
    (ascii "1b").all (fun c => (spec_base_digit 16 c).isSome) = true ∧
    spec_hex_value 0 (ascii "1b") = 27 ∧ spec_hex_value 0 (ascii "1B") = 27 ∧
    (∃ m, conf_parse_memspace_as_bytes (.data 16) 8 (some (ascii "0x1b")) 4 (fun _ => 0)
        = .ret 0 m ∧
      get_int_from_addr m (.data 16) 8 = some 1) ∧
    (∃ m, conf_parse_memspace_as_bytes (.data 16) 8 (some (ascii "0X1B")) 4 (fun _ => 0)
        = .ret 0 m ∧
      get_int_from_addr m (.data 16) 8 = some 1) :=
  ⟨by decide, by decide, by decide, ⟨_, rfl, by decide⟩, ⟨_, rfl, by decide⟩⟩

/-- C21, amended: for every text `h` of hexadecimal digits other than `b` and `B` whose
base-16 value is below `2 ^ 63`, with `"0x" ++ h` shorter than `2 ^ 31` bytes,
`conf_parse_memspace_as_bytes` at width 8 on `"0x" ++ h`, and on `"0X" ++ h`, returns 0 and
the slot reads back as the base-16 value of `h`. -/
theorem conf_parse_memspace_hex (mem : Mem) (a x : Nat) (h : List Nat)
    (hx : x = 120 ∨ x = 88)
    (hh : ∀ c ∈ h, (spec_base_digit 16 c).isSome = true ∧ c ≠ 98 ∧ c ≠ 66)
    (hlen : h.length + 2 < 2 ^ 31)
    (hv : spec_hex_value 0 h < 2 ^ 63) :
    ∃ m, conf_parse_memspace_as_bytes (.data a) 8 (some (48 :: x :: h)) (h.length + 2) mem
        = .ret 0 m ∧
      get_int_from_addr m (.data a) 8 = some ((spec_hex_value 0 h : Nat) : Int) := by
  have hval : memspace_value (48 :: x :: h) (h.length + 2) = ((spec_hex_value 0 h : Nat) : Int) := by
    unfold memspace_value
    rw [to_signed_32_length _ hlen]
    have h0 := memspace_switch_digit
      { base := 10, bytes := 0, kib := 0, mib := 0, gib := 0, tib := 0, pib := 0, tmp := 0 } 0
      (by decide)
    have hz : to_signed 64 ((0 : Int) * 10 + ((0 : Nat) : Int)) = 0 := by decide
    simp only [hz, Nat.zero_add] at h0
    rw [memspace_loop_cons _ 0 48 _ _ (by push_cast; omega) (by decide) (by decide), h0]
    rw [show ((0 : Int) + 1) = 1 from rfl,
      memspace_loop_base_switch _ x h _ (by push_cast; omega) hx rfl]
    have h2 := memspace_loop_hex ((h.length + 2 : Nat) : Int) h hh (1 + 1) []
      { base := 16, bytes := 0, kib := 0, mib := 0, gib := 0, tib := 0, pib := 0, tmp := 0 }
      0 rfl rfl (by push_cast; omega) hv
    rw [List.append_nil] at h2
    rw [h2]
    simp only [memspace_loop, memspace_shifted]
    norm_num
    exact to_signed_of_range 64 _ (by norm_num) (by norm_num; omega) (by norm_num; omega)
  obtain ⟨m, h1, h2⟩ := put_or_fail_get mem a 8 ((spec_hex_value 0 h : Nat) : Int) (by decide)
  refine ⟨m, ?_, ?_⟩
  · unfold conf_parse_memspace_as_bytes
    simp only [hval]
    exact h1
  · rw [h2, show (8 * 8 : Nat) = 64 from rfl,
      to_signed_of_range 64 _ (by norm_num) (by norm_num; omega) (by norm_num; omega)]

/-- Witness for C21: "0x1aF" and "0X7fffffffffffffff" at width 8. -/
theorem conf_parse_memspace_hex_witness :
    (∃ m, conf_parse_memspace_as_bytes (.data 16) 8 (some (ascii "0x1aF")) 5 (fun _ => 0)
        = .ret 0 m ∧
      get_int_from_addr m (.data 16) 8 = some 431) ∧
    (∃ m, conf_parse_memspace_as_bytes (.data 16) 8 (some (ascii "0X7fffffffffffffff")) 18
        (fun _ => 0) = .ret 0 m ∧
      get_int_from_addr m (.data 16) 8 = some (2 ^ 63 - 1)) :=
  ⟨conf_parse_memspace_hex (fun _ => 0) 16 120 (ascii "1aF") (by decide) (by decide)
      (by decide) (by decide),
   conf_parse_memspace_hex (fun _ => 0) 16 88 (ascii "7fffffffffffffff") (by decide)
      (by decide) (by decide) (by decide)⟩

/-! ## C22: characters that are not digits -/

/-- One turn of the scan of `conf_parse_memspace_as_bytes` that reaches the `switch`. -/
theorem memspace_loop_step (n i : Int) (c : Nat) (cs : List Nat) (s : MemspaceVars)
    (h1 : i < n) (h2 : c ≠ 0) (h3 : ¬ (i = 1 ∧ (c = 120 ∨ c = 88) ∧ s.tmp = 0)) :
    memspace_loop n i (c :: cs) s = memspace_loop n (i + 1) cs (memspace_switch s c) := by
  rw [memspace_loop]
  have c1 : ¬ (¬ (i < n) ∨ c = 0) := by omega
  rw [if_neg c1, if_neg h3]

/-- One turn of the scan of `conf_parse_time_as_second` that reaches the `switch`. -/
theorem time_loop_step (n i : Int) (c : Nat) (cs : List Nat) (s : TimeVars)
    (h1 : i < n) (h2 : c ≠ 0) (h3 : ¬ (i = 1 ∧ (c = 120 ∨ c = 88) ∧ s.tmp = 0)) :
    time_loop n i (c :: cs) s = time_loop n (i + 1) cs (time_switch s c) := by
  rw [time_loop]
  have c1 : ¬ (¬ (i < n) ∨ c = 0) := by omega
  rw [if_neg c1, if_neg h3]

/-- The `default` branch of the `switch` of `conf_parse_memspace_as_bytes`. -/
theorem memspace_switch_default (s : MemspaceVars) (c : Nat) (hc : c ∉ spec_memspace_units) :
    memspace_switch s c = { s with tmp := to_signed 64 (s.tmp * s.base + char2digit c) } := by
  simp only [spec_memspace_units, List.mem_cons, List.mem_singleton, List.not_mem_nil,
    or_false, not_or] at hc
  unfold memspace_switch
  have e1 : ¬ (c = 107 ∨ c = 75) := by omega
  have e2 : ¬ (c = 109 ∨ c = 77) := by omega
  have e3 : ¬ (c = 103 ∨ c = 71) := by omega
  have e4 : ¬ (c = 116 ∨ c = 84) := by omega
  have e5 : ¬ (c = 112 ∨ c = 80) := by omega
  have e6 : ¬ (c = 98 ∨ c = 66) := by omega
  simp only [e1, e2, e3, e4, e5, e6, if_false]

/-- The `default` branch of the `switch` of `conf_parse_time_as_second`. -/
theorem time_switch_default (s : TimeVars) (c : Nat) (hc : c ∉ spec_time_units) :
    time_switch s c = { s with tmp := to_signed 64 (s.tmp * s.base + char2digit c) } := by
  simp only [spec_time_units, List.mem_cons, List.mem_singleton, List.not_mem_nil,
    or_false, not_or] at hc
  unfold time_switch
  have e1 : ¬ (c = 115 ∨ c = 83) := by omega
  have e2 : ¬ (c = 109 ∨ c = 77) := by omega
  have e3 : ¬ (c = 104 ∨ c = 72) := by omega
  have e4 : ¬ (c = 100 ∨ c = 68) := by omega
  have e5 : ¬ (c = 121 ∨ c = 89) := by omega
  simp only [e1, e2, e3, e4, e5, if_false]

/-- A character that is no ASCII digit or letter has digit value 0, is no unit letter and
is not the letter x. -/
theorem char2digit_not_alnum (c : Nat) (h : spec_alnum c = false) :
    char2digit c = 0 ∧ c ∉ spec_memspace_units ∧ c ∉ spec_time_units ∧ c ≠ 120 ∧ c ≠ 88 := by
  simp only [spec_alnum, decide_eq_false_iff_not, not_or] at h
  obtain ⟨h1, h2, h3⟩ := h
  refine ⟨by simp only [char2digit, h1, h2, h3, if_false], ?_, ?_, by omega, by omega⟩
  · simp only [spec_memspace_units, List.mem_cons, List.mem_singleton, List.not_mem_nil,
      or_false, not_or]
    omega
  · simp only [spec_time_units, List.mem_cons, List.mem_singleton, List.not_mem_nil,
      or_false, not_or]
    omega

/-- A letter has the digit value 10 plus its place in the alphabet. -/
theorem char2digit_letter (c : Nat) (h : (97 ≤ c ∧ c ≤ 122) ∨ (65 ≤ c ∧ c ≤ 90)) :
    char2digit c = ((if 97 ≤ c then c - 97 + 10 else c - 65 + 10 : Nat) : Int) := by
  unfold char2digit
  have e1 : ¬ (48 ≤ c ∧ c ≤ 57) := by omega
  rcases h with h | h
  · rw [if_neg e1, if_pos h, if_pos h.1]
    omega
  · have e2 : ¬ (97 ≤ c ∧ c ≤ 122) := by omega
    have e3 : ¬ (97 ≤ c) := by omega
    rw [if_neg e1, if_neg e2, if_pos h, if_neg e3]
    omega

/-- Counterexample to C22 as stated: `z` is no unit letter of either encoder, is not the
letter x and is no digit of base 10, yet "1z" decodes to 45 in both encoders, not to 10. -/
theorem scan_letter_z_counts_35 :
    ¬ (122 ∈ spec_memspace_units) ∧ ¬ (122 ∈ spec_time_units) ∧
    spec_base_digit 10 122 = none ∧
    (∃ m, conf_parse_memspace_as_bytes (.data 16) 8 (some (ascii "1z")) 2 (fun _ => 0)
        = .ret 0 m ∧
      get_int_from_addr m (.data 16) 8 = some 45 ∧
      get_int_from_addr m (.data 16) 8 ≠ some 10) ∧
    (∃ m, conf_parse_time_as_second (.data 16) 8 (some (ascii "1z")) 2 (fun _ => 0)
        = .ret 0 m ∧
      get_int_from_addr m (.data 16) 8 = some 45 ∧
      get_int_from_addr m (.data 16) 8 ≠ some 10) :=
  ⟨by decide, by decide, by decide, ⟨_, rfl, by decide, by decide⟩,
    ⟨_, rfl, by decide, by decide⟩⟩

/-- C22, amended: in the scans of `conf_parse_memspace_as_bytes` and of
`conf_parse_time_as_second`, a character that is no ASCII digit or letter turns the
accumulator into `accumulator * base + 0`; a letter that is no unit letter of the encoder
and is not the base-switching x at index 1 turns it into `accumulator * base + (10 + its
place in the alphabet)`, whatever the base; at width 8 the raw value "1-2" decodes to 102
and "1z" decodes to 45 in both encoders. -/
theorem scan_digit_contribution (n i : Int) (c : Nat) (cs : List Nat) (ms : MemspaceVars)
    (ts : TimeVars) (mem : Mem) (a : Nat) (hi : i < n) (hc : c ≠ 0) :
    (spec_alnum c = false →
      memspace_loop n i (c :: cs) ms
        = memspace_loop n (i + 1) cs { ms with tmp := to_signed 64 (ms.tmp * ms.base + 0) } ∧
      time_loop n i (c :: cs) ts
        = time_loop n (i + 1) cs { ts with tmp := to_signed 64 (ts.tmp * ts.base + 0) }) ∧
    ((97 ≤ c ∧ c ≤ 122) ∨ (65 ≤ c ∧ c ≤ 90) →
      (c ∉ spec_memspace_units → ¬ (i = 1 ∧ (c = 120 ∨ c = 88) ∧ ms.tmp = 0) →
        memspace_loop n i (c :: cs) ms
          = memspace_loop n (i + 1) cs { ms with tmp := to_signed 64 (ms.tmp * ms.base
              + ((if 97 ≤ c then c - 97 + 10 else c - 65 + 10 : Nat) : Int)) }) ∧
      (c ∉ spec_time_units → ¬ (i = 1 ∧ (c = 120 ∨ c = 88) ∧ ts.tmp = 0) →
        time_loop n i (c :: cs) ts
          = time_loop n (i + 1) cs { ts with tmp := to_signed 64 (ts.tmp * ts.base
              + ((if 97 ≤ c then c - 97 + 10 else c - 65 + 10 : Nat) : Int)) })) ∧
    (∃ m, conf_parse_memspace_as_bytes (.data a) 8 (some (ascii "1-2")) 3 mem = .ret 0 m ∧
      get_int_from_addr m (.data a) 8 = some 102) ∧
    (∃ m, conf_parse_time_as_second (.data a) 8 (some (ascii "1-2")) 3 mem = .ret 0 m ∧
      get_int_from_addr m (.data a) 8 = some 102) ∧
    (∃ m, conf_parse_memspace_as_bytes (.data a) 8 (some (ascii "1z")) 2 mem = .ret 0 m ∧
      get_int_from_addr m (.data a) 8 = some 45) ∧
    (∃ m, conf_parse_time_as_second (.data a) 8 (some (ascii "1z")) 2 mem = .ret 0 m ∧
      get_int_from_addr m (.data a) 8 = some 45) := by
  have stored : ∀ v : Int, -(2 ^ 63) ≤ v → v < 2 ^ 63 →
      ∃ m, put_or_fail (.data a) 8 v mem = .ret 0 m ∧
        get_int_from_addr m (.data a) 8 = some v := by
    intro v h1 h2
    obtain ⟨m, e1, e2⟩ := put_or_fail_get mem a 8 v (by decide)
    refine ⟨m, e1, ?_⟩
    rw [e2, show (8 * 8 : Nat) = 64 from rfl,
      to_signed_of_range 64 _ (by norm_num) (by norm_num; omega) (by norm_num; omega)]
  refine ⟨?_, ?_, ?_, ?_, ?_, ?_⟩
  · intro hna
    obtain ⟨h0, hm, ht, hx1, hx2⟩ := char2digit_not_alnum c hna
    rw [memspace_loop_step n i c cs ms hi hc (by omega), memspace_switch_default ms c hm,
      time_loop_step n i c cs ts hi hc (by omega), time_switch_default ts c ht, h0]
    exact ⟨rfl, rfl⟩
  · intro hl
    refine ⟨fun hm hx => ?_, fun ht hx => ?_⟩
    · rw [memspace_loop_step n i c cs ms hi hc hx, memspace_switch_default ms c hm,
        char2digit_letter c hl]
    · rw [time_loop_step n i c cs ts hi hc hx, time_switch_default ts c ht,
        char2digit_letter c hl]
  · exact stored 102 (by norm_num) (by norm_num)
  · exact stored 102 (by norm_num) (by norm_num)
  · exact stored 45 (by norm_num) (by norm_num)
  · exact stored 45 (by norm_num) (by norm_num)

/-- Witness for C22: the character `-` at index 1 of "1-2" and the letter `z` at index 1
of "1z", in base 10. -/
theorem scan_digit_contribution_witness :
    (memspace_loop 3 1 (ascii "-2")
        { base := 10, bytes := 0, kib := 0, mib := 0, gib := 0, tib := 0, pib := 0, tmp := 1 }
      = memspace_loop 3 2 (ascii "2")
        { base := 10, bytes := 0, kib := 0, mib := 0, gib := 0, tib := 0, pib := 0,
          tmp := 10 }) ∧
    (time_loop 2 1 (ascii "z")
        { base := 10, seconds := 0, hours := 0, minutes := 0, days := 0, years := 0, tmp := 1 }
      = time_loop 2 2 []
        { base := 10, seconds := 0, hours := 0, minutes := 0, days := 0, years := 0,
          tmp := 45 }) :=
  ⟨((scan_digit_contribution 3 1 45 (ascii "2")
      { base := 10, bytes := 0, kib := 0, mib := 0, gib := 0, tib := 0, pib := 0, tmp := 1 }
      { base := 10, seconds := 0, hours := 0, minutes := 0, days := 0, years := 0, tmp := 1 }
      (fun _ => 0) 16 (by decide) (by decide)).1 (by decide)).1,
   ((scan_digit_contribution 2 1 122 []
      { base := 10, bytes := 0, kib := 0, mib := 0, gib := 0, tib := 0, pib := 0, tmp := 1 }
      { base := 10, seconds := 0, hours := 0, minutes := 0, days := 0, years := 0, tmp := 1 }
      (fun _ => 0) 16 (by decide) (by decide)).2.1 (by decide)).2 (by decide) (by decide)⟩

/-! ## C23: empty and blank lines -/

/-- C23: for every registry and state, `conf_parse_line` with `line_len = 0` returns 0,
and on a non-empty line made only of spaces and tabs (with its length as `line_len`) it
returns -1; in both cases the whole program state, hence the storage of every descriptor, is
unchanged. -/
theorem conf_parse_line_empty_or_blank (file : FileCall) (cmds : List parse_command_t)
    (line ws : List Nat) (st : State) (hne : ws ≠ []) (hws : ∀ x ∈ ws, x = 32 ∨ x = 9) :
    conf_parse_line file cmds line 0 st = .ret 0 st ∧
    conf_parse_line file cmds ws (strlen ws) st = .ret (-1) st := by
  have hz : ∀ x ∈ ws, x ≠ 0 := fun x hx => by rcases hws x hx with h | h <;> omega
  have hc : cstr ws = ws := cstr_of_ne_zero ws hz
  have hl : strlen ws ≠ 0 := by
    rw [strlen, hc]
    exact fun h => hne (List.length_eq_zero.mp h)
  refine ⟨rfl, ?_⟩
  unfold conf_parse_line
  rw [if_neg hl]
  have hd : (cstr ws).dropWhile (fun c => decide (c = 32 ∨ c = 9)) = [] := by
    rw [hc, List.dropWhile_eq_nil_iff]
    simpa using hws
  simp only [hd]

/-- Witness for C23: the line of length 0 and the line of one space and one tab, on the
registry of `foo_bar`. -/
theorem conf_parse_line_empty_or_blank_witness :
    conf_parse_line (fun _ _ _ => .nofuel) foo_bar_registry [] 0 initial_state
      = .ret 0 initial_state ∧
    conf_parse_line (fun _ _ _ => .nofuel) foo_bar_registry [32, 9] 2 initial_state
      = .ret (-1) initial_state :=
  conf_parse_line_empty_or_blank (fun _ _ _ => .nofuel) foo_bar_registry [] [32, 9]
    initial_state (by decide) (by decide)

end ConfParse
